import Mathlib

/-!
Shallow embedding of `src/HoistAnticipatedExpressions.cpp`, the core of the
hoist-anticipated-expressions pass, together with proofs about the claims of
the specification.

Modelling conventions:
* Machine values (`llvm::Value`) are `Val`: a function argument, a constant,
  or a reference to the result of the instruction with a given numeric id.
* An `Instr` is an opcode (`Op`) holding everything LLVM derives from the
  concrete instruction class (alloca-ness, phi-ness, terminator-ness, memory
  behaviour, callee signature of a call) plus the ordered operand list.
* A `Func` is a list of basic blocks (id, ordered instruction ids, successor
  ids) plus a map from instruction id to `Instr`; an instruction id plays the
  role of the `llvm::Instruction *` pointer identity.
* `std::set<Instruction *>` / `std::map` iterate in pointer order, which is
  arbitrary but fixed; the embedding resolves this nondeterminism by using
  insertion-ordered association lists, which realises one admissible order.
* The LLVM graph traversals `post_order` and `breadth_first` are external
  library iterators; the development is parameterised by the traversal orders
  (`ord`, `scan`, `bfs`) as functions of the CFG skeleton, constrained only
  by the properties those iterators guarantee, so every theorem covers the
  orders LLVM actually produces.
-/

/-- A machine value: a function argument, a constant, or the result of the
instruction with the given id (`llvm::Value` identity is nominal). -/
inductive Val where
  | arg : Nat → Val
  | cst : Int → Val
  | ins : Nat → Val
deriving DecidableEq, Repr

/-- Signature data of a statically resolved callee (`llvm::Function`): its
name (as a key into the library-function database), whether its return type
is a pointer type, and for each formal argument whether its type is a
pointer type. -/
structure FnSig where
  fname : Nat
  retPtr : Bool
  argPtrs : List Bool
deriving DecidableEq, Repr

/-- Instruction opcode. The constructor carries exactly the classification
the C++ code obtains from the instruction class: `alloca` (AllocaInst),
`phi` (PHINode), `term k` (a terminator such as br/ret, with `k`
distinguishing the concrete terminator opcode), `binop k` (a pure binary
operator such as add/mul), `load`/`store` (memory access), `call c`
(CallInst, with the statically resolved callee signature, or `none` for an
indirect call), and `other k reads se` (any further opcode with its
may-read-from-memory and may-have-side-effects behaviour). -/
inductive Op where
  | alloca : Op
  | phi : Op
  | term : Nat → Op
  | binop : Nat → Op
  | load : Op
  | store : Op
  | call : Option FnSig → Op
  | other : Nat → Bool → Bool → Op
deriving DecidableEq, Repr

/-- An instruction: an opcode and the ordered operand list. The id under
which an instruction is stored, and the block it resides in, are the
attributes the structural-equivalence predicate ignores. -/
structure Instr where
  op : Op
  ops : List Val
deriving DecidableEq, Repr

/-- `Instruction::isTerminator`. -/
def Op.isTermOp : Op → Bool
  | .term _ => true
  | _ => false

/-- `isa<PHINode>`. -/
def Op.isPhiOp : Op → Bool
  | .phi => true
  | _ => false

/-- `isa<AllocaInst>`. -/
def Op.isAllocaOp : Op → Bool
  | .alloca => true
  | _ => false

/-- `isa<CallInst>`, with the resolved callee when it is one. -/
def Op.callSig : Op → Option (Option FnSig)
  | .call c => some c
  | _ => none

/-- `Instruction::mayReadFromMemory` for the non-call opcodes the C++ code
queries it on. -/
def Op.mayRead : Op → Bool
  | .load => true
  | .other _ r _ => r
  | _ => false

/-- `Instruction::mayHaveSideEffects` for the non-call opcodes the C++ code
queries it on. -/
def Op.maySE : Op → Bool
  | .store => true
  | .other _ _ s => s
  | _ => false

/-- The library-function database (`TargetLibraryInfo`): `recognized n` is
`TLI.getLibFunc(name, LF)` succeeding for the function named `n`. -/
structure TLI where
  recognized : Nat → Bool

/-- `isFunctionPure` (src lines 66-85): a call is accepted iff the callee is
statically resolvable, its return type is not a pointer, no formal argument
type is a pointer, and its name is recognized by the library-function
database. The database is consulted only for recognition; no further
attribute of the library routine is inspected. -/
def isFunctionPure (tli : TLI) (callee : Option FnSig) : Bool :=
  match callee with
  | none => false
  | some f =>
      if f.retPtr then false
      else if f.argPtrs.any (fun b => b) then false
      else tli.recognized f.fname

/-- `isToBeIgnored` (src lines 87-94): allocas are ignored; a call is ignored
iff `isFunctionPure` rejects it (its own memory flags are not consulted);
any other instruction is ignored iff it may read from memory, may have side
effects, or is a terminator. -/
def isToBeIgnored (tli : TLI) (I : Instr) : Bool :=
  if I.op.isAllocaOp then true
  else
    match I.op.callSig with
    | some c => !isFunctionPure tli c
    | none => I.op.mayRead || I.op.maySE || I.op.isTermOp

/-- A basic block: id, ordered instruction ids (terminator last), successor
block ids (in terminator operand order; duplicates possible, matching
`successors(BB)`). -/
structure Block where
  bid : Nat
  insts : List Nat
  succs : List Nat
deriving DecidableEq, Repr

/-- A function: entry block id, blocks, and the instruction store mapping
each instruction id to its current `Instr`. -/
structure Func where
  entry : Nat
  blocks : List Block
  imap : List (Nat × Instr)
deriving DecidableEq, Repr

/-- Look up a block by id. -/
def blockOf (f : Func) (b : Nat) : Option Block :=
  f.blocks.find? (fun blk => blk.bid == b)

/-- Look up an instruction by id. -/
def instOf (f : Func) (i : Nat) : Option Instr :=
  match f.imap.find? (fun p => p.1 == i) with
  | some p => some p.2
  | none => none

/-- Modelled from the spec: `Instruction::isIdenticalTo` is host (LLVM)
library code, not part of this repository; per the spec's Structural
Equivalence contract it holds iff the two instructions have the same opcode
and the same ordered operand list, operands compared by `Val` identity. -/
def identicalTo (f : Func) (i j : Nat) : Bool :=
  match instOf f i, instOf f j with
  | some a, some b => a.op == b.op && a.ops == b.ops
  | _, _ => false

/-- Insert into a pointer-set modelled as an insertion-ordered duplicate-free
list (`std::set::insert`). -/
def insertIfAbsent (l : List Nat) (x : Nat) : List Nat :=
  if x ∈ l then l else l ++ [x]

/-- Read a per-block set map, defaulting to the empty set
(`std::map::operator[]` on a missing key). -/
def lookupSets (m : List (Nat × List Nat)) (k : Nat) : List Nat :=
  match m.find? (fun p => p.1 == k) with
  | some p => p.2
  | none => []

/-- Write a per-block set map entry. -/
def storeSets (m : List (Nat × List Nat)) (k : Nat) (v : List Nat) :
    List (Nat × List Nat) :=
  match m with
  | [] => [(k, v)]
  | p :: rest => if p.1 == k then (k, v) :: rest else p :: storeSets rest k v

/-- The condition of `findUseSet`'s insertion (src line 100):
`!isToBeIgnored(&I, TLI) && !isa<PHINode>(I)`. -/
def useCond (tli : TLI) (f : Func) (i : Nat) : Bool :=
  match instOf f i with
  | some I => !isToBeIgnored tli I && !I.op.isPhiOp
  | none => false

/-- `findUseSet` (src lines 96-102): every instruction of the block that is
not to be ignored and is not a phi node. -/
def findUseSet (tli : TLI) (f : Func) (blk : Block) : List Nat :=
  blk.insts.foldl
    (fun acc i => if useCond tli f i then insertIfAbsent acc i else acc) []

/-- The condition of `findDefSet`'s insertion (src lines 107-109): the
entry `p` is a user of instruction `u`'s result and resides in the block. -/
def defCond (blk : Block) (u : Nat) (p : Nat × Instr) : Bool :=
  decide (Val.ins u ∈ p.2.ops) && decide (p.1 ∈ blk.insts)

/-- `findDefSet` (src lines 104-111): for every instruction `I` of the block,
every user of `I`'s result that itself resides in the block is inserted
(the *consuming* instruction `U.getUser()`, not `I`). -/
def findDefSet (f : Func) (blk : Block) : List Nat :=
  blk.insts.foldl
    (fun acc u =>
      f.imap.foldl
        (fun acc2 p =>
          if defCond blk u p then insertIfAbsent acc2 p.1 else acc2)
        acc)
    []

/-- `findInSet` (src lines 113-127): the members of `Out(B)` with no
structurally identical member in `Def(B)`, then the members of `Use(B)` with
no structurally identical member in `Def(B)`. -/
def findInSet (f : Func) (useL defL outL : List Nat) : List Nat :=
  (outL ++ useL).foldl
    (fun acc i =>
      if defL.all (fun d => !identicalTo f i d) then insertIfAbsent acc i
      else acc)
    []

/-- Inner loop of `findOutSet` (src lines 144-149): one element `y` of a
successor's In set walks the current tally entries in order; every entry
structurally identical to `y` and not yet seen for this successor is
incremented and marked seen; `matched` records whether any entry was hit. -/
def procKeys (f : Func) (y : Nat) :
    List (Nat × Nat) → List Nat → List (Nat × Nat) × List Nat × Bool
  | [], seen => ([], seen, false)
  | kv :: rest, seen =>
      if identicalTo f y kv.1 && !(kv.1 ∈ seen : Bool) then
        let r := procKeys f y rest (seen ++ [kv.1])
        ((kv.1, kv.2 + 1) :: r.1, r.2.1, true)
      else
        let r := procKeys f y rest seen
        (kv :: r.1, r.2.1, r.2.2)

/-- `count[I] = 1` (src line 151): assign through `std::map::operator[]`,
overwriting the tally if the key already exists. -/
def storeKey (count : List (Nat × Nat)) (y : Nat) : List (Nat × Nat) :=
  match count with
  | [] => [(y, 1)]
  | kv :: rest => if kv.1 == y then (y, 1) :: rest else kv :: storeKey rest y

/-- Process one element of a successor's In set (src lines 142-152). -/
def procElem (f : Func) (st : List (Nat × Nat) × List Nat) (y : Nat) :
    List (Nat × Nat) × List Nat :=
  let r := procKeys f y st.1 st.2
  if r.2.2 then (r.1, r.2.1) else (storeKey r.1 y, r.2.1)

/-- Process one successor (src lines 137-153): the seen marks are reset, then
every element of that successor's In set is tallied. -/
def procSucc (f : Func) (inM : List (Nat × List Nat))
    (count : List (Nat × Nat)) (s : Nat) : List (Nat × Nat) :=
  ((lookupSets inM s).foldl (procElem f) (count, [])).1

/-- `findOutSet` (src lines 129-158): tally the In sets of all successors,
then keep the keys whose tally equals the number of successors. -/
def findOutSet (f : Func) (blk : Block) (inM : List (Nat × List Nat)) :
    List Nat :=
  let count := blk.succs.foldl (procSucc f inM) []
  (count.filter (fun kv => kv.2 == blk.succs.length)).map (fun kv => kv.1)

/-- The per-round analysis maps (`UseSets`, `DefSets`, `InSets`, `OutSets`). -/
structure AMaps where
  useM : List (Nat × List Nat)
  defM : List (Nat × List Nat)
  inM : List (Nat × List Nat)
  outM : List (Nat × List Nat)
deriving Repr

/-- The empty analysis state of a fresh round. -/
def emptyAMaps : AMaps := ⟨[], [], [], []⟩

/-- One step of the analysis walk (src lines 205-210): for block `b`, build
`Use(b)` and `Def(b)`, then `Out(b)` from the successors' In sets as
computed so far, then `In(b)`. -/
def analyzeStep (tli : TLI) (f : Func) (M : AMaps) (b : Nat) : AMaps :=
  match blockOf f b with
  | none => M
  | some blk =>
      let useL := findUseSet tli f blk
      let defL := findDefSet f blk
      let outL := findOutSet f blk M.inM
      let inL := findInSet f useL defL outL
      ⟨storeSets M.useM b useL, storeSets M.defM b defL,
       storeSets M.inM b inL, storeSets M.outM b outL⟩

/-- The full analysis of one round: the blocks are processed in the order
`L` (LLVM's `post_order` from the entry block). -/
def analyzeF (tli : TLI) (f : Func) (L : List Nat) : AMaps :=
  L.foldl (analyzeStep tli f) emptyAMaps

/-- The CFG skeleton (block ids with successor lists, plus the entry id):
the part of a function the graph traversals depend on. It is unchanged by
hoisting, which only relocates and deletes instructions. -/
def skel (f : Func) : List (Nat × List Nat) × Nat :=
  (f.blocks.map (fun blk => (blk.bid, blk.succs)), f.entry)

/-- `checkBeforeMove` (src lines 160-166): the first instruction of the
block structurally identical to the candidate, if any. -/
def checkBeforeMove (f : Func) (b : Nat) (inst : Nat) : Option Nat :=
  match blockOf f b with
  | some blk => blk.insts.find? (fun i => identicalTo f i inst)
  | none => none

/-- Insert an id immediately before the last element of a list
(`moveBefore(BB->getTerminator())` inserts before the terminator, which is
the last instruction of the block). -/
def insertBeforeLast (x : Nat) : List Nat → List Nat
  | [] => [x]
  | [t] => [x, t]
  | a :: b :: rest => a :: insertBeforeLast x (b :: rest)

/-- `Inst->moveBefore(End)` (src line 180): remove the instruction from its
current block and insert it before the terminator of block `b`. The
instruction store is untouched. -/
def moveToEnd (f : Func) (b : Nat) (i : Nat) : Func :=
  { f with
    blocks := f.blocks.map (fun blk =>
      let rest := blk.insts.filter (fun j => j ≠ i)
      if blk.bid == b then { blk with insts := insertBeforeLast i rest }
      else { blk with insts := rest }) }

/-- Substitute value `v` (the result of instruction id `v`) by the result of
instruction id `w`. -/
def subVal (v w : Nat) (x : Val) : Val :=
  if x = Val.ins v then Val.ins w else x

/-- `I.replaceAllUsesWith(Inst)` (src line 185): every operand referring to
instruction `v` anywhere in the function now refers to `w`. -/
def rauw (f : Func) (v w : Nat) : Func :=
  { f with
    imap := f.imap.map (fun p => (p.1, ⟨p.2.op, p.2.ops.map (subVal v w)⟩)) }

/-- The sweep of one candidate (src lines 182-187): every instruction in the
given traversal region that is structurally identical to the canonical
instance but is not that instance has all its uses redirected to the
canonical instance and is marked for deletion. `ids` lists the instructions
of the blocks `breadth_first(BB)` yields, in traversal order. -/
def sweep (inst : Nat) (ids : List Nat) (st : Func × List Nat) :
    Func × List Nat :=
  ids.foldl
    (fun acc i =>
      if identicalTo acc.1 i inst && !(i == inst) then
        (rauw acc.1 i inst, insertIfAbsent acc.2 i)
      else acc)
    st

/-- The instructions of the traversal region, in traversal order, read off
the current graph (the region's block membership is stable during a sweep;
only operands change). -/
def regionInsts (f : Func) (bl : List Nat) : List Nat :=
  bl.foldr
    (fun b acc =>
      match blockOf f b with
      | some blk => blk.insts ++ acc
      | none => acc)
    []

/-- Processing one candidate of `Out(B)` (src lines 173-187): designate the
canonical instance (an existing structurally identical instruction of `B`,
else the candidate relocated before `B`'s terminator), then sweep the region
reachable from `B`. `bfs` gives, per skeleton and start block, the block
order of `breadth_first(BB)`. -/
def processCandidate (bfs : List (Nat × List Nat) × Nat → Nat → List Nat)
    (b : Nat) (st : Func × List Nat) (orig : Nat) : Func × List Nat :=
  match checkBeforeMove st.1 b orig with
  | some inst => sweep inst (regionInsts st.1 (bfs (skel st.1) b)) st
  | none =>
      let f' := moveToEnd st.1 b orig
      sweep orig (regionInsts f' (bfs (skel f') b)) (f', st.2)

/-- `I->eraseFromParent()` (src line 191): delete the instruction from its
block and from the instruction store. -/
def eraseInst (f : Func) (i : Nat) : Func :=
  { f with
    blocks := f.blocks.map (fun blk =>
      { blk with insts := blk.insts.filter (fun j => j ≠ i) }),
    imap := f.imap.filter (fun p => p.1 ≠ i) }

/-- `hoistInstructions` (src lines 168-194): process every candidate of
`Out(B)`, then erase every marked instruction; return whether `Out(B)` was
non-empty (`Changed` is set in every loop iteration). -/
def hoistInstructions (bfs : List (Nat × List Nat) × Nat → Nat → List Nat)
    (f : Func) (b : Nat) (outM : List (Nat × List Nat)) : Func × Bool :=
  let out := lookupSets outM b
  let r := out.foldl (processCandidate bfs b) (f, [])
  (r.2.foldl eraseInst r.1, !out.isEmpty)

/-- The hoisting scan of one round (src lines 212-216): blocks are visited
in `breadth_first` order from the entry; the first block whose Hoister
invocation reports a change stops the scan. -/
def scanGo (bfs : List (Nat × List Nat) × Nat → Nat → List Nat)
    (outM : List (Nat × List Nat)) (f : Func) : List Nat → Func × Bool
  | [] => (f, false)
  | b :: rest =>
      let r := hoistInstructions bfs f b outM
      if r.2 then (r.1, true) else scanGo bfs outM r.1 rest

/-- One round of the driver (src lines 201-216): build all sets over the
analysis order, then scan for the first block that hoists. `ord` gives the
`post_order` walk and `scan` the `breadth_first` walk of the driver, both
as functions of the skeleton. -/
def roundStep (ord scan : List (Nat × List Nat) × Nat → List Nat)
    (bfs : List (Nat × List Nat) × Nat → Nat → List Nat)
    (tli : TLI) (f : Func) : Func × Bool :=
  let M := analyzeF tli f (ord (skel f))
  scanGo bfs M.outM f (scan (skel f))

/-- The driver's outer loop (src lines 200-217) with explicit round fuel:
keep restarting from scratch while a round reports a change. -/
def driveN (ord scan : List (Nat × List Nat) × Nat → List Nat)
    (bfs : List (Nat × List Nat) × Nat → Nat → List Nat)
    (tli : TLI) : Nat → Func → Func
  | 0, f => f
  | n + 1, f =>
      let r := roundStep ord scan bfs tli f
      if r.2 then driveN ord scan bfs tli n r.1 else f

/-- The driver's `Converged` state: a full scan reports no change. -/
def convergedF (ord scan : List (Nat × List Nat) × Nat → List Nat)
    (bfs : List (Nat × List Nat) × Nat → Nat → List Nat)
    (tli : TLI) (f : Func) : Prop :=
  (roundStep ord scan bfs tli f).2 = false

/-! ### Basic membership lemmas for the set builders -/

theorem mem_insertIfAbsent (l : List Nat) (x y : Nat) :
    y ∈ insertIfAbsent l x ↔ y ∈ l ∨ y = x := by
  unfold insertIfAbsent
  by_cases h : x ∈ l
  · simp only [h, if_true]
    constructor
    · exact Or.inl
    · rintro (hy | rfl)
      · exact hy
      · exact h
  · simp [h]

theorem mem_foldl_of_step {α : Type} (step : List Nat → α → List Nat)
    (R : α → Nat → Prop)
    (h : ∀ acc u y, y ∈ step acc u ↔ y ∈ acc ∨ R u y) :
    ∀ (l : List α) (acc : List Nat) (y : Nat),
      y ∈ l.foldl step acc ↔ y ∈ acc ∨ ∃ u ∈ l, R u y := by
  intro l
  induction l with
  | nil => intro acc y; simp
  | cons a l ih =>
      intro acc y
      rw [List.foldl_cons, ih, h]
      constructor
      · rintro ((hy | hr) | ⟨u, hu, hr⟩)
        · exact Or.inl hy
        · exact Or.inr ⟨a, List.mem_cons_self a l, hr⟩
        · exact Or.inr ⟨u, List.mem_cons_of_mem a hu, hr⟩
      · rintro (hy | ⟨u, hu, hr⟩)
        · exact Or.inl (Or.inl hy)
        · rcases List.mem_cons.mp hu with rfl | hu
          · exact Or.inl (Or.inr hr)
          · exact Or.inr ⟨u, hu, hr⟩

theorem mem_foldl_insertIf {α : Type} (g : α → Nat) (q : α → Bool)
    (l : List α) (acc : List Nat) (y : Nat) :
    y ∈ l.foldl (fun acc p => if q p then insertIfAbsent acc (g p) else acc) acc
      ↔ y ∈ acc ∨ ∃ p ∈ l, q p = true ∧ g p = y := by
  refine mem_foldl_of_step _ (fun p y => q p = true ∧ g p = y) ?_ l acc y
  intro acc u y
  by_cases hq : q u
  · simp [hq, mem_insertIfAbsent, eq_comm]
  · simp [hq]

theorem mem_findUseSet (tli : TLI) (f : Func) (blk : Block) (i : Nat) :
    i ∈ findUseSet tli f blk ↔ i ∈ blk.insts ∧ useCond tli f i = true := by
  unfold findUseSet
  rw [mem_foldl_insertIf (fun x => x) (useCond tli f)]
  constructor
  · rintro (h | ⟨p, hp, hq, rfl⟩)
    · simp at h
    · exact ⟨hp, hq⟩
  · rintro ⟨hp, hq⟩
    exact Or.inr ⟨i, hp, hq, rfl⟩

theorem mem_findDefSet (f : Func) (blk : Block) (i : Nat) :
    i ∈ findDefSet f blk ↔
      ∃ u ∈ blk.insts, ∃ p ∈ f.imap,
        Val.ins u ∈ p.2.ops ∧ p.1 ∈ blk.insts ∧ p.1 = i := by
  unfold findDefSet
  rw [mem_foldl_of_step _
    (fun u y => ∃ p ∈ f.imap, defCond blk u p = true ∧ p.1 = y) ?_]
  · constructor
    · rintro (h | ⟨u, hu, p, hp, hq, rfl⟩)
      · simp at h
      · rw [defCond, Bool.and_eq_true, decide_eq_true_eq, decide_eq_true_eq] at hq
        exact ⟨u, hu, p, hp, hq.1, hq.2, rfl⟩
    · rintro ⟨u, hu, p, hp, h1, h2, rfl⟩
      refine Or.inr ⟨u, hu, p, hp, ?_, rfl⟩
      rw [defCond, Bool.and_eq_true, decide_eq_true_eq, decide_eq_true_eq]
      exact ⟨h1, h2⟩
  · intro acc u y
    exact mem_foldl_insertIf Prod.fst (defCond blk u) f.imap acc y

theorem mem_findInSet (f : Func) (useL defL outL : List Nat) (i : Nat) :
    i ∈ findInSet f useL defL outL ↔
      (i ∈ outL ∨ i ∈ useL) ∧
        ∀ d ∈ defL, identicalTo f i d = false := by
  unfold findInSet
  rw [mem_foldl_insertIf (fun x => x)
      (fun j => defL.all (fun d => !identicalTo f j d))]
  simp only [List.mem_nil_iff, false_or, List.mem_append, List.all_eq_true,
    Bool.not_eq_true']
  constructor
  · rintro ⟨p, hp, hq, rfl⟩
    exact ⟨hp, hq⟩
  · rintro ⟨hp, hq⟩
    exact ⟨i, hp, hq, rfl⟩

/-! ### Structural equivalence is symmetric and transitive -/

theorem identicalTo_iff_parts (f : Func) (i j : Nat) :
    identicalTo f i j = true ↔
      ∃ a b, instOf f i = some a ∧ instOf f j = some b ∧
        a.op = b.op ∧ a.ops = b.ops := by
  unfold identicalTo
  cases hi : instOf f i with
  | none => simp [hi]
  | some a =>
      cases hj : instOf f j with
      | none => simp [hi, hj]
      | some b =>
          simp only [hi, hj, Bool.and_eq_true, beq_iff_eq]
          constructor
          · rintro ⟨h1, h2⟩
            exact ⟨a, b, rfl, rfl, h1, h2⟩
          · rintro ⟨a', b', ha, hb, h1, h2⟩
            cases ha; cases hb; exact ⟨h1, h2⟩

theorem identicalTo_refl (f : Func) (i : Nat) (a : Instr)
    (h : instOf f i = some a) : identicalTo f i i = true := by
  rw [identicalTo_iff_parts]
  exact ⟨a, a, h, h, rfl, rfl⟩

theorem identicalTo_symm (f : Func) (i j : Nat)
    (h : identicalTo f i j = true) : identicalTo f j i = true := by
  rw [identicalTo_iff_parts] at h ⊢
  rcases h with ⟨a, b, ha, hb, h1, h2⟩
  exact ⟨b, a, hb, ha, h1.symm, h2.symm⟩

theorem identicalTo_trans (f : Func) (i j k : Nat)
    (hij : identicalTo f i j = true) (hjk : identicalTo f j k = true) :
    identicalTo f i k = true := by
  rw [identicalTo_iff_parts] at hij hjk ⊢
  rcases hij with ⟨a, b, ha, hb, h1, h2⟩
  rcases hjk with ⟨b', c, hb', hc, h3, h4⟩
  rw [hb] at hb'
  cases hb'
  exact ⟨a, c, ha, hc, h1.trans h3, h2.trans h4⟩

/-- Claim C10: the Hoister's invocation on a block returns true exactly when
that block's Out set is non-empty, independently of whether any instruction
was relocated, redirected, or deleted during the invocation. -/
theorem hoister_returns_out_nonempty
    (bfs : List (Nat × List Nat) × Nat → Nat → List Nat)
    (f : Func) (b : Nat) (outM : List (Nat × List Nat)) :
    (hoistInstructions bfs f b outM).2 = true ↔ lookupSets outM b ≠ [] := by
  show (!(lookupSets outM b).isEmpty) = true ↔ lookupSets outM b ≠ []
  cases lookupSets outM b <;> simp

/-- Claim C9: the structural-equivalence predicate holds iff the two
instructions have the same opcode and the same ordered operand list compared
by `Val` identity; the ids under which the instructions are stored and the
blocks they reside in (the only further attributes instructions have here)
play no role. -/
theorem structuralEquivalence_spec (f : Func) (i j : Nat) :
    identicalTo f i j = true ↔
      ∃ a b, instOf f i = some a ∧ instOf f j = some b ∧
        a.op = b.op ∧ a.ops = b.ops :=
  identicalTo_iff_parts f i j

/-! ### Claim C5: purity classification of calls -/

theorem isFunctionPure_iff (tli : TLI) (c : Option FnSig) :
    isFunctionPure tli c = true ↔
      ∃ fn, c = some fn ∧ tli.recognized fn.fname = true ∧
        fn.retPtr = false ∧ ∀ a ∈ fn.argPtrs, a = false := by
  cases c with
  | none => simp [isFunctionPure]
  | some fn =>
      simp only [isFunctionPure, Option.some_inj]
      by_cases hr : fn.retPtr
      · simp only [hr, if_true]
        constructor
        · intro h; exact absurd h (by simp)
        · rintro ⟨fn', rfl, _, hret, _⟩
          exact absurd hr (by simp [hret])
      · rw [Bool.not_eq_true] at hr
        simp only [hr, Bool.false_eq_true, if_false]
        by_cases ha : fn.argPtrs.any (fun b => b)
        · simp only [ha, if_true]
          rcases List.any_eq_true.mp ha with ⟨x, hx, hxt⟩
          constructor
          · intro h; exact absurd h (by simp)
          · rintro ⟨fn', rfl, _, _, hall⟩
            exact absurd (hall x hx) (by simp [hxt])
        · simp only [ha, if_false]
          constructor
          · intro h
            refine ⟨fn, rfl, h, hr, ?_⟩
            intro a hax
            by_contra hat
            exact ha (List.any_eq_true.mpr ⟨a, hax, by simpa using hat⟩)
          · rintro ⟨fn', rfl, h, _, _⟩
            exact h

/-- The relocatability condition claim C5 states for call instructions,
relative to a ground-truth attribute `sef` ("the library routine with this
name is side-effect-free") of the external library semantics — an attribute
the code never consults. -/
def claimedCallRelocatable (tli : TLI) (sef : Nat → Bool)
    (c : Option FnSig) : Prop :=
  ∃ fn, c = some fn ∧ tli.recognized fn.fname = true ∧ sef fn.fname = true ∧
    fn.retPtr = false ∧ ∀ a ∈ fn.argPtrs, a = false

/-- Claim C5 counterexample: a call whose callee is statically resolved,
recognized by the library database, with non-pointer return and argument
types, is classified relocatable (not ignored) even in a world where no
recognized routine is side-effect-free — the classifier never consults
side-effect-freedom, so "recognized pure library routine" overstates it. -/
theorem pureCallClassifier_counterexample :
    isToBeIgnored ⟨fun _ => true⟩ ⟨Op.call (some ⟨0, false, []⟩), []⟩ = false ∧
    ¬ claimedCallRelocatable ⟨fun _ => true⟩ (fun _ => false)
        (some ⟨0, false, []⟩) := by
  constructor
  · rfl
  · rintro ⟨fn, hfn, _, hsef, _⟩
    cases hfn
    exact absurd hsef (by simp)

/-- Claim C5, amended: a call instruction is classified relocatable (not
ignored) iff its callee is statically resolvable, its name is recognized by
the library-function database (with no check that the routine is
side-effect-free), and its return type and every argument type are
non-pointer. -/
theorem pureCallClassifier_amended (tli : TLI) (I : Instr) (c : Option FnSig)
    (h : I.op = Op.call c) :
    isToBeIgnored tli I = false ↔
      ∃ fn, c = some fn ∧ tli.recognized fn.fname = true ∧
        fn.retPtr = false ∧ ∀ a ∈ fn.argPtrs, a = false := by
  have halloc : I.op.isAllocaOp = false := by rw [h]; rfl
  have hcall : I.op.callSig = some c := by rw [h]; rfl
  rw [isToBeIgnored, halloc]
  simp only [Bool.false_eq_true, if_false, hcall, Bool.not_eq_false']
  exact isFunctionPure_iff tli c

/-- Witness for the amended C5 theorem at a concrete recognized scalar call. -/
theorem pureCallClassifier_amended_witness :
    isToBeIgnored ⟨fun _ => true⟩ ⟨Op.call (some ⟨5, false, [false]⟩), [Val.arg 0]⟩ = false :=
  (pureCallClassifier_amended ⟨fun _ => true⟩
      ⟨Op.call (some ⟨5, false, [false]⟩), [Val.arg 0]⟩
      (some ⟨5, false, [false]⟩) rfl).mpr
    ⟨⟨5, false, [false]⟩, rfl, rfl, rfl, by decide⟩

/-! ### Instruction store lookups -/

theorem find_pair_of_mem (i : Nat) (I : Instr) :
    ∀ (m : List (Nat × Instr)), (m.map Prod.fst).Nodup → (i, I) ∈ m →
      m.find? (fun p => p.1 == i) = some (i, I) := by
  intro m
  induction m with
  | nil => intro _ h; exact absurd h (by simp)
  | cons p rest ih =>
      intro hnd hmem
      rw [List.map_cons, List.nodup_cons] at hnd
      rcases List.mem_cons.mp hmem with rfl | hmem
      · simp [List.find?]
      · have hne : p.1 ≠ i := by
          intro he
          exact hnd.1 (he ▸ (List.mem_map.mpr ⟨(i, I), hmem, rfl⟩))
        rw [List.find?_cons_of_neg _ (by simpa using hne)]
        exact ih hnd.2 hmem

theorem instOf_eq_some_of_mem (f : Func)
    (hkeys : (f.imap.map Prod.fst).Nodup) (i : Nat) (I : Instr)
    (h : (i, I) ∈ f.imap) : instOf f i = some I := by
  unfold instOf
  rw [find_pair_of_mem i I f.imap hkeys h]

theorem mem_of_instOf_eq_some (f : Func) (i : Nat) (I : Instr)
    (h : instOf f i = some I) : (i, I) ∈ f.imap := by
  unfold instOf at h
  cases hf : f.imap.find? (fun p => p.1 == i) with
  | none => rw [hf] at h; exact absurd h (by simp)
  | some p =>
      rw [hf] at h
      have hp := List.find?_some hf
      have hmem := List.mem_of_find?_eq_some hf
      simp only [Option.some_inj] at h
      have : p.1 = i := by simpa using hp
      rw [← h, ← this]
      exact hmem

/-! ### Concrete counterexample functions -/

/-- A library database recognizing nothing (no calls occur in the concrete
counterexample functions anyway). -/
def cexTLI : TLI := ⟨fun _ => false⟩

/-- One block `0` holding `1 : add (arg 0) (arg 1)`, then
`2 : mul (ins 1) (arg 2)` consuming instruction 1's result, then the
terminator `3 : ret (ins 2)` consuming instruction 2's result. -/
def cexFun1 : Func :=
  ⟨0, [⟨0, [1, 2, 3], []⟩],
   [(1, ⟨Op.binop 0, [Val.arg 0, Val.arg 1]⟩),
    (2, ⟨Op.binop 1, [Val.ins 1, Val.arg 2]⟩),
    (3, ⟨Op.term 0, [Val.ins 2]⟩)]⟩

/-- Entry block `0` (just a branch) with single successor `1`; block `1`
holds two structurally identical adds `1` and `2` and a terminator. -/
def cexFun2 : Func :=
  ⟨0, [⟨0, [10], [1]⟩, ⟨1, [1, 2, 3], []⟩],
   [(10, ⟨Op.term 0, []⟩),
    (1, ⟨Op.binop 0, [Val.arg 0, Val.arg 1]⟩),
    (2, ⟨Op.binop 0, [Val.arg 0, Val.arg 1]⟩),
    (3, ⟨Op.term 1, []⟩)]⟩

/-- Claim C2 counterexample: in `cexFun1`, instruction 2 (resident in block
0) uses instruction 1's result, so by the claim the producer 1 belongs to
Def(0); but the computed Def(0) omits the producer 1 (it holds the consumers
2 and 3 instead). -/
theorem setBuilderDef_counterexample :
    blockOf cexFun1 0 = some ⟨0, [1, 2, 3], []⟩ ∧
    instOf cexFun1 2 = some ⟨Op.binop 1, [Val.ins 1, Val.arg 2]⟩ ∧
    1 ∉ lookupSets (analyzeF cexTLI cexFun1 [0]).defM 0 ∧
    lookupSets (analyzeF cexTLI cexFun1 [0]).defM 0 = [2, 3] := by
  refine ⟨rfl, rfl, ?_, rfl⟩
  decide

/-- Claim C2, amended: Def(B) contains exactly the instructions physically
in B that use the result of some instruction also in B — the consuming
instructions, not the consumed producers. -/
theorem setBuilderDef_amended (f : Func) (blk : Block)
    (hkeys : (f.imap.map Prod.fst).Nodup) (i : Nat) :
    i ∈ findDefSet f blk ↔
      i ∈ blk.insts ∧ ∃ I, instOf f i = some I ∧
        ∃ u ∈ blk.insts, Val.ins u ∈ I.ops := by
  rw [mem_findDefSet]
  constructor
  · rintro ⟨u, hu, p, hp, hop, hpin, rfl⟩
    refine ⟨hpin, p.2, ?_, u, hu, hop⟩
    exact instOf_eq_some_of_mem f hkeys p.1 p.2 hp
  · rintro ⟨hin, I, hI, u, hu, hop⟩
    exact ⟨u, hu, (i, I), mem_of_instOf_eq_some f i I hI, hop, hin, rfl⟩

/-- Witness for the amended C2 theorem: in `cexFun1`, instruction 2 is in
Def(0) because it resides in block 0 and consumes instruction 1's result. -/
theorem setBuilderDef_amended_witness :
    2 ∈ findDefSet cexFun1 ⟨0, [1, 2, 3], []⟩ :=
  (setBuilderDef_amended cexFun1 ⟨0, [1, 2, 3], []⟩ (by decide) 2).mpr
    ⟨by decide, ⟨Op.binop 1, [Val.ins 1, Val.arg 2]⟩, rfl, 1, by decide, by decide⟩

/-- Claim C3 counterexample: in `cexFun1`, instruction 2 is a member of
Use(0) yet is absent from In(0): the solver also removes from Use(B) every
member structurally identical to a member of Def(B) (here 2 itself, a
consumer of the locally computed instruction 1), so Use(B) is not included
unconditionally. -/
theorem anticipationIn_counterexample :
    2 ∈ lookupSets (analyzeF cexTLI cexFun1 [0]).useM 0 ∧
    2 ∉ lookupSets (analyzeF cexTLI cexFun1 [0]).inM 0 ∧
    lookupSets (analyzeF cexTLI cexFun1 [0]).inM 0 = [1] := by
  refine ⟨by decide, ?_, rfl⟩
  decide

/-- Claim C3, amended: In(B) consists of the members of Out(B) that are not
structurally identical to any member of Def(B), together with the members of
Use(B) that are not structurally identical to any member of Def(B) — the
Def-filter applies to Use(B) as well, not only to Out(B). -/
theorem anticipationIn_amended (f : Func) (useL defL outL : List Nat)
    (i : Nat) :
    i ∈ findInSet f useL defL outL ↔
      (i ∈ outL ∨ i ∈ useL) ∧ ∀ d ∈ defL, ¬(identicalTo f i d = true) := by
  rw [mem_findInSet]
  simp only [Bool.not_eq_true]

/-- Claim C4 counterexample: block 0 of `cexFun2` has the single successor
block 1, whose In set holds the two structurally identical instructions 1
and 2; the tally counts that one equivalence class twice for this single
successor, so Out(0) comes out empty although the class is present in the In
set of every successor — duplicate equivalent members inside one successor's
In set do change the result. -/
theorem anticipationOut_counterexample :
    blockOf cexFun2 0 = some ⟨0, [10], [1]⟩ ∧
    lookupSets (analyzeF cexTLI cexFun2 [1, 0]).inM 1 = [1, 2] ∧
    identicalTo cexFun2 1 2 = true ∧
    lookupSets (analyzeF cexTLI cexFun2 [1, 0]).outM 0 = [] := by
  exact ⟨rfl, rfl, by decide, rfl⟩

/-- Claim C1 counterexample: in `cexFun1` the control terminator 3 (a
disqualified instruction) is a member of the computed Def(0), because the
Def builder applies no purity gating at all: it collects every instruction
of the block that consumes a result computed in the block, whatever its
kind. -/
theorem purityGating_counterexample :
    3 ∈ lookupSets (analyzeF cexTLI cexFun1 [0]).defM 0 ∧
    instOf cexFun1 3 = some ⟨Op.term 0, [Val.ins 2]⟩ ∧
    Op.isTermOp (Op.term 0) = true := by
  exact ⟨by decide, rfl, rfl⟩

/-! ### Reachability along successor edges and the analysis derivation -/

/-- The successor ids of block `b` (`successors(BB)`). -/
def succsOf (f : Func) (b : Nat) : List Nat :=
  match blockOf f b with
  | some blk => blk.succs
  | none => []

/-- One successor edge. -/
def StepSucc (f : Func) (a c : Nat) : Prop := c ∈ succsOf f a

/-- Reachability along successor edges. -/
def Reach (f : Func) : Nat → Nat → Prop := Relation.ReflTransGen (StepSucc f)

/-- Instruction `i` physically resides in block `b`. -/
def resides (f : Func) (i b : Nat) : Prop :=
  ∃ blk, blockOf f b = some blk ∧ i ∈ blk.insts

theorem lookupSets_storeSets_self (m : List (Nat × List Nat)) (k : Nat)
    (v : List Nat) : lookupSets (storeSets m k v) k = v := by
  induction m with
  | nil => simp [storeSets, lookupSets, List.find?]
  | cons p rest ih =>
      by_cases h : p.1 = k
      · simp [storeSets, h, lookupSets, List.find?]
      · have hb : (p.1 == k) = false := by simpa using h
        simp only [storeSets, hb, Bool.false_eq_true, if_false]
        rw [lookupSets, List.find?_cons_of_neg _ (by simpa using h)]
        exact ih

theorem lookupSets_storeSets_ne (m : List (Nat × List Nat)) (k k' : Nat)
    (v : List Nat) (h : k' ≠ k) :
    lookupSets (storeSets m k v) k' = lookupSets m k' := by
  induction m with
  | nil =>
      rw [storeSets, lookupSets, lookupSets]
      rw [List.find?_cons_of_neg _ (by simpa using fun he => h he.symm)]
  | cons p rest ih =>
      by_cases hpk : p.1 = k
      · rw [storeSets]
        simp only [hpk, beq_self_eq_true, if_true]
        rw [lookupSets, lookupSets,
          List.find?_cons_of_neg _ (by simpa using fun he => h he.symm),
          List.find?_cons_of_neg _ (by rw [hpk]; simpa using fun he => h he.symm)]
      · rw [storeSets]
        have hb : (p.1 == k) = false := by simpa using hpk
        simp only [hb, Bool.false_eq_true, if_false]
        by_cases hpk' : p.1 = k'
        · rw [lookupSets, lookupSets]
          rw [List.find?_cons_of_pos _ (by simpa using hpk'),
            List.find?_cons_of_pos _ (by simpa using hpk')]
        · rw [lookupSets, lookupSets,
            List.find?_cons_of_neg _ (by simpa using hpk'),
            List.find?_cons_of_neg _ (by simpa using hpk')]
          exact ih

/-! ### The tally's keys come from the successors' In sets -/

theorem procKeys_fst (f : Func) (y : Nat) :
    ∀ (count : List (Nat × Nat)) (seen : List Nat),
      (procKeys f y count seen).1.map Prod.fst = count.map Prod.fst := by
  intro count
  induction count with
  | nil => intro seen; rfl
  | cons kv rest ih =>
      intro seen
      rw [procKeys]
      by_cases h : identicalTo f y kv.1 && !(kv.1 ∈ seen : Bool)
      · simp only [h, if_true, List.map_cons]
        rw [ih]
      · simp only [h, Bool.false_eq_true, if_false, List.map_cons]
        rw [ih]

theorem storeKey_fst_sub (count : List (Nat × Nat)) (y k : Nat)
    (h : k ∈ (storeKey count y).map Prod.fst) :
    k ∈ count.map Prod.fst ∨ k = y := by
  induction count with
  | nil =>
      simp only [storeKey, List.map_cons, List.map_nil] at h
      rcases List.mem_cons.mp h with h | h
      · exact Or.inr h
      · simp at h
  | cons kv rest ih =>
      rw [storeKey] at h
      by_cases he : kv.1 = y
      · simp only [he, beq_self_eq_true, if_true, List.map_cons] at h
        rcases List.mem_cons.mp h with h | h
        · exact Or.inr h
        · exact Or.inl (by simp [List.mem_cons.mpr (Or.inr h)])
      · have hb : (kv.1 == y) = false := by simpa using he
        simp only [hb, Bool.false_eq_true, if_false, List.map_cons] at h
        rcases List.mem_cons.mp h with h | h
        · exact Or.inl (by simp [h])
        · rcases ih h with h | h
          · exact Or.inl (List.mem_cons.mpr (Or.inr h))
          · exact Or.inr h

theorem procElem_fst_sub (f : Func) (st : List (Nat × Nat) × List Nat)
    (y k : Nat) (h : k ∈ (procElem f st y).1.map Prod.fst) :
    k ∈ st.1.map Prod.fst ∨ k = y := by
  rw [procElem] at h
  by_cases hm : (procKeys f y st.1 st.2).2.2
  · simp only [hm, if_true] at h
    rw [procKeys_fst] at h
    exact Or.inl h
  · simp only [hm, Bool.false_eq_true, if_false] at h
    rcases storeKey_fst_sub _ _ _ h with h | h
    · rw [procKeys_fst] at h; exact Or.inl h
    · exact Or.inr h

theorem procSucc_fst_sub (f : Func) (inM : List (Nat × List Nat))
    (count : List (Nat × Nat)) (s k : Nat)
    (h : k ∈ (procSucc f inM count s).map Prod.fst) :
    k ∈ count.map Prod.fst ∨ k ∈ lookupSets inM s := by
  rw [procSucc] at h
  have main : ∀ (l : List Nat) (st : List (Nat × Nat) × List Nat),
      k ∈ (l.foldl (procElem f) st).1.map Prod.fst →
      k ∈ st.1.map Prod.fst ∨ k ∈ l := by
    intro l
    induction l with
    | nil => intro st hk; exact Or.inl hk
    | cons y rest ih =>
        intro st hk
        rw [List.foldl_cons] at hk
        rcases ih _ hk with hk | hk
        · rcases procElem_fst_sub f st y k hk with hk | rfl
          · exact Or.inl hk
          · exact Or.inr (List.mem_cons_self _ _)
        · exact Or.inr (List.mem_cons_of_mem _ hk)
  exact main _ _ h

theorem mem_findOutSet_sub (f : Func) (blk : Block)
    (inM : List (Nat × List Nat)) (i : Nat)
    (h : i ∈ findOutSet f blk inM) :
    ∃ s ∈ blk.succs, i ∈ lookupSets inM s := by
  rw [findOutSet] at h
  have hkeys : i ∈ (blk.succs.foldl (procSucc f inM) []).map Prod.fst := by
    rcases List.mem_map.mp h with ⟨kv, hkv, rfl⟩
    exact List.mem_map.mpr ⟨kv, List.mem_of_mem_filter hkv, rfl⟩
  have main : ∀ (l : List Nat) (count : List (Nat × Nat)),
      i ∈ (l.foldl (procSucc f inM) count).map Prod.fst →
      i ∈ count.map Prod.fst ∨ ∃ s ∈ l, i ∈ lookupSets inM s := by
    intro l
    induction l with
    | nil => intro count hk; exact Or.inl hk
    | cons s rest ih =>
        intro count hk
        rw [List.foldl_cons] at hk
        rcases ih _ hk with hk | ⟨s', hs', hk⟩
        · rcases procSucc_fst_sub f inM count s i hk with hk | hk
          · exact Or.inl hk
          · exact Or.inr ⟨s, List.mem_cons_self _ _, hk⟩
        · exact Or.inr ⟨s', List.mem_cons_of_mem _ hs', hk⟩
  rcases main _ _ hkeys with hk | hk
  · simp at hk
  · exact hk

/-! ### The single-pass anticipation invariant -/

/-- Derivation facts for a member `i` of `In(b)` after `k` analysis steps:
`b` was processed (at position `jb < k` of the walk `L`), and `i` is a
relocatable non-phi instruction residing in a block `X` reachable from `b`
that was processed no later than `b`. -/
def InDeriv (tli : TLI) (f : Func) (L : List Nat) (k b i : Nat) : Prop :=
  ∃ jb, jb < k ∧ L.get? jb = some b ∧
    ∃ X jx, jx ≤ jb ∧ L.get? jx = some X ∧ Reach f b X ∧ resides f i X ∧
      useCond tli f i = true

/-- Derivation facts for a member `i` of `Out(b)`: as for `In(b)`, but the
home block `X` was processed strictly before `b` (so `X ≠ b` once the walk
is duplicate-free) and is reached through a successor of `b`. -/
def OutDeriv (tli : TLI) (f : Func) (L : List Nat) (k b i : Nat) : Prop :=
  ∃ jb, jb < k ∧ L.get? jb = some b ∧
    ∃ X jx, jx < jb ∧ L.get? jx = some X ∧ Reach f b X ∧ resides f i X ∧
      useCond tli f i = true

/-- The invariant of the analysis walk after `k` steps. -/
def AInv (tli : TLI) (f : Func) (L : List Nat) (k : Nat) (M : AMaps) : Prop :=
  (∀ b i, i ∈ lookupSets M.useM b → i ∈ lookupSets (M.useM) b ∧ useCond tli f i = true) ∧
  (∀ b i, i ∈ lookupSets M.inM b → InDeriv tli f L k b i) ∧
  (∀ b i, i ∈ lookupSets M.outM b → OutDeriv tli f L k b i)

theorem AInv_mono (tli : TLI) (f : Func) (L : List Nat) (k k' : Nat)
    (M : AMaps) (hk : k ≤ k') (h : AInv tli f L k M) : AInv tli f L k' M := by
  refine ⟨h.1, ?_, ?_⟩
  · intro b i hi
    rcases h.2.1 b i hi with ⟨jb, hjb, hg, rest⟩
    exact ⟨jb, lt_of_lt_of_le hjb hk, hg, rest⟩
  · intro b i hi
    rcases h.2.2 b i hi with ⟨jb, hjb, hg, rest⟩
    exact ⟨jb, lt_of_lt_of_le hjb hk, hg, rest⟩

theorem AInv_zero (tli : TLI) (f : Func) (L : List Nat) :
    AInv tli f L 0 emptyAMaps := by
  refine ⟨?_, ?_, ?_⟩ <;> intro b i hi <;>
    simp [emptyAMaps, lookupSets, List.find?] at hi

theorem AInv_step (tli : TLI) (f : Func) (L : List Nat) (k b : Nat)
    (M : AMaps) (hb : L.get? k = some b) (h : AInv tli f L k M) :
    AInv tli f L (k + 1) (analyzeStep tli f M b) := by
  rw [analyzeStep]
  cases hblk : blockOf f b with
  | none => exact AInv_mono tli f L k (k + 1) M (Nat.le_succ k) h
  | some blk =>
      simp only
      have houtD : ∀ i, i ∈ findOutSet f blk M.inM →
          OutDeriv tli f L (k + 1) b i := by
        intro i hi
        rcases mem_findOutSet_sub f blk M.inM i hi with ⟨s, hs, hins⟩
        rcases h.2.1 s i hins with ⟨js, hjs, hgs, X, jx, hjx, hgx, hre, hres, huc⟩
        refine ⟨k, Nat.lt_succ_self k, hb, X, jx, lt_of_le_of_lt hjx hjs, hgx,
          ?_, hres, huc⟩
        refine Relation.ReflTransGen.head ?_ hre
        show s ∈ succsOf f b
        rw [succsOf, hblk]
        exact hs
      have huseD : ∀ i, i ∈ findUseSet tli f blk →
          i ∈ blk.insts ∧ useCond tli f i = true := by
        intro i hi
        exact (mem_findUseSet tli f blk i).mp hi
      refine ⟨?_, ?_, ?_⟩
      · intro b' i hi
        by_cases hbb : b' = b
        · subst hbb
          rw [lookupSets_storeSets_self] at hi
          exact ⟨by rw [lookupSets_storeSets_self]; exact hi, (huseD i hi).2⟩
        · rw [lookupSets_storeSets_ne _ _ _ _ hbb] at hi
          refine ⟨by rw [lookupSets_storeSets_ne _ _ _ _ hbb]; exact hi, ?_⟩
          exact (h.1 b' i hi).2
      · intro b' i hi
        by_cases hbb : b' = b
        · subst hbb
          rw [lookupSets_storeSets_self] at hi
          rcases (mem_findInSet f _ _ _ i).mp hi with ⟨hio | hiu, _⟩
          · rcases houtD i hio with ⟨jb, hjb, hg, X, jx, hjx, hgx, rest⟩
            exact ⟨k, Nat.lt_succ_self k, hb, X, jx, Nat.le_of_lt
              (by omega), hgx, rest⟩
          · rcases huseD i hiu with ⟨hin, huc⟩
            exact ⟨k, Nat.lt_succ_self k, hb, b', k, le_refl k, hb,
              Relation.ReflTransGen.refl, ⟨blk, hblk, hin⟩, huc⟩
        · rw [lookupSets_storeSets_ne _ _ _ _ hbb] at hi
          exact (AInv_mono tli f L k (k + 1) M (Nat.le_succ k) h).2.1 b' i hi
      · intro b' i hi
        by_cases hbb : b' = b
        · subst hbb
          rw [lookupSets_storeSets_self] at hi
          exact houtD i hi
        · rw [lookupSets_storeSets_ne _ _ _ _ hbb] at hi
          exact (AInv_mono tli f L k (k + 1) M (Nat.le_succ k) h).2.2 b' i hi

theorem AInv_bound (tli : TLI) (f : Func) (L : List Nat) (k : Nat)
    (M : AMaps) (h : AInv tli f L k M) : AInv tli f L L.length M := by
  refine ⟨h.1, ?_, ?_⟩
  · intro b i hi
    rcases h.2.1 b i hi with ⟨jb, _, hg, rest⟩
    have : jb < L.length := List.get?_eq_some.mp hg |>.choose
    exact ⟨jb, this, hg, rest⟩
  · intro b i hi
    rcases h.2.2 b i hi with ⟨jb, _, hg, rest⟩
    have : jb < L.length := List.get?_eq_some.mp hg |>.choose
    exact ⟨jb, this, hg, rest⟩

theorem AInv_foldl (tli : TLI) (f : Func) (L : List Nat) :
    ∀ (rest : List Nat) (k : Nat) (M : AMaps), L.drop k = rest →
      AInv tli f L k M →
      AInv tli f L L.length (rest.foldl (analyzeStep tli f) M) := by
  intro rest
  induction rest with
  | nil => intro k M _ h; exact AInv_bound tli f L k M h
  | cons b rest ih =>
      intro k M hdrop h
      have hget : L.get? k = some b := by
        have h0 : (L.drop k).get? 0 = some b := by rw [hdrop]; rfl
        rwa [List.get?_drop, Nat.add_zero] at h0
      have hdrop' : L.drop (k + 1) = rest := by
        have : (L.drop k).drop 1 = rest := by rw [hdrop]; rfl
        rwa [List.drop_drop] at this
      rw [List.foldl_cons]
      exact ih (k + 1) _ hdrop' (AInv_step tli f L k b M hget h)

theorem analyzeF_inv (tli : TLI) (f : Func) (L : List Nat) :
    AInv tli f L L.length (analyzeF tli f L) :=
  AInv_foldl tli f L L 0 emptyAMaps rfl (AInv_zero tli f L)

theorem useCond_parts (tli : TLI) (f : Func) (i : Nat)
    (h : useCond tli f i = true) :
    ∃ I, instOf f i = some I ∧ isToBeIgnored tli I = false ∧
      I.op.isPhiOp = false := by
  rw [useCond] at h
  cases hI : instOf f i with
  | none => rw [hI] at h; exact absurd h (by simp)
  | some I =>
      rw [hI, Bool.and_eq_true, Bool.not_eq_true', Bool.not_eq_true'] at h
      exact ⟨I, rfl, h.1, h.2⟩

/-- Claim C1, amended: an instruction that allocates storage, reads memory,
has side effects, is a control terminator, or is a block-entry merge node is
never a member of any Use, In, or Out candidate set of any analysis round;
Def sets carry no such gating (see the counterexample) and may contain such
instructions. -/
theorem purityGating_amended (tli : TLI) (f : Func) (L : List Nat)
    (b i : Nat)
    (h : i ∈ lookupSets (analyzeF tli f L).useM b ∨
         i ∈ lookupSets (analyzeF tli f L).inM b ∨
         i ∈ lookupSets (analyzeF tli f L).outM b) :
    ∃ I, instOf f i = some I ∧ isToBeIgnored tli I = false ∧
      I.op.isPhiOp = false := by
  have inv := analyzeF_inv tli f L
  refine useCond_parts tli f i ?_
  rcases h with h | h | h
  · exact (inv.1 b i h).2
  · rcases inv.2.1 b i h with ⟨_, _, _, _, _, _, _, _, _, huc⟩
    exact huc
  · rcases inv.2.2 b i h with ⟨_, _, _, _, _, _, _, _, _, huc⟩
    exact huc

/-- Witness for the amended C1 theorem: instruction 1 of `cexFun2` is in
Use(1) of the analysis of `cexFun2`, and it is indeed a pure non-phi add. -/
theorem purityGating_amended_witness :
    ∃ I, instOf cexFun2 1 = some I ∧ isToBeIgnored cexTLI I = false ∧
      I.op.isPhiOp = false :=
  purityGating_amended cexTLI cexFun2 [1, 0] 1 1 (Or.inl (by decide))

/-! ### Exact behaviour of the tally under separated keys (claim C4) -/

theorem keys_nodup (f : Func) :
    ∀ (ks : List Nat),
      ks.Pairwise (fun a b => identicalTo f a b = false) →
      (∀ k ∈ ks, identicalTo f k k = true) → ks.Nodup := by
  intro ks
  induction ks with
  | nil => intro _ _; exact List.nodup_nil
  | cons k rest ih =>
      intro hsep hrefl
      rw [List.pairwise_cons] at hsep
      refine List.nodup_cons.mpr ⟨?_, ih hsep.2 (fun a ha =>
        hrefl a (List.mem_cons_of_mem _ ha))⟩
      intro hk
      have h1 := hsep.1 k hk
      have h2 := hrefl k (List.mem_cons_self _ _)
      rw [h1] at h2
      exact absurd h2 (by simp)

theorem procKeys_spec (f : Func) (y : Nat) :
    ∀ (count : List (Nat × Nat)) (seen : List Nat),
      (count.map Prod.fst).Pairwise (fun a b => identicalTo f a b = false) →
      (∀ kv ∈ count, identicalTo f kv.1 kv.1 = true) →
      (procKeys f y count seen).1 =
        count.map (fun kv =>
          if identicalTo f y kv.1 && !(kv.1 ∈ seen : Bool) then
            (kv.1, kv.2 + 1)
          else kv) ∧
      ((procKeys f y count seen).2.2 = true ↔
        ∃ kv ∈ count, identicalTo f y kv.1 = true ∧ kv.1 ∉ seen) ∧
      (∀ k, k ∈ (procKeys f y count seen).2.1 ↔
        k ∈ seen ∨ (k ∈ count.map Prod.fst ∧ identicalTo f y k = true)) := by
  intro count
  induction count with
  | nil =>
      intro seen _ _
      refine ⟨rfl, by simp [procKeys], ?_⟩
      intro k
      simp [procKeys]
  | cons kv rest ih =>
      intro seen hsep hpres
      rw [List.map_cons, List.pairwise_cons] at hsep
      have hheadrefl : identicalTo f kv.1 kv.1 = true :=
        hpres kv (List.mem_cons_self _ _)
      have hrest_ne : ∀ k ∈ rest.map Prod.fst, k ≠ kv.1 := by
        intro k hk he
        have := hsep.1 k hk
        rw [he, hheadrefl] at this
        exact absurd this (by simp)
      by_cases hc : (identicalTo f y kv.1 && !(kv.1 ∈ seen : Bool)) = true
      · -- the head key is matched; the rest is processed with kv.1 marked seen
        have hc2 := hc
        rw [Bool.and_eq_true] at hc2
        have hcid : identicalTo f y kv.1 = true := hc2.1
        have hcns : kv.1 ∉ seen := by
          have := hc2.2
          simpa using this
        -- no rest key is equivalent to y (it would be equivalent to the head
        -- key, contradicting key separation)
        have hrest_noeq : ∀ k ∈ rest.map Prod.fst, identicalTo f y k = false := by
          intro k hk
          by_contra hne
          rw [Bool.not_eq_false] at hne
          have h1 : identicalTo f kv.1 k = true :=
            identicalTo_trans f kv.1 y k (identicalTo_symm f y kv.1 hcid) hne
          have h2 := hsep.1 k hk
          rw [h1] at h2
          exact absurd h2 (by simp)
        have hcond_same : ∀ p ∈ rest,
            (identicalTo f y p.1 && !(p.1 ∈ (seen ++ [kv.1]) : Bool)) =
            (identicalTo f y p.1 && !(p.1 ∈ seen : Bool)) := by
          intro p hp
          have := hrest_noeq p.1 (List.mem_map.mpr ⟨p, hp, rfl⟩)
          rw [this, Bool.false_and, Bool.false_and]
        rcases ih (seen ++ [kv.1]) hsep.2
            (fun a ha => hpres a (List.mem_cons_of_mem _ ha)) with
          ⟨ih1, ih2, ih3⟩
        rw [procKeys]
        simp only [hc, if_true, List.map_cons]
        refine ⟨?_, ?_, ?_⟩
        · rw [ih1]
          congr 1
          refine List.map_congr_left ?_
          intro p hp
          rw [hcond_same p hp]
        · constructor
          · intro _
            exact ⟨kv, List.mem_cons_self _ _, hcid, hcns⟩
          · intro _; trivial
        · intro k
          rw [ih3 k]
          simp only [List.mem_append, List.mem_singleton, List.map_cons,
            List.mem_cons, List.mem_nil_iff, or_false]
          constructor
          · rintro ((hk | rfl) | ⟨hk, hke⟩)
            · exact Or.inl hk
            · exact Or.inr ⟨Or.inl rfl, hcid⟩
            · exact Or.inr ⟨Or.inr hk, hke⟩
          · rintro (hk | ⟨rfl | hk, hke⟩)
            · exact Or.inl (Or.inl hk)
            · exact Or.inl (Or.inr rfl)
            · exact Or.inr ⟨hk, hke⟩
      · -- the head key is not matched
        rcases ih seen hsep.2
            (fun a ha => hpres a (List.mem_cons_of_mem _ ha)) with
          ⟨ih1, ih2, ih3⟩
        rw [procKeys]
        simp only [hc, Bool.false_eq_true, if_false, List.map_cons]
        refine ⟨?_, ?_, ?_⟩
        · rw [ih1]
        · rw [ih2]
          constructor
          · rintro ⟨p, hp, hpe, hps⟩
            exact ⟨p, List.mem_cons_of_mem _ hp, hpe, hps⟩
          · rintro ⟨p, hp, hpe, hps⟩
            rcases List.mem_cons.mp hp with rfl | hp
            · exfalso
              apply hc
              rw [Bool.and_eq_true, hpe]
              exact ⟨rfl, by simpa using hps⟩
            · exact ⟨p, hp, hpe, hps⟩
        · intro k
          rw [ih3 k]
          simp only [List.map_cons, List.mem_cons]
          constructor
          · rintro (hk | ⟨hk, hke⟩)
            · exact Or.inl hk
            · exact Or.inr ⟨Or.inr hk, hke⟩
          · rintro (hk | ⟨rfl | hk, hke⟩)
            · exact Or.inl hk
            · -- the head key is equivalent to y but unmatched, so it must
              -- already be in the seen marks
              left
              by_contra hks
              apply hc
              rw [Bool.and_eq_true, hke]
              exact ⟨rfl, by simpa using hks⟩
            · exact Or.inr ⟨hk, hke⟩

theorem identicalTo_symm_false (f : Func) (i j : Nat)
    (h : identicalTo f i j = false) : identicalTo f j i = false := by
  by_contra hne
  rw [Bool.not_eq_false] at hne
  rw [identicalTo_symm f j i hne] at h
  exact absurd h (by simp)

/-- A member of `l` is structurally identical to `k`. -/
def classIn (f : Func) (l : List Nat) (k : Nat) : Bool :=
  l.any (fun y => identicalTo f y k)

theorem classIn_append_single (f : Func) (l : List Nat) (y k : Nat) :
    classIn f (l ++ [y]) k = (classIn f l k || identicalTo f y k) := by
  rw [classIn, classIn, List.any_append, List.any_cons, List.any_nil,
    Bool.or_false]

theorem storeKey_of_not_mem (y : Nat) :
    ∀ (count : List (Nat × Nat)), y ∉ count.map Prod.fst →
      storeKey count y = count ++ [(y, 1)] := by
  intro count
  induction count with
  | nil => intro _; rfl
  | cons kv rest ih =>
      intro hy
      rw [List.map_cons] at hy
      have h1 : kv.1 ≠ y := fun he => hy (List.mem_cons.mpr (Or.inl he.symm))
      rw [storeKey]
      have hb : (kv.1 == y) = false := by simpa using h1
      rw [hb]
      simp only [Bool.false_eq_true, if_false, List.cons_append]
      rw [ih (fun hm => hy (List.mem_cons_of_mem _ hm))]

theorem bump_map_fst (f : Func) (y : Nat) (seen : List Nat)
    (count : List (Nat × Nat)) :
    (count.map (fun kv =>
        if identicalTo f y kv.1 && !(kv.1 ∈ seen : Bool) then
          (kv.1, kv.2 + 1)
        else kv)).map Prod.fst = count.map Prod.fst := by
  rw [List.map_map]
  refine List.map_congr_left ?_
  intro kv _
  show (if (identicalTo f y kv.1 && !(kv.1 ∈ seen : Bool)) = true then
      (kv.1, kv.2 + 1) else kv).1 = kv.1
  by_cases hc : (identicalTo f y kv.1 && !(kv.1 ∈ seen : Bool)) = true
  · rw [if_pos hc]
  · rw [if_neg hc]

/-- Keys of a tally are pairwise structurally distinct. -/
def keySep (f : Func) (count : List (Nat × Nat)) : Prop :=
  (count.map Prod.fst).Pairwise (fun a b => identicalTo f a b = false)

/-- Every key of a tally is a present instruction. -/
def keyRefl (f : Func) (count : List (Nat × Nat)) : Prop :=
  ∀ kv ∈ count, identicalTo f kv.1 kv.1 = true

/-- The invariant of the tally while walking one successor's In set:
`processed` are the fully tallied successors, `elems` the elements of the
current successor's In set already handled, `st` the (count, seen) state. -/
def TallyInv (f : Func) (inM : List (Nat × List Nat)) (processed : List Nat)
    (elems : List Nat) (st : List (Nat × Nat) × List Nat) : Prop :=
  keySep f st.1 ∧ keyRefl f st.1 ∧
  (∀ kv ∈ st.1, kv.2 =
      processed.countP (fun s => classIn f (lookupSets inM s) kv.1) +
      (if classIn f elems kv.1 = true then 1 else 0)) ∧
  (∀ k ∈ st.2, k ∈ st.1.map Prod.fst ∧ classIn f elems k = true) ∧
  (∀ s ∈ processed, ∀ y ∈ lookupSets inM s, ∃ kv ∈ st.1,
      identicalTo f y kv.1 = true) ∧
  (∀ e ∈ elems, ∃ kv ∈ st.1, identicalTo f e kv.1 = true)

theorem tally_step (f : Func) (inM : List (Nat × List Nat))
    (processed elems : List Nat) (st : List (Nat × Nat) × List Nat)
    (y : Nat)
    (hinv : TallyInv f inM processed elems st)
    (hy : identicalTo f y y = true)
    (hsepy : ∀ e ∈ elems, identicalTo f e y = false) :
    TallyInv f inM processed (elems ++ [y]) (procElem f st y) := by
  obtain ⟨hK1, hK2, hK3, hK4, hK5, hK6⟩ := hinv
  obtain ⟨hpk1, hpk2, hpk3⟩ := procKeys_spec f y st.1 st.2 hK1 hK2
  rw [procElem]
  by_cases hm : (procKeys f y st.1 st.2).2.2 = true
  · -- some key was matched (and by key separation exactly one class)
    rcases hpk2.mp hm with ⟨kv0, hkv0, hkv0id, hkv0ns⟩
    simp only [hm, if_true]
    -- keys are unchanged
    have hfst : (procKeys f y st.1 st.2).1.map Prod.fst = st.1.map Prod.fst := by
      rw [hpk1]; exact bump_map_fst f y st.2 st.1
    have hmemkeys : ∀ k, k ∈ (procKeys f y st.1 st.2).1.map Prod.fst ↔
        k ∈ st.1.map Prod.fst := by
      intro k; rw [hfst]
    refine ⟨?_, ?_, ?_, ?_, ?_, ?_⟩
    · show keySep f (procKeys f y st.1 st.2).1
      rw [keySep, hfst]; exact hK1
    · show keyRefl f (procKeys f y st.1 st.2).1
      intro kv hkv
      rw [hpk1] at hkv
      rcases List.mem_map.mp hkv with ⟨kv', hkv', hkve⟩
      have : kv.1 = kv'.1 := by
        by_cases hc : (identicalTo f y kv'.1 && !(kv'.1 ∈ st.2 : Bool)) = true
        · rw [if_pos hc] at hkve; rw [← hkve]
        · rw [if_neg hc] at hkve; rw [← hkve]
      rw [this]; exact hK2 kv' hkv'
    · intro kv hkv
      rw [hpk1] at hkv
      rcases List.mem_map.mp hkv with ⟨kv', hkv', hkve⟩
      by_cases hc : (identicalTo f y kv'.1 && !(kv'.1 ∈ st.2 : Bool)) = true
      · rw [if_pos hc] at hkve
        have hc2 := hc
        rw [Bool.and_eq_true] at hc2
        have hidy : identicalTo f y kv'.1 = true := hc2.1
        -- the old elems contribution is zero: an equivalent earlier element
        -- would be equivalent to y, contradicting pairwise distinctness
        have holdzero : classIn f elems kv'.1 = false := by
          by_contra hcl
          rw [Bool.not_eq_false, classIn, List.any_eq_true] at hcl
          rcases hcl with ⟨e, he, hee⟩
          have : identicalTo f e y = true :=
            identicalTo_trans f e kv'.1 y hee (identicalTo_symm f y kv'.1 hidy)
          rw [hsepy e he] at this
          exact absurd this (by simp)
        have hnew : classIn f (elems ++ [y]) kv'.1 = true := by
          rw [classIn_append_single, hidy, Bool.or_true]
        rw [← hkve]
        simp only
        rw [hnew, if_pos rfl, hK3 kv' hkv', holdzero]
        simp
      · rw [if_neg hc] at hkve
        rw [← hkve]
        have : classIn f (elems ++ [y]) kv'.1 = classIn f elems kv'.1 := by
          rw [classIn_append_single]
          by_cases hidy : identicalTo f y kv'.1 = true
          · -- then kv'.1 is already seen, so its class is represented
            have hseen : kv'.1 ∈ st.2 := by
              by_contra hns
              apply hc
              rw [Bool.and_eq_true, hidy]
              exact ⟨rfl, by simpa using hns⟩
            have := (hK4 kv'.1 hseen).2
            rw [this, hidy, Bool.true_or]
          · rw [Bool.not_eq_true] at hidy
            rw [hidy, Bool.or_false]
        rw [hK3 kv' hkv', this]
    · intro k hk
      rcases (hpk3 k).mp hk with hks | ⟨hkk, hke⟩
      · rcases hK4 k hks with ⟨hkk, hkcl⟩
        refine ⟨(hmemkeys k).mpr hkk, ?_⟩
        rw [classIn_append_single, hkcl, Bool.true_or]
      · refine ⟨(hmemkeys k).mpr hkk, ?_⟩
        rw [classIn_append_single, hke, Bool.or_true]
    · intro s hs y' hy'
      rcases hK5 s hs y' hy' with ⟨kv, hkv, hkvid⟩
      have : kv.1 ∈ (procKeys f y st.1 st.2).1.map Prod.fst :=
        (hmemkeys kv.1).mpr (List.mem_map.mpr ⟨kv, hkv, rfl⟩)
      rcases List.mem_map.mp this with ⟨kv', hkv', hkve⟩
      exact ⟨kv', hkv', hkve ▸ hkvid⟩
    · intro e he
      rcases List.mem_append.mp he with he | he
      · rcases hK6 e he with ⟨kv, hkv, hkvid⟩
        have : kv.1 ∈ (procKeys f y st.1 st.2).1.map Prod.fst :=
          (hmemkeys kv.1).mpr (List.mem_map.mpr ⟨kv, hkv, rfl⟩)
        rcases List.mem_map.mp this with ⟨kv', hkv', hkve⟩
        exact ⟨kv', hkv', hkve ▸ hkvid⟩
      · rw [List.mem_singleton] at he
        rw [he]
        have : kv0.1 ∈ (procKeys f y st.1 st.2).1.map Prod.fst :=
          (hmemkeys kv0.1).mpr (List.mem_map.mpr ⟨kv0, hkv0, rfl⟩)
        rcases List.mem_map.mp this with ⟨kv', hkv', hkve⟩
        exact ⟨kv', hkv', hkve ▸ hkv0id⟩
  · -- nothing matched: a fresh entry for y is created
    simp only [hm, Bool.false_eq_true, if_false]
    -- with nothing matched, the bump map is the identity
    have hnomatch : ∀ kv ∈ st.1,
        (identicalTo f y kv.1 && !(kv.1 ∈ st.2 : Bool)) = false := by
      intro kv hkv
      by_contra hne
      rw [Bool.not_eq_false] at hne
      rw [Bool.and_eq_true] at hne
      exact hm (hpk2.mpr ⟨kv, hkv, hne.1, by simpa using hne.2⟩)
    have hid1 : (procKeys f y st.1 st.2).1 = st.1 := by
      rw [hpk1]
      have : ∀ kv ∈ st.1, (fun kv =>
          if identicalTo f y kv.1 && !(kv.1 ∈ st.2 : Bool) then
            (kv.1, kv.2 + 1) else kv) kv = id kv := by
        intro kv hkv
        show (if (identicalTo f y kv.1 && !(kv.1 ∈ st.2 : Bool)) = true then
          (kv.1, kv.2 + 1) else kv) = kv
        rw [if_neg]
        rw [hnomatch kv hkv]
        simp
      rw [List.map_congr_left this, List.map_id]
    -- y has no structurally identical key at all
    have hnokey : ∀ kv ∈ st.1, identicalTo f y kv.1 = false := by
      intro kv hkv
      by_contra hne
      rw [Bool.not_eq_false] at hne
      have hseen : kv.1 ∈ st.2 := by
        by_contra hns
        have := hnomatch kv hkv
        rw [hne, Bool.true_and] at this
        rw [Bool.not_eq_false'] at this
        exact hns (by simpa using this)
      have hcl := (hK4 kv.1 hseen).2
      rw [classIn, List.any_eq_true] at hcl
      rcases hcl with ⟨e, he, hee⟩
      have : identicalTo f e y = true :=
        identicalTo_trans f e kv.1 y hee (identicalTo_symm f y kv.1 hne)
      rw [hsepy e he] at this
      exact absurd this (by simp)
    have hynotkey : y ∉ st.1.map Prod.fst := by
      intro hmem
      rcases List.mem_map.mp hmem with ⟨kv, hkv, hkve⟩
      have := hnokey kv hkv
      rw [hkve] at this
      rw [this] at hy
      exact absurd hy (by simp)
    rw [hid1, storeKey_of_not_mem y st.1 hynotkey]
    refine ⟨?_, ?_, ?_, ?_, ?_, ?_⟩
    · rw [keySep, List.map_append]
      rw [List.pairwise_append]
      refine ⟨hK1, by simp, ?_⟩
      intro a ha b hb
      rw [List.map_cons, List.map_nil] at hb
      rcases List.mem_cons.mp hb with rfl | hb
      · rcases List.mem_map.mp ha with ⟨kv, hkv, rfl⟩
        exact identicalTo_symm_false f _ _ (hnokey kv hkv)
      · exact absurd hb (by simp)
    · intro kv hkv
      rcases List.mem_append.mp hkv with hkv | hkv
      · exact hK2 kv hkv
      · rw [List.mem_singleton] at hkv
        subst hkv
        exact hy
    · intro kv hkv
      rcases List.mem_append.mp hkv with hkv | hkv
      · have : classIn f (elems ++ [y]) kv.1 = classIn f elems kv.1 := by
          rw [classIn_append_single, hnokey kv hkv, Bool.or_false]
        rw [this]
        exact hK3 kv hkv
      · rw [List.mem_singleton] at hkv
        subst hkv
        simp only
        have hnew : classIn f (elems ++ [y]) y = true := by
          rw [classIn_append_single, hy, Bool.or_true]
        rw [hnew, if_pos rfl]
        -- no processed successor represents y's class
        have hzero : processed.countP
            (fun s => classIn f (lookupSets inM s) y) = 0 := by
          rw [List.countP_eq_zero]
          intro s hs
          rw [Bool.not_eq_true, classIn, List.any_eq_false]
          intro y' hy'
          by_contra hne
          rcases hK5 s hs y' hy' with ⟨kv, hkv, hkvid⟩
          have : identicalTo f y kv.1 = true :=
            identicalTo_trans f y y' kv.1
              (identicalTo_symm f y' y hne) hkvid
          rw [hnokey kv hkv] at this
          exact absurd this (by simp)
        rw [hzero]
    · intro k hk
      rcases (hpk3 k).mp hk with hks | ⟨hkk, hke⟩
      · rcases hK4 k hks with ⟨hkk, hkcl⟩
        refine ⟨by rw [List.map_append]; exact List.mem_append.mpr (Or.inl hkk), ?_⟩
        rw [classIn_append_single, hkcl, Bool.true_or]
      · refine ⟨by rw [List.map_append]; exact List.mem_append.mpr (Or.inl hkk), ?_⟩
        rw [classIn_append_single, hke, Bool.or_true]
    · intro s hs y' hy'
      rcases hK5 s hs y' hy' with ⟨kv, hkv, hkvid⟩
      exact ⟨kv, List.mem_append.mpr (Or.inl hkv), hkvid⟩
    · intro e he
      rcases List.mem_append.mp he with he | he
      · rcases hK6 e he with ⟨kv, hkv, hkvid⟩
        exact ⟨kv, List.mem_append.mpr (Or.inl hkv), hkvid⟩
      · rw [List.mem_singleton] at he
        rw [he]
        exact ⟨(y, 1), List.mem_append.mpr (Or.inr (List.mem_singleton.mpr rfl)), hy⟩

theorem tally_fold (f : Func) (inM : List (Nat × List Nat))
    (processed : List Nat) (inS : List Nat)
    (hpresS : ∀ y ∈ inS, identicalTo f y y = true)
    (hDF : inS.Pairwise (fun a b => identicalTo f a b = false)) :
    ∀ (l elems : List Nat) (st : List (Nat × Nat) × List Nat),
      elems ++ l = inS → TallyInv f inM processed elems st →
      TallyInv f inM processed inS (l.foldl (procElem f) st) := by
  intro l
  induction l with
  | nil =>
      intro elems st hfull hinv
      rw [List.append_nil] at hfull
      rw [List.foldl_nil]
      rw [← hfull]
      exact hinv
  | cons y rest ih =>
      intro elems st hfull hinv
      rw [List.foldl_cons]
      have hy : y ∈ inS := by
        rw [← hfull]
        exact List.mem_append.mpr (Or.inr (List.mem_cons_self _ _))
      have hsepy : ∀ e ∈ elems, identicalTo f e y = false := by
        intro e he
        have hsplit := List.pairwise_append.mp (hfull ▸ hDF)
        exact hsplit.2.2 e he y (List.mem_cons_self _ _)
      have hstep := tally_step f inM processed elems st y hinv
        (hpresS y hy) hsepy
      refine ih (elems ++ [y]) _ ?_ hstep
      rw [List.append_assoc, List.singleton_append]
      exact hfull

/-- The invariant of the tally between successors. -/
def CountInv (f : Func) (inM : List (Nat × List Nat))
    (processed : List Nat) (count : List (Nat × Nat)) : Prop :=
  keySep f count ∧ keyRefl f count ∧
  (∀ kv ∈ count, kv.2 =
      processed.countP (fun s => classIn f (lookupSets inM s) kv.1)) ∧
  (∀ s ∈ processed, ∀ y ∈ lookupSets inM s, ∃ kv ∈ count,
      identicalTo f y kv.1 = true)

theorem procSucc_inv (f : Func) (inM : List (Nat × List Nat))
    (processed : List Nat) (count : List (Nat × Nat)) (s : Nat)
    (hpresS : ∀ y ∈ lookupSets inM s, identicalTo f y y = true)
    (hDF : (lookupSets inM s).Pairwise (fun a b => identicalTo f a b = false))
    (hinv : CountInv f inM processed count) :
    CountInv f inM (processed ++ [s]) (procSucc f inM count s) := by
  have hstart : TallyInv f inM processed [] (count, []) := by
    refine ⟨hinv.1, hinv.2.1, ?_, ?_, ?_, ?_⟩
    · intro kv hkv
      have : classIn f ([] : List Nat) kv.1 = false := rfl
      rw [this]
      simp only [Bool.false_eq_true, if_false, Nat.add_zero]
      exact hinv.2.2.1 kv hkv
    · intro k hk
      exact absurd hk (by simp)
    · exact hinv.2.2.2
    · intro e he
      exact absurd he (by simp)
  have hend := tally_fold f inM processed (lookupSets inM s) hpresS hDF
    (lookupSets inM s) [] (count, []) rfl hstart
  obtain ⟨hK1, hK2, hK3, hK4, hK5, hK6⟩ := hend
  rw [procSucc]
  refine ⟨hK1, hK2, ?_, ?_⟩
  · intro kv hkv
    rw [hK3 kv hkv, List.countP_append, List.countP_cons, List.countP_nil]
    by_cases hc : classIn f (lookupSets inM s) kv.1 = true
    · simp [hc]
    · simp [hc]
  · intro s' hs' y hy
    rcases List.mem_append.mp hs' with hs' | hs'
    · exact hK5 s' hs' y hy
    · rw [List.mem_singleton] at hs'
      subst hs'
      exact hK6 y hy

theorem countInv_foldl (f : Func) (inM : List (Nat × List Nat)) :
    ∀ (l processed : List Nat) (count : List (Nat × Nat)),
      (∀ s ∈ l, ∀ y ∈ lookupSets inM s, identicalTo f y y = true) →
      (∀ s ∈ l, (lookupSets inM s).Pairwise
        (fun a b => identicalTo f a b = false)) →
      CountInv f inM processed count →
      CountInv f inM (processed ++ l) (l.foldl (procSucc f inM) count) := by
  intro l
  induction l with
  | nil =>
      intro processed count _ _ hinv
      rw [List.foldl_nil, List.append_nil]
      exact hinv
  | cons s rest ih =>
      intro processed count hpres hDF hinv
      rw [List.foldl_cons]
      have hstep := procSucc_inv f inM processed count s
        (hpres s (List.mem_cons_self _ _)) (hDF s (List.mem_cons_self _ _))
        hinv
      have := ih (processed ++ [s]) _
        (fun s' hs' => hpres s' (List.mem_cons_of_mem _ hs'))
        (fun s' hs' => hDF s' (List.mem_cons_of_mem _ hs'))
        hstep
      rwa [List.append_assoc, List.singleton_append] at this

/-- Claim C4, amended: when every successor's In set holds at most one
member per structural-equivalence class, Out(B) is the equivalence-aware
intersection of the successors' In sets: a class has a representative in
Out(B) iff B has successors and the class is represented in In(S) for every
successor S; and Out(B) is empty when B has no successors. (Duplicate
equivalent members inside one successor's In set can change the result —
see the counterexample — because the fresh tally entry an element itself
creates is not protected by the seen marks and is incremented again by the
next equivalent member of the same In set.) -/
theorem anticipationOut_amended (f : Func) (blk : Block)
    (inM : List (Nat × List Nat))
    (hpres : ∀ s ∈ blk.succs, ∀ y ∈ lookupSets inM s,
      identicalTo f y y = true)
    (hdf : ∀ s ∈ blk.succs, (lookupSets inM s).Pairwise
      (fun a b => identicalTo f a b = false)) :
    (blk.succs = [] → findOutSet f blk inM = []) ∧
    ∀ c : Nat,
      ((∃ x ∈ findOutSet f blk inM, identicalTo f x c = true) ↔
       (blk.succs ≠ [] ∧ ∀ s ∈ blk.succs, ∃ y ∈ lookupSets inM s,
         identicalTo f y c = true)) := by
  have hbase : CountInv f inM [] [] := by
    refine ⟨List.Pairwise.nil, ?_, ?_, ?_⟩
    · intro kv hkv; exact absurd hkv (by simp)
    · intro kv hkv; exact absurd hkv (by simp)
    · intro s hs; exact absurd hs (by simp)
  have hinv := countInv_foldl f inM blk.succs [] [] hpres hdf hbase
  rw [List.nil_append] at hinv
  constructor
  · intro hnil
    rw [findOutSet, hnil]
    rfl
  · intro c
    constructor
    · rintro ⟨x, hx, hxc⟩
      rw [findOutSet] at hx
      rcases List.mem_map.mp hx with ⟨kv, hkvf, rfl⟩
      have hkv := List.mem_of_mem_filter hkvf
      have hkvlen : kv.2 = blk.succs.length := by
        have := List.of_mem_filter hkvf
        simpa using this
      have hcount := hinv.2.2.1 kv hkv
      have hfull : ∀ s ∈ blk.succs,
          classIn f (lookupSets inM s) kv.1 = true := by
        refine List.countP_eq_length.mp ?_
        rw [← hcount, hkvlen]
      have hne : blk.succs ≠ [] := by
        intro hnil
        rw [hnil] at hkv
        revert hkv
        rw [List.foldl_nil]
        simp
      refine ⟨hne, ?_⟩
      intro s hs
      have := hfull s hs
      rw [classIn, List.any_eq_true] at this
      rcases this with ⟨y, hy, hyk⟩
      exact ⟨y, hy, identicalTo_trans f y kv.1 c hyk hxc⟩
    · rintro ⟨hne, hall⟩
      rcases List.exists_mem_of_ne_nil blk.succs hne with ⟨s0, hs0⟩
      rcases hall s0 hs0 with ⟨y0, hy0, hy0c⟩
      rcases hinv.2.2.2 s0 hs0 y0 hy0 with ⟨kv, hkv, hkvid⟩
      have hkc : identicalTo f kv.1 c = true :=
        identicalTo_trans f kv.1 y0 c (identicalTo_symm f y0 kv.1 hkvid) hy0c
      have hfull : ∀ s ∈ blk.succs,
          classIn f (lookupSets inM s) kv.1 = true := by
        intro s hs
        rcases hall s hs with ⟨y, hy, hyc⟩
        rw [classIn, List.any_eq_true]
        refine ⟨y, hy, ?_⟩
        exact identicalTo_trans f y c kv.1 hyc
          (identicalTo_symm f kv.1 c hkc)
      have hlen : kv.2 = blk.succs.length := by
        rw [hinv.2.2.1 kv hkv]
        exact List.countP_eq_length.mpr hfull
      refine ⟨kv.1, ?_, hkc⟩
      rw [findOutSet]
      refine List.mem_map.mpr ⟨kv, ?_, rfl⟩
      refine List.mem_filter.mpr ⟨hkv, ?_⟩
      simpa using hlen

/-- Witness for the amended C4 theorem on a one-successor diamond leg: with
duplicate-free In sets the class of the single add is correctly
intersected. -/
theorem anticipationOut_amended_witness :
    (∃ x ∈ findOutSet cexFun1
        ⟨5, [7], [0]⟩
        [(0, [1])],
      identicalTo cexFun1 x 1 = true) := by
  refine ((anticipationOut_amended cexFun1 ⟨5, [7], [0]⟩ [(0, [1])]
    (by decide) (by decide)).2 1).mpr ⟨by decide, ?_⟩
  intro s hs
  refine ⟨1, ?_, ?_⟩
  · have : s = 0 := by
      rcases List.mem_singleton.mp hs with rfl
      rfl
    rw [this]
    decide
  · decide

/-! ### Well-formedness and the hoister's no-dangling-uses invariant (C6) -/

/-- The instruction ids currently stored. -/
def keysOf (f : Func) : List Nat := f.imap.map Prod.fst

/-- Every instruction-result operand refers to a stored instruction. -/
def WFr (f : Func) : Prop :=
  ∀ p ∈ f.imap, ∀ j, Val.ins j ∈ p.2.ops → j ∈ keysOf f

/-- Executable check for one operand of `WFr`. -/
def valRefOk (f : Func) (x : Val) : Bool :=
  match x with
  | Val.ins j => decide (j ∈ keysOf f)
  | _ => true

theorem WFr_of_check (f : Func)
    (h : ∀ p ∈ f.imap, p.2.ops.all (valRefOk f) = true) : WFr f := by
  intro p hp j hj
  have := List.all_eq_true.mp (h p hp) (Val.ins j) hj
  rw [valRefOk] at this
  exact of_decide_eq_true this

/-- No instruction consumes its own result (defs precede uses). -/
@[reducible] def WFselfFree (f : Func) : Prop :=
  ∀ p ∈ f.imap, Val.ins p.1 ∉ p.2.ops

/-- Instruction ids are stored once. -/
@[reducible] def WFkeys (f : Func) : Prop := (keysOf f).Nodup

/-- The well-formedness the hoister relies on. -/
def WFuse (f : Func) : Prop := WFkeys f ∧ WFr f ∧ WFselfFree f

/-- Nothing stored consumes the result of instruction `v`. -/
def noUsers (f : Func) (v : Nat) : Prop :=
  ∀ p ∈ f.imap, Val.ins v ∉ p.2.ops

theorem instOf_of_key_mem (f : Func) (i : Nat)
    (h : i ∈ keysOf f) : ∃ I, instOf f i = some I := by
  rw [keysOf] at h
  rcases List.mem_map.mp h with ⟨p, hp, rfl⟩
  rw [instOf]
  cases hf : f.imap.find? (fun q => q.1 == p.1) with
  | none =>
      exfalso
      have := List.find?_eq_none.mp hf p hp
      simp at this
  | some q => exact ⟨q.2, rfl⟩

theorem key_mem_of_instOf (f : Func) (i : Nat) (I : Instr)
    (h : instOf f i = some I) : i ∈ keysOf f := by
  have := mem_of_instOf_eq_some f i I h
  exact List.mem_map.mpr ⟨(i, I), this, rfl⟩

theorem identicalTo_refl_of_key (f : Func) (i : Nat) (h : i ∈ keysOf f) :
    identicalTo f i i = true := by
  rcases instOf_of_key_mem f i h with ⟨I, hI⟩
  exact identicalTo_refl f i I hI

/-! #### find? toolkit -/

theorem find?_eq_some_split {p : Nat → Bool} :
    ∀ {l : List Nat} {c : Nat}, l.find? p = some c →
      ∃ l1 l2, l = l1 ++ c :: l2 ∧ (∀ j ∈ l1, p j = false) ∧ p c = true := by
  intro l
  induction l with
  | nil => intro c h; exact absurd h (by simp)
  | cons a l ih =>
      intro c h
      by_cases hp : p a
      · rw [List.find?_cons_of_pos _ hp] at h
        simp only [Option.some_inj] at h
        subst h
        exact ⟨[], l, rfl, by simp, hp⟩
      · rw [List.find?_cons_of_neg _ hp] at h
        rcases ih h with ⟨l1, l2, rfl, hl1, hc⟩
        exact ⟨a :: l1, l2, rfl, by
          intro j hj
          rcases List.mem_cons.mp hj with rfl | hj
          · simpa using hp
          · exact hl1 j hj, hc⟩

theorem find?_append_first_true {p : Nat → Bool} :
    ∀ {l1 : List Nat} {c : Nat} (l2 : List Nat),
      (∀ j ∈ l1, p j = false) → p c = true →
      (l1 ++ c :: l2).find? p = some c := by
  intro l1
  induction l1 with
  | nil =>
      intro c l2 _ hc
      rw [List.nil_append]
      exact List.find?_cons_of_pos _ hc
  | cons a l ih =>
      intro c l2 hl hc
      rw [List.cons_append, List.find?_cons_of_neg, ih l2
        (fun j hj => hl j (List.mem_cons_of_mem _ hj)) hc]
      have := hl a (List.mem_cons_self _ _)
      simp [this]

theorem find?_congr_pred {p q : Nat → Bool} :
    ∀ {l : List Nat}, (∀ j ∈ l, p j = q j) → l.find? p = l.find? q := by
  intro l
  induction l with
  | nil => intro _; rfl
  | cons a l ih =>
      intro h
      have ha := h a (List.mem_cons_self _ _)
      by_cases hp : p a
      · rw [List.find?_cons_of_pos _ hp, List.find?_cons_of_pos]
        rw [← ha]; exact hp
      · rw [List.find?_cons_of_neg _ hp, List.find?_cons_of_neg, ih
          (fun j hj => h j (List.mem_cons_of_mem _ hj))]
        rw [← ha]; exact hp

theorem find?_mem_and_true {p : Nat → Bool} {l : List Nat} {c : Nat}
    (h : l.find? p = some c) : c ∈ l ∧ p c = true :=
  ⟨List.mem_of_find?_eq_some h, by simpa using List.find?_some h⟩

/-! #### Effect of use replacement on the store -/

theorem rauw_keys (f : Func) (v w : Nat) : keysOf (rauw f v w) = keysOf f := by
  rw [keysOf, keysOf, rauw]
  simp only
  rw [List.map_map]
  exact List.map_congr_left (fun p _ => rfl)

theorem rauw_blocks (f : Func) (v w : Nat) : (rauw f v w).blocks = f.blocks :=
  rfl

theorem instOf_rauw (f : Func) (v w i : Nat) :
    instOf (rauw f v w) i =
      match instOf f i with
      | some I => some ⟨I.op, I.ops.map (subVal v w)⟩
      | none => none := by
  rw [instOf, instOf, rauw]
  simp only
  induction f.imap with
  | nil => rfl
  | cons p rest ih =>
      by_cases hp : p.1 = i
      · rw [List.map_cons, List.find?_cons_of_pos _ (by simpa using hp),
          List.find?_cons_of_pos _ (by simpa using hp)]
      · rw [List.map_cons, List.find?_cons_of_neg _ (by simpa using hp),
          List.find?_cons_of_neg _ (by simpa using hp)]
        exact ih

theorem identical_rauw_of_identical (f : Func) (v w a b : Nat)
    (h : identicalTo f a b = true) :
    identicalTo (rauw f v w) a b = true := by
  rw [identicalTo_iff_parts] at h ⊢
  rcases h with ⟨A, B, hA, hB, h1, h2⟩
  refine ⟨⟨A.op, A.ops.map (subVal v w)⟩, ⟨B.op, B.ops.map (subVal v w)⟩,
    ?_, ?_, h1, by rw [h2]⟩
  · rw [instOf_rauw, hA]
  · rw [instOf_rauw, hB]

theorem rauw_removes_users (f : Func) (v w : Nat) (hvw : v ≠ w) :
    noUsers (rauw f v w) v := by
  intro p hp
  rw [rauw] at hp
  simp only at hp
  rcases List.mem_map.mp hp with ⟨q, _, rfl⟩
  simp only
  intro hmem
  rcases List.mem_map.mp hmem with ⟨x, _, hx⟩
  rw [subVal] at hx
  by_cases hxe : x = Val.ins v
  · rw [if_pos hxe] at hx
    exact hvw (by injection hx with h; exact h.symm)
  · rw [if_neg hxe] at hx
    exact hxe hx

theorem rauw_preserves_noUsers (f : Func) (v w m : Nat)
    (h : noUsers f m) (hmw : m ≠ w) : noUsers (rauw f v w) m := by
  intro p hp
  rw [rauw] at hp
  simp only at hp
  rcases List.mem_map.mp hp with ⟨q, hq, rfl⟩
  simp only
  intro hmem
  rcases List.mem_map.mp hmem with ⟨x, hxq, hx⟩
  rw [subVal] at hx
  by_cases hxe : x = Val.ins v
  · rw [if_pos hxe] at hx
    exact hmw (by injection hx with h; exact h.symm)
  · rw [if_neg hxe] at hx
    rw [hx] at hxq
    exact h q hq hxq

theorem rauw_of_noUsers (f : Func) (v w : Nat) (h : noUsers f v) :
    rauw f v w = f := by
  rw [rauw]
  rcases f with ⟨e, bs, m⟩
  simp only [Func.mk.injEq, true_and]
  have : ∀ p ∈ m, (p.1, (⟨p.2.op, p.2.ops.map (subVal v w)⟩ : Instr)) = p := by
    intro p hp
    have hops : p.2.ops.map (subVal v w) = p.2.ops := by
      refine List.map_congr_left ?_ |>.trans (List.map_id _)
      intro x hx
      show subVal v w x = x
      rw [subVal, if_neg]
      intro he
      rw [he] at hx
      exact h p hp hx
    rw [hops]
  rw [List.map_congr_left this]
  simp

theorem mem_ops_map_subVal (v w : Nat) (ops : List Val) (j : Nat) :
    Val.ins j ∈ ops.map (subVal v w) ↔
      (Val.ins j ∈ ops ∧ j ≠ v) ∨ (j = w ∧ Val.ins v ∈ ops) := by
  constructor
  · intro h
    rcases List.mem_map.mp h with ⟨x, hx, hxe⟩
    rw [subVal] at hxe
    by_cases hxv : x = Val.ins v
    · rw [if_pos hxv] at hxe
      injection hxe with he
      exact Or.inr ⟨he.symm, hxv ▸ hx⟩
    · rw [if_neg hxv] at hxe
      subst hxe
      refine Or.inl ⟨hx, ?_⟩
      intro he
      exact hxv (by rw [he])
  · rintro (⟨hx, hj⟩ | ⟨rfl, hv⟩)
    · refine List.mem_map.mpr ⟨Val.ins j, hx, ?_⟩
      rw [subVal, if_neg]
      intro he
      exact hj (by injection he)
    · refine List.mem_map.mpr ⟨Val.ins v, hv, ?_⟩
      rw [subVal, if_pos rfl]

theorem rauw_preserves_WFr (f : Func) (v w : Nat) (hw : w ∈ keysOf f)
    (h : WFr f) : WFr (rauw f v w) := by
  intro p hp j hj
  rw [rauw] at hp
  simp only at hp
  rcases List.mem_map.mp hp with ⟨q, hq, rfl⟩
  simp only at hj
  rw [rauw_keys]
  rcases (mem_ops_map_subVal v w q.2.ops j).mp hj with ⟨hx, _⟩ | ⟨rfl, _⟩
  · exact h q hq j hx
  · exact hw

theorem rauw_preserves_WFkeys (f : Func) (v w : Nat) (h : WFkeys f) :
    WFkeys (rauw f v w) := by
  rw [WFkeys, rauw_keys]
  exact h

theorem ops_eq_of_identical (f : Func) (a b : Nat)
    (h : identicalTo f a b = true) :
    ∃ A B, instOf f a = some A ∧ instOf f b = some B ∧ A.op = B.op ∧
      A.ops = B.ops :=
  (identicalTo_iff_parts f a b).mp h

theorem rauw_preserves_WFselfFree (f : Func) (v w : Nat)
    (hkeys : WFkeys f) (hsf : WFselfFree f)
    (hvw : identicalTo f v w = true) (hne : v ≠ w) :
    WFselfFree (rauw f v w) := by
  rcases ops_eq_of_identical f v w hvw with ⟨V, W, hV, hW, _, hops⟩
  have hWnov : Val.ins v ∉ W.ops := by
    intro hmem
    rw [← hops] at hmem
    exact hsf (v, V) (mem_of_instOf_eq_some f v V hV) hmem
  intro p hp
  rw [rauw] at hp
  simp only at hp
  rcases List.mem_map.mp hp with ⟨q, hq, rfl⟩
  simp only
  intro hmem
  rcases (mem_ops_map_subVal v w q.2.ops q.1).mp hmem with ⟨hx, _⟩ | ⟨rfl, hv⟩
  · exact hsf q hq hx
  · -- the instruction with id w would have been a user of v, so v would use
    -- itself
    have : q.2 = W := by
      have := instOf_eq_some_of_mem f hkeys q.1 q.2 hq
      rw [this] at hW
      injection hW
    rw [this] at hv
    exact hWnov hv

/-- No instruction joins the canonical instance's equivalence class through
the replacement: anything identical to `w` after `rauw v w` was identical to
`w` before. -/
theorem identical_rauw_to_w_back (f : Func) (v w j : Nat)
    (hkeys : WFkeys f) (hsf : WFselfFree f)
    (hvw : identicalTo f v w = true) (hne : v ≠ w)
    (h : identicalTo (rauw f v w) j w = true) :
    identicalTo f j w = true := by
  rcases ops_eq_of_identical f v w hvw with ⟨V, W, hV, hW, _, hopsVW⟩
  have hWnov : Val.ins v ∉ W.ops := by
    intro hmem
    rw [← hopsVW] at hmem
    exact hsf (v, V) (mem_of_instOf_eq_some f v V hV) hmem
  have hWnow : Val.ins w ∉ W.ops :=
    fun hmem => hsf (w, W) (mem_of_instOf_eq_some f w W hW) hmem
  rw [identicalTo_iff_parts] at h
  rcases h with ⟨A, B, hA, hB, hop, hops⟩
  rw [instOf_rauw] at hA hB
  cases hJ : instOf f j with
  | none => rw [hJ] at hA; exact absurd hA (by simp)
  | some J =>
      rw [hJ] at hA
      rw [hW] at hB
      simp only [Option.some_inj] at hA hB
      subst hA; subst hB
      simp only at hop hops
      -- W's operands are untouched by the substitution
      have hWfix : W.ops.map (subVal v w) = W.ops := by
        refine (List.map_congr_left ?_).trans (List.map_id _)
        intro x hx
        show subVal v w x = x
        rw [subVal, if_neg]
        intro he
        rw [he] at hx
        exact hWnov hx
      rw [hWfix] at hops
      -- J cannot consume v: the corresponding operand of W would be w itself
      have hJnov : Val.ins v ∉ J.ops := by
        intro hmem
        have : Val.ins w ∈ J.ops.map (subVal v w) :=
          (mem_ops_map_subVal v w J.ops w).mpr (Or.inr ⟨rfl, hmem⟩)
        rw [hops] at this
        exact hWnow this
      have hJfix : J.ops.map (subVal v w) = J.ops := by
        refine (List.map_congr_left ?_).trans (List.map_id _)
        intro x hx
        show subVal v w x = x
        rw [subVal, if_neg]
        intro he
        rw [he] at hx
        exact hJnov hx
      rw [hJfix] at hops
      rw [identicalTo_iff_parts]
      exact ⟨J, W, hJ, hW, hop, hops⟩

/-! #### Effect of relocation and erasure -/

theorem moveToEnd_imap (f : Func) (b i : Nat) :
    (moveToEnd f b i).imap = f.imap := rfl

theorem instOf_moveToEnd (f : Func) (b i j : Nat) :
    instOf (moveToEnd f b i) j = instOf f j := rfl

theorem identical_moveToEnd (f : Func) (b i x y : Nat) :
    identicalTo (moveToEnd f b i) x y = identicalTo f x y := rfl

theorem noUsers_moveToEnd (f : Func) (b i m : Nat) :
    noUsers (moveToEnd f b i) m ↔ noUsers f m := Iff.rfl

theorem keysOf_moveToEnd (f : Func) (b i : Nat) :
    keysOf (moveToEnd f b i) = keysOf f := rfl

theorem WFuse_moveToEnd (f : Func) (b i : Nat) (h : WFuse f) :
    WFuse (moveToEnd f b i) := h

theorem mem_insertBeforeLast (x j : Nat) :
    ∀ (l : List Nat), j ∈ insertBeforeLast x l ↔ j ∈ l ∨ j = x := by
  intro l
  induction l with
  | nil =>
      rw [insertBeforeLast]
      simp [eq_comm]
  | cons a rest ih =>
      cases rest with
      | nil =>
          rw [insertBeforeLast]
          constructor
          · intro h
            rcases List.mem_cons.mp h with rfl | h
            · exact Or.inr rfl
            · exact Or.inl h
          · rintro (h | rfl)
            · exact List.mem_cons_of_mem _ h
            · exact List.mem_cons_self _ _
      | cons c rest2 =>
          rw [insertBeforeLast]
          rw [List.mem_cons, ih]
          simp [List.mem_cons, or_assoc]

theorem find?_insertBeforeLast_of_false (p : Nat → Bool) (x : Nat)
    (hx : p x = false) :
    ∀ (l : List Nat), (insertBeforeLast x l).find? p = l.find? p := by
  intro l
  induction l with
  | nil =>
      rw [insertBeforeLast, List.find?_cons_of_neg _ (by simp [hx])]
  | cons a rest ih =>
      cases rest with
      | nil =>
          rw [insertBeforeLast, List.find?_cons_of_neg _ (by simp [hx])]
      | cons c rest2 =>
          rw [insertBeforeLast]
          by_cases hp : p a
          · rw [List.find?_cons_of_pos _ hp, List.find?_cons_of_pos _ hp]
          · rw [List.find?_cons_of_neg _ hp, List.find?_cons_of_neg _ hp]
            exact ih

theorem find?_insertBeforeLast_all_false (p : Nat → Bool) (x : Nat)
    (hx : p x = true) :
    ∀ (l : List Nat), (∀ j ∈ l, p j = false) →
      (insertBeforeLast x l).find? p = some x := by
  intro l
  induction l with
  | nil =>
      intro _
      rw [insertBeforeLast]
      exact List.find?_cons_of_pos _ hx
  | cons a rest ih =>
      intro hall
      cases rest with
      | nil =>
          rw [insertBeforeLast, List.find?_cons_of_pos _ hx]
      | cons c rest2 =>
          rw [insertBeforeLast, List.find?_cons_of_neg _ (by
            rw [hall a (List.mem_cons_self _ _)]; simp)]
          exact ih (fun j hj => hall j (List.mem_cons_of_mem _ hj))

theorem filter_eq_of_not_mem {i : Nat} :
    ∀ {l : List Nat}, i ∉ l → l.filter (fun j => j ≠ i) = l := by
  intro l
  induction l with
  | nil => intro _; rfl
  | cons a rest ih =>
      intro h
      rw [List.filter_cons]
      have ha : a ≠ i := fun he => h (he ▸ List.mem_cons_self _ _)
      rw [if_pos (by simpa using ha)]
      rw [ih (fun hm => h (List.mem_cons_of_mem _ hm))]

theorem eraseInst_imap (f : Func) (i : Nat) :
    (eraseInst f i).imap = f.imap.filter (fun p => p.1 ≠ i) := rfl

theorem noUsers_eraseInst (f : Func) (i m : Nat) (h : noUsers f m) :
    noUsers (eraseInst f i) m := by
  intro p hp
  rw [eraseInst_imap] at hp
  exact h p (List.mem_of_mem_filter hp)

theorem keysOf_eraseInst_sub (f : Func) (i : Nat) :
    ∀ j ∈ keysOf (eraseInst f i), j ∈ keysOf f ∧ j ≠ i := by
  intro j hj
  rw [keysOf, eraseInst_imap] at hj
  rcases List.mem_map.mp hj with ⟨p, hp, rfl⟩
  refine ⟨List.mem_map.mpr ⟨p, List.mem_of_mem_filter hp, rfl⟩, ?_⟩
  have := List.of_mem_filter hp
  simpa using this

theorem keysOf_eraseInst_mem (f : Func) (i : Nat) (j : Nat)
    (hj : j ∈ keysOf f) (hne : j ≠ i) : j ∈ keysOf (eraseInst f i) := by
  rw [keysOf] at hj
  rcases List.mem_map.mp hj with ⟨p, hp, rfl⟩
  rw [keysOf, eraseInst_imap]
  refine List.mem_map.mpr ⟨p, ?_, rfl⟩
  refine List.mem_filter.mpr ⟨hp, by simpa using hne⟩

theorem WFr_eraseInst (f : Func) (i : Nat) (hwf : WFr f)
    (hnu : noUsers f i) : WFr (eraseInst f i) := by
  intro p hp j hj
  rw [eraseInst_imap] at hp
  have hpf := List.mem_of_mem_filter hp
  have hjk := hwf p hpf j hj
  refine keysOf_eraseInst_mem f i j hjk ?_
  intro he
  subst he
  exact hnu p hpf hj

theorem identical_congr_right (f : Func) (a b : Nat)
    (h : identicalTo f a b = true) (j : Nat) :
    identicalTo f j a = identicalTo f j b := by
  by_cases hja : identicalTo f j a = true
  · rw [hja, identicalTo_trans f j a b hja h]
  · rw [Bool.not_eq_true] at hja
    rw [hja]
    by_contra hjb
    rw [eq_comm, Bool.not_eq_false] at hjb
    have := identicalTo_trans f j b a hjb (identicalTo_symm f a b h)
    rw [hja] at this
    exact absurd this (by simp)

theorem find?_some_of_exists (p : Nat → Bool) :
    ∀ {l : List Nat} {x : Nat}, x ∈ l → p x = true →
      ∃ c, l.find? p = some c := by
  intro l
  induction l with
  | nil => intro x hx; exact absurd hx (by simp)
  | cons a rest ih =>
      intro x hx hp
      by_cases hpa : p a
      · exact ⟨a, List.find?_cons_of_pos _ hpa⟩
      · rcases List.mem_cons.mp hx with rfl | hx
        · exact absurd hp hpa
        · rcases ih hx hp with ⟨c, hc⟩
          exact ⟨c, by rw [List.find?_cons_of_neg _ hpa]; exact hc⟩

theorem find?_mem_prefix {p : Nat → Bool} :
    ∀ {u : List Nat} {c : Nat} {rest : List Nat} {d : Nat},
      (u ++ c :: rest).find? p = some d → p c = true → d ∈ u ∨ d = c := by
  intro u
  induction u with
  | nil =>
      intro c rest d h hc
      rw [List.nil_append, List.find?_cons_of_pos _ hc] at h
      simp only [Option.some_inj] at h
      exact Or.inr h.symm
  | cons a u' ih =>
      intro c rest d h hc
      rw [List.cons_append] at h
      by_cases hpa : p a
      · rw [List.find?_cons_of_pos _ hpa] at h
        simp only [Option.some_inj] at h
        exact Or.inl (h ▸ List.mem_cons_self _ _)
      · rw [List.find?_cons_of_neg _ hpa] at h
        rcases ih h hc with hd | hd
        · exact Or.inl (List.mem_cons_of_mem _ hd)
        · exact Or.inr hd

/-- The hoister's marking invariant at block `b`: the store is well formed,
marked instructions have no users and are still stored, and the first
instruction of `b` structurally identical to any marked instruction is
unmarked. -/
def HInv (f : Func) (b : Nat) (toDel : List Nat) : Prop :=
  WFuse f ∧
  (∀ m ∈ toDel, noUsers f m) ∧
  (∀ m ∈ toDel, m ∈ keysOf f) ∧
  (∀ m ∈ toDel, ∃ c, checkBeforeMove f b m = some c ∧ c ∉ toDel)

theorem blockOf_rauw (f : Func) (v w b : Nat) :
    blockOf (rauw f v w) b = blockOf f b := rfl

theorem checkBeforeMove_some_blk (f : Func) (b m : Nat) (blk : Block)
    (h : blockOf f b = some blk) :
    checkBeforeMove f b m = blk.insts.find? (fun i => identicalTo f i m) := by
  rw [checkBeforeMove, h]

theorem hmark_step (f : Func) (b inst v : Nat) (toDel : List Nat)
    (hinv : HInv f b toDel)
    (hSme : checkBeforeMove f b inst = some inst)
    (hSnm : inst ∉ toDel)
    (hid : identicalTo f v inst = true)
    (hne : v ≠ inst) :
    HInv (rauw f v inst) b (insertIfAbsent toDel v) ∧
    checkBeforeMove (rauw f v inst) b inst = some inst ∧
    inst ∉ insertIfAbsent toDel v := by
  obtain ⟨hW, hM1, hM2, hT3⟩ := hinv
  by_cases hvold : v ∈ toDel
  · -- re-marking: the instruction already has no users, so the replacement
    -- is a no-op
    rw [rauw_of_noUsers f v inst (hM1 v hvold)]
    rw [insertIfAbsent, if_pos hvold]
    exact ⟨⟨hW, hM1, hM2, hT3⟩, hSme, hSnm⟩
  · rw [insertIfAbsent, if_neg hvold]
    obtain ⟨hkeys, hwr, hsf⟩ := hW
    have hinstkey : inst ∈ keysOf f := by
      rcases ops_eq_of_identical f v inst hid with ⟨_, W, _, hW', _, _⟩
      exact key_mem_of_instOf f inst W hW'
    have hblk : ∃ blk, blockOf f b = some blk := by
      rw [checkBeforeMove] at hSme
      cases hb : blockOf f b with
      | none => rw [hb] at hSme; exact absurd hSme (by simp)
      | some blk => exact ⟨blk, rfl⟩
    rcases hblk with ⟨blk, hblkeq⟩
    rw [checkBeforeMove, hblkeq] at hSme
    -- split the block at the canonical instance
    rcases find?_eq_some_split hSme with ⟨l1, l2, hblsplit, hl1, hpinst⟩
    have hnotin : ∀ m' ∈ toDel, m' ≠ v := fun m' hm' he => hvold (he ▸ hm')
    -- the canonical stays the first of its class after the replacement
    have hblk' : blockOf (rauw f v inst) b = some blk := by
      rw [blockOf_rauw]; exact hblkeq
    have hSme' : checkBeforeMove (rauw f v inst) b inst = some inst := by
      rw [checkBeforeMove_some_blk _ _ _ _ hblk', hblsplit]
      refine find?_append_first_true l2 ?_ ?_
      · intro j hj
        by_contra hj'
        rw [Bool.not_eq_false] at hj'
        have := identical_rauw_to_w_back f v inst j hkeys hsf hid hne hj'
        rw [hl1 j hj] at this
        exact absurd this (by simp)
      · exact identical_rauw_of_identical f v inst inst inst hpinst
    refine ⟨⟨⟨rauw_preserves_WFkeys f v inst hkeys,
      rauw_preserves_WFr f v inst hinstkey hwr,
      rauw_preserves_WFselfFree f v inst hkeys hsf hid hne⟩, ?_, ?_, ?_⟩,
      hSme', ?_⟩
    · -- no users of any marked instruction
      intro m hm
      rcases List.mem_append.mp hm with hm | hm
      · exact rauw_preserves_noUsers f v inst m (hM1 m hm)
          (fun he => hSnm (he ▸ hm))
      · rw [List.mem_singleton] at hm
        rw [hm]
        exact rauw_removes_users f v inst hne
    · -- marked instructions stay stored
      intro m hm
      rw [rauw_keys]
      rcases List.mem_append.mp hm with hm | hm
      · exact hM2 m hm
      · rw [List.mem_singleton] at hm
        rw [hm]
        rcases ops_eq_of_identical f v inst hid with ⟨V, _, hV, _, _, _⟩
        exact key_mem_of_instOf f v V hV
    · -- the first instruction of b identical to a marked one is unmarked
      intro m hm
      have hvinst' : identicalTo (rauw f v inst) v inst = true :=
        identical_rauw_of_identical f v inst v inst hid
      have hinstnot' : inst ∉ toDel ++ [v] := by
        intro hmem
        rcases List.mem_append.mp hmem with hmem | hmem
        · exact hSnm hmem
        · rw [List.mem_singleton] at hmem
          exact hne hmem.symm
      rcases List.mem_append.mp hm with hmold | hmnew
      · -- previously marked
        rcases hT3 m hmold with ⟨c, hc, hcnot⟩
        rw [checkBeforeMove_some_blk f b m blk hblkeq] at hc
        by_cases hmerge : identicalTo (rauw f v inst) m inst = true
        · -- m's class is the canonical's class: its new first is the
          -- canonical instance
          have hcongr : ∀ j, identicalTo (rauw f v inst) j m =
              identicalTo (rauw f v inst) j inst :=
            identical_congr_right (rauw f v inst) m inst hmerge
          refine ⟨inst, ?_, hinstnot'⟩
          rw [checkBeforeMove_some_blk _ _ _ _ hblk']
          rw [find?_congr_pred (fun j _ => hcongr j)]
          rw [checkBeforeMove_some_blk _ _ _ _ hblk'] at hSme'
          exact hSme'
        · -- m's class stays disjoint from the canonical's
          have hcid : identicalTo f c m = true := (find?_mem_and_true hc).2
          have hcmem : c ∈ blk.insts := (find?_mem_and_true hc).1
          have hcid' : identicalTo (rauw f v inst) c m = true :=
            identical_rauw_of_identical f v inst c m hcid
          rcases find?_some_of_exists
              (fun i => identicalTo (rauw f v inst) i m) hcmem hcid'
            with ⟨c', hc'⟩
          refine ⟨c', by rw [checkBeforeMove_some_blk _ _ _ _ hblk']; exact hc', ?_⟩
          have hc'id : identicalTo (rauw f v inst) c' m = true :=
            (find?_mem_and_true hc').2
          intro hc'mem
          rcases List.mem_append.mp hc'mem with hc'old | hc'new
          · -- a previously marked first: its own class's first is unmarked
            -- and would precede it
            rcases hT3 c' hc'old with ⟨d, hd, hdnot⟩
            rw [checkBeforeMove_some_blk f b c' blk hblkeq] at hd
            -- d is identical to m in the new store
            have hdc' : identicalTo f d c' = true := (find?_mem_and_true hd).2
            have hdm' : identicalTo (rauw f v inst) d m = true :=
              identicalTo_trans _ d c' m
                (identical_rauw_of_identical f v inst d c' hdc') hc'id
            -- split the new find? at c'
            rcases find?_eq_some_split hc' with ⟨u, rest', hsplit', hu, _⟩
            have hc'refl : identicalTo f c' c' = true :=
              identicalTo_refl_of_key f c' (hM2 c' hc'old)
            rw [hsplit'] at hd
            rcases find?_mem_prefix hd hc'refl with hdu | hdc
            · -- d would be an earlier member of m's class
              have := hu d hdu
              rw [hdm'] at this
              exact absurd this (by simp)
            · exact hdnot (hdc ▸ hc'old)
          · -- c' cannot be the freshly marked instruction: that would merge
            -- m's class into the canonical's
            rw [List.mem_singleton] at hc'new
            apply hmerge
            have hvm : identicalTo (rauw f v inst) v m = true := hc'new ▸ hc'id
            exact identicalTo_trans _ m v inst
              (identicalTo_symm _ v m hvm) hvinst'
      · rw [List.mem_singleton] at hmnew
        -- the freshly marked instruction's class is the canonical's class
        have hmid' : identicalTo (rauw f v inst) m inst = true := by
          rw [hmnew]; exact hvinst'
        have hcongr : ∀ j, identicalTo (rauw f v inst) j m =
            identicalTo (rauw f v inst) j inst :=
          identical_congr_right (rauw f v inst) m inst hmid'
        refine ⟨inst, ?_, hinstnot'⟩
        rw [checkBeforeMove_some_blk _ _ _ _ hblk']
        rw [find?_congr_pred (fun j _ => hcongr j)]
        rw [checkBeforeMove_some_blk _ _ _ _ hblk'] at hSme'
        exact hSme'
    · intro hmem
      rcases List.mem_append.mp hmem with hmem | hmem
      · exact hSnm hmem
      · rw [List.mem_singleton] at hmem
        exact hne hmem.symm

theorem sweep_inv (b inst : Nat) :
    ∀ (ids : List Nat) (st : Func × List Nat),
      HInv st.1 b st.2 → checkBeforeMove st.1 b inst = some inst →
      inst ∉ st.2 →
      HInv (sweep inst ids st).1 b (sweep inst ids st).2 ∧
      keysOf (sweep inst ids st).1 = keysOf st.1 ∧
      (sweep inst ids st).1.blocks = st.1.blocks := by
  intro ids
  induction ids with
  | nil =>
      intro st hinv _ _
      exact ⟨hinv, rfl, rfl⟩
  | cons i rest ih =>
      intro st hinv hSme hSnm
      rw [sweep, List.foldl_cons]
      by_cases hc : (identicalTo st.1 i inst && !(i == inst)) = true
      · rw [if_pos hc]
        rw [Bool.and_eq_true] at hc
        have hne : i ≠ inst := by simpa using hc.2
        have hstep := hmark_step st.1 b inst i st.2 hinv hSme hSnm hc.1 hne
        have := ih (rauw st.1 i inst, insertIfAbsent st.2 i)
          hstep.1 hstep.2.1 hstep.2.2
        rw [sweep] at this
        refine ⟨this.1, ?_, ?_⟩
        · rw [this.2.1]
          exact rauw_keys st.1 i inst
        · rw [this.2.2]
          exact rauw_blocks st.1 i inst
      · rw [if_neg hc]
        have := ih st hinv hSme hSnm
        rw [sweep] at this
        exact this

/-- The per-block effect of `moveToEnd`. -/
def moveAdjust (b i : Nat) (blk : Block) : Block :=
  let rest := blk.insts.filter (fun j => j ≠ i)
  if blk.bid == b then { blk with insts := insertBeforeLast i rest }
  else { blk with insts := rest }

theorem moveToEnd_eq_map (f : Func) (b i : Nat) :
    moveToEnd f b i = { f with blocks := f.blocks.map (moveAdjust b i) } := rfl

theorem moveAdjust_bid (b i : Nat) (blk : Block) :
    (moveAdjust b i blk).bid = blk.bid := by
  rw [moveAdjust]
  by_cases hbb : blk.bid = b
  · simp only [hbb, beq_self_eq_true, if_true]
  · have : (blk.bid == b) = false := by simpa using hbb
    simp only [this, Bool.false_eq_true, if_false]

theorem blockOf_moveToEnd (f : Func) (b i b' : Nat) :
    blockOf (moveToEnd f b i) b' =
      (blockOf f b').map (moveAdjust b i) := by
  rw [moveToEnd_eq_map, blockOf, blockOf]
  simp only
  induction f.blocks with
  | nil => rfl
  | cons blk bs ih =>
      rw [List.map_cons]
      by_cases hb : blk.bid = b'
      · rw [List.find?_cons_of_pos _
          (by rw [moveAdjust_bid]; simpa using hb),
          List.find?_cons_of_pos _ (by simpa using hb)]
        rfl
      · rw [List.find?_cons_of_neg _
          (by rw [moveAdjust_bid]; simpa using hb),
          List.find?_cons_of_neg _ (by simpa using hb)]
        exact ih

theorem processCandidate_inv
    (bfs : List (Nat × List Nat) × Nat → Nat → List Nat)
    (b : Nat) (st : Func × List Nat) (orig : Nat)
    (hinv : HInv st.1 b st.2)
    (horig : orig ∈ keysOf st.1)
    (hb : ∃ blk, blockOf st.1 b = some blk) :
    HInv (processCandidate bfs b st orig).1 b
      (processCandidate bfs b st orig).2 ∧
    keysOf (processCandidate bfs b st orig).1 = keysOf st.1 ∧
    ∃ blk, blockOf (processCandidate bfs b st orig).1 b = some blk := by
  obtain ⟨hW, hM1, hM2, hT3⟩ := hinv
  rcases hb with ⟨blk, hblkeq⟩
  rw [processCandidate]
  cases hcbm : checkBeforeMove st.1 b orig with
  | some c =>
      -- an existing structurally identical instruction is the canonical
      simp only
      rw [checkBeforeMove_some_blk st.1 b orig blk hblkeq] at hcbm
      have hcor : identicalTo st.1 c orig = true := (find?_mem_and_true hcbm).2
      have hcongr : ∀ j, identicalTo st.1 j c = identicalTo st.1 j orig :=
        identical_congr_right st.1 c orig hcor
      have hfirstc : checkBeforeMove st.1 b c = some c := by
        rw [checkBeforeMove_some_blk st.1 b c blk hblkeq,
          find?_congr_pred (fun j _ => hcongr j)]
        exact hcbm
      have hcnot : c ∉ st.2 := by
        intro hcin
        rcases hT3 c hcin with ⟨d, hd, hdnot⟩
        rw [hfirstc] at hd
        simp only [Option.some_inj] at hd
        exact hdnot (hd ▸ hcin)
      have := sweep_inv b c (regionInsts st.1 (bfs (skel st.1) b)) st
        ⟨⟨hW.1, hW.2.1, hW.2.2⟩, hM1, hM2, hT3⟩ hfirstc hcnot
      refine ⟨this.1, this.2.1, ?_⟩
      refine ⟨blk, ?_⟩
      have hbl := this.2.2
      rw [blockOf] at hblkeq ⊢
      rw [hbl]
      exact hblkeq
  | none =>
      -- the candidate is relocated before the terminator of b
      simp only
      rw [checkBeforeMove_some_blk st.1 b orig blk hblkeq] at hcbm
      have hallnot : ∀ j ∈ blk.insts, identicalTo st.1 j orig = false := by
        intro j hj
        have := List.find?_eq_none.mp hcbm j hj
        simpa using this
      have horigrefl : identicalTo st.1 orig orig = true :=
        identicalTo_refl_of_key st.1 orig horig
      have horignotb : orig ∉ blk.insts := by
        intro hmem
        have := hallnot orig hmem
        rw [horigrefl] at this
        exact absurd this (by simp)
      have horignotd : orig ∉ st.2 := by
        intro hmem
        rcases hT3 orig hmem with ⟨d, hd, _⟩
        rw [checkBeforeMove_some_blk st.1 b orig blk hblkeq, hcbm] at hd
        exact absurd hd (by simp)
      -- the new block layout of b
      have hblk1 : blockOf (moveToEnd st.1 b orig) b =
          some { blk with insts := insertBeforeLast orig blk.insts } := by
        rw [blockOf_moveToEnd, hblkeq]
        show some (moveAdjust b orig blk) = _
        rw [moveAdjust]
        have hfb : blk.bid = b := by
          have := List.find?_some (by rw [blockOf] at hblkeq; exact hblkeq)
          simpa using this
        simp only [hfb, beq_self_eq_true, if_true,
          filter_eq_of_not_mem horignotb]
      have hsame : ∀ x y, identicalTo (moveToEnd st.1 b orig) x y =
          identicalTo st.1 x y := fun x y => identical_moveToEnd st.1 b orig x y
      -- the invariant survives the relocation
      have hinv1 : HInv (moveToEnd st.1 b orig) b st.2 := by
        refine ⟨hW, ?_, ?_, ?_⟩
        · intro m hm
          exact (noUsers_moveToEnd st.1 b orig m).mpr (hM1 m hm)
        · intro m hm
          rw [keysOf_moveToEnd]
          exact hM2 m hm
        · intro m hm
          rcases hT3 m hm with ⟨c, hc, hcnot⟩
          rw [checkBeforeMove_some_blk st.1 b m blk hblkeq] at hc
          have horigm : identicalTo st.1 orig m = false := by
            by_contra hne
            rw [Bool.not_eq_false] at hne
            have hcongr : ∀ j, identicalTo st.1 j orig = identicalTo st.1 j m :=
              identical_congr_right st.1 orig m hne
            rw [← find?_congr_pred (fun j _ => hcongr j), hcbm] at hc
            exact absurd hc (by simp)
          refine ⟨c, ?_, hcnot⟩
          rw [checkBeforeMove_some_blk (moveToEnd st.1 b orig) b m
            { blk with insts := insertBeforeLast orig blk.insts } hblk1]
          simp only
          have : ∀ j, identicalTo (moveToEnd st.1 b orig) j m =
              identicalTo st.1 j m := fun j => hsame j m
          rw [find?_congr_pred (fun j _ => this j)]
          rw [find?_insertBeforeLast_of_false
            (fun j => identicalTo st.1 j m) orig horigm]
          exact hc
      have hfirst1 : checkBeforeMove (moveToEnd st.1 b orig) b orig =
          some orig := by
        rw [checkBeforeMove_some_blk (moveToEnd st.1 b orig) b orig
          { blk with insts := insertBeforeLast orig blk.insts } hblk1]
        simp only
        have : ∀ j, identicalTo (moveToEnd st.1 b orig) j orig =
            identicalTo st.1 j orig := fun j => hsame j orig
        rw [find?_congr_pred (fun j _ => this j)]
        exact find?_insertBeforeLast_all_false
          (fun j => identicalTo st.1 j orig) orig horigrefl blk.insts hallnot
      have := sweep_inv b orig
        (regionInsts (moveToEnd st.1 b orig) (bfs (skel (moveToEnd st.1 b orig)) b))
        (moveToEnd st.1 b orig, st.2) hinv1 hfirst1 horignotd
      refine ⟨this.1, ?_, ?_⟩
      · rw [this.2.1]
        exact keysOf_moveToEnd st.1 b orig
      · refine ⟨{ blk with insts := insertBeforeLast orig blk.insts }, ?_⟩
        have hbl := this.2.2
        rw [blockOf] at hblk1 ⊢
        rw [hbl]
        exact hblk1

theorem phase1_inv (bfs : List (Nat × List Nat) × Nat → Nat → List Nat)
    (b : Nat) :
    ∀ (cands : List Nat) (st : Func × List Nat),
      HInv st.1 b st.2 → (∀ x ∈ cands, x ∈ keysOf st.1) →
      (∃ blk, blockOf st.1 b = some blk) →
      HInv (cands.foldl (processCandidate bfs b) st).1 b
        (cands.foldl (processCandidate bfs b) st).2 ∧
      keysOf (cands.foldl (processCandidate bfs b) st).1 = keysOf st.1 := by
  intro cands
  induction cands with
  | nil => intro st hinv _ _; exact ⟨hinv, rfl⟩
  | cons orig rest ih =>
      intro st hinv hkeys hb
      rw [List.foldl_cons]
      have hstep := processCandidate_inv bfs b st orig hinv
        (hkeys orig (List.mem_cons_self _ _)) hb
      have := ih (processCandidate bfs b st orig) hstep.1
        (fun x hx => by
          rw [hstep.2.1]
          exact hkeys x (List.mem_cons_of_mem _ hx))
        hstep.2.2
      exact ⟨this.1, this.2.trans hstep.2.1⟩

theorem erase_fold_preserves (toGo : List Nat) :
    ∀ (f : Func), WFr f → (∀ m ∈ toGo, noUsers f m) →
      WFr (toGo.foldl eraseInst f) := by
  induction toGo with
  | nil => intro f h _; exact h
  | cons d rest ih =>
      intro f h hnu
      rw [List.foldl_cons]
      refine ih (eraseInst f d) (WFr_eraseInst f d h
        (hnu d (List.mem_cons_self _ _))) ?_
      intro m hm
      exact noUsers_eraseInst f d m (hnu m (List.mem_cons_of_mem _ hm))

/-- Claim C6: after a single run of the Hoister on block `b` — relocation,
use redirection, deletion of all marked instructions — every marked
instruction has no users at the end of the candidate phase (so none has
users at the moment it is deleted: erasures only remove instructions and
never add uses), and every operand of every remaining instruction refers to
an instruction still stored in the graph. -/
theorem hoisterNoDanglingUses
    (bfs : List (Nat × List Nat) × Nat → Nat → List Nat)
    (f : Func) (b : Nat) (outM : List (Nat × List Nat))
    (hwf : WFuse f)
    (hout : ∀ x ∈ lookupSets outM b, x ∈ keysOf f)
    (hb : ∃ blk, blockOf f b = some blk) :
    (∀ m ∈ ((lookupSets outM b).foldl (processCandidate bfs b) (f, [])).2,
      noUsers ((lookupSets outM b).foldl (processCandidate bfs b) (f, [])).1
        m) ∧
    WFr (hoistInstructions bfs f b outM).1 := by
  have hstart : HInv f b [] := by
    refine ⟨hwf, ?_, ?_, ?_⟩ <;> intro m hm <;> exact absurd hm (by simp)
  have hmain := phase1_inv bfs b (lookupSets outM b) (f, []) hstart hout hb
  refine ⟨hmain.1.2.1, ?_⟩
  show WFr ((((lookupSets outM b).foldl (processCandidate bfs b)
    (f, [])).2).foldl eraseInst
    (((lookupSets outM b).foldl (processCandidate bfs b) (f, [])).1))
  exact erase_fold_preserves _ _ hmain.1.1.2.1 hmain.1.2.1

/-- Concrete diamond CFG for the C6 and driver witnesses: block 0 branches
to blocks 1 and 2, both computing the same add of two arguments, joining in
block 3 which consumes one of the copies. -/
def wFun : Func :=
  ⟨0, [⟨0, [10], [1, 2]⟩,
       ⟨1, [11, 12], [3]⟩,
       ⟨2, [13, 14], [3]⟩,
       ⟨3, [15], []⟩],
   [(10, ⟨Op.term 0, [Val.arg 9]⟩),
    (11, ⟨Op.binop 0, [Val.arg 0, Val.arg 1]⟩),
    (12, ⟨Op.term 1, []⟩),
    (13, ⟨Op.binop 0, [Val.arg 0, Val.arg 1]⟩),
    (14, ⟨Op.term 1, []⟩),
    (15, ⟨Op.term 2, [Val.ins 11]⟩)]⟩

/-- The breadth-first order of `wFun` from each block. -/
def wBfs : List (Nat × List Nat) × Nat → Nat → List Nat := fun _ b =>
  if b == 0 then [0, 1, 2, 3]
  else if b == 3 then [3]
  else [b, 3]

/-- Witness for the C6 theorem on the diamond `wFun` at its entry block. -/
theorem hoisterNoDanglingUses_witness :
    (∀ m ∈ ((lookupSets [(0, [11])] 0).foldl (processCandidate wBfs 0)
        (wFun, [])).2,
      noUsers ((lookupSets [(0, [11])] 0).foldl (processCandidate wBfs 0)
        (wFun, [])).1 m) ∧
    WFr (hoistInstructions wBfs wFun 0 [(0, [11])]).1 :=
  hoisterNoDanglingUses wBfs wFun 0 [(0, [11])]
    ⟨by decide, WFr_of_check wFun (by decide), by decide⟩ (by decide)
    ⟨⟨0, [10], [1, 2]⟩, by decide⟩

/-! ### Driver termination (C7): skeleton stability, homes, and the rank
measure -/

/-- Successors read off a skeleton. -/
def succsOfS (sk : List (Nat × List Nat) × Nat) (b : Nat) : List Nat :=
  match sk.1.find? (fun p => p.1 == b) with
  | some p => p.2
  | none => []

theorem succsOfS_skel (f : Func) (b : Nat) :
    succsOfS (skel f) b = succsOf f b := by
  rw [succsOfS, skel, succsOf, blockOf]
  simp only
  induction f.blocks with
  | nil => rfl
  | cons blk bs ih =>
      by_cases hb : blk.bid = b
      · rw [List.map_cons, List.find?_cons_of_pos _ (by simpa using hb),
          List.find?_cons_of_pos _ (by simpa using hb)]
      · rw [List.map_cons, List.find?_cons_of_neg _ (by simpa using hb),
          List.find?_cons_of_neg _ (by simpa using hb)]
        exact ih

theorem skel_moveToEnd (f : Func) (b i : Nat) :
    skel (moveToEnd f b i) = skel f := by
  rw [moveToEnd_eq_map, skel, skel]
  simp only [Prod.mk.injEq, and_true]
  rw [List.map_map]
  refine List.map_congr_left ?_
  intro blk _
  show ((moveAdjust b i blk).bid, (moveAdjust b i blk).succs) = _
  rw [moveAdjust]
  by_cases hbb : blk.bid = b
  · simp only [hbb, beq_self_eq_true, if_true]
  · have : (blk.bid == b) = false := by simpa using hbb
    simp only [this, Bool.false_eq_true, if_false]

theorem skel_rauw (f : Func) (v w : Nat) : skel (rauw f v w) = skel f := rfl

theorem skel_eraseInst (f : Func) (i : Nat) : skel (eraseInst f i) = skel f := by
  rw [eraseInst, skel, skel]
  simp only [Prod.mk.injEq, and_true]
  rw [List.map_map]
  exact List.map_congr_left (fun blk _ => rfl)

theorem skel_sweep (inst : Nat) :
    ∀ (ids : List Nat) (st : Func × List Nat),
      skel (sweep inst ids st).1 = skel st.1 := by
  intro ids
  induction ids with
  | nil => intro st; rfl
  | cons i rest ih =>
      intro st
      rw [sweep, List.foldl_cons]
      by_cases hc : (identicalTo st.1 i inst && !(i == inst)) = true
      · rw [if_pos hc]
        have := ih (rauw st.1 i inst, insertIfAbsent st.2 i)
        rw [sweep] at this
        rw [this]
        rfl
      · rw [if_neg hc]
        have := ih st
        rw [sweep] at this
        exact this

theorem skel_processCandidate
    (bfs : List (Nat × List Nat) × Nat → Nat → List Nat)
    (b : Nat) (st : Func × List Nat) (orig : Nat) :
    skel (processCandidate bfs b st orig).1 = skel st.1 := by
  rw [processCandidate]
  cases hcbm : checkBeforeMove st.1 b orig with
  | some c => exact skel_sweep c _ st
  | none =>
      simp only
      rw [skel_sweep orig _ (moveToEnd st.1 b orig, st.2)]
      exact skel_moveToEnd st.1 b orig

theorem skel_phase1 (bfs : List (Nat × List Nat) × Nat → Nat → List Nat)
    (b : Nat) :
    ∀ (cands : List Nat) (st : Func × List Nat),
      skel (cands.foldl (processCandidate bfs b) st).1 = skel st.1 := by
  intro cands
  induction cands with
  | nil => intro st; rfl
  | cons orig rest ih =>
      intro st
      rw [List.foldl_cons, ih]
      exact skel_processCandidate bfs b st orig

theorem skel_eraseFold :
    ∀ (dl : List Nat) (f : Func), skel (dl.foldl eraseInst f) = skel f := by
  intro dl
  induction dl with
  | nil => intro f; rfl
  | cons d rest ih =>
      intro f
      rw [List.foldl_cons, ih]
      exact skel_eraseInst f d

theorem skel_hoist (bfs : List (Nat × List Nat) × Nat → Nat → List Nat)
    (f : Func) (b : Nat) (outM : List (Nat × List Nat)) :
    skel (hoistInstructions bfs f b outM).1 = skel f := by
  show skel (((lookupSets outM b).foldl (processCandidate bfs b) (f, [])).2.foldl
    eraseInst (((lookupSets outM b).foldl (processCandidate bfs b) (f, [])).1)) =
    skel f
  rw [skel_eraseFold]
  exact skel_phase1 bfs b (lookupSets outM b) (f, [])

theorem skel_scanGo (bfs : List (Nat × List Nat) × Nat → Nat → List Nat)
    (outM : List (Nat × List Nat)) :
    ∀ (l : List Nat) (f : Func), skel (scanGo bfs outM f l).1 = skel f := by
  intro l
  induction l with
  | nil => intro f; rfl
  | cons b rest ih =>
      intro f
      rw [scanGo]
      by_cases hc : (hoistInstructions bfs f b outM).2 = true
      · rw [if_pos hc]
        exact skel_hoist bfs f b outM
      · rw [if_neg hc]
        rw [ih]
        exact skel_hoist bfs f b outM

theorem skel_roundStep (ord scan : List (Nat × List Nat) × Nat → List Nat)
    (bfs : List (Nat × List Nat) × Nat → Nat → List Nat) (tli : TLI)
    (f : Func) : skel (roundStep ord scan bfs tli f).1 = skel f :=
  skel_scanGo bfs _ _ f

/-! ### The rank measure of the driver -/

/-- The block an instruction currently resides in: the first block whose
instruction list contains it. -/
def homeOf (f : Func) (i : Nat) : Option Nat :=
  (f.blocks.find? (fun blk => decide (i ∈ blk.insts))).map Block.bid

/-- The position of an instruction's home block in the analysis order. -/
def idxHome (L : List Nat) (f : Func) (i : Nat) : Nat :=
  match homeOf f i with
  | some b => L.indexOf b
  | none => L.length

/-- The rank of an instruction: the distance of its home block from the end
of the analysis order. A hoist relocates instructions into blocks that sit
strictly later in the order, so every relocation shrinks the rank. -/
def rankTerm (L : List Nat) (f : Func) (i : Nat) : Nat :=
  L.length - idxHome L f i

/-- The total rank of all stored instructions. -/
def ranksum (L : List Nat) (f : Func) : Nat :=
  ((keysOf f).map (rankTerm L f)).sum

/-- The driver's termination measure: stored instructions plus total rank.
A firing round either erases an instruction or is all relocations. -/
def measureF (L : List Nat) (f : Func) : Nat :=
  f.imap.length + ranksum L f

theorem homeOf_congr_blocks (g h : Func) (hb : g.blocks = h.blocks)
    (i : Nat) : homeOf g i = homeOf h i := by
  rw [homeOf, homeOf, hb]

theorem homeOf_rauw (f : Func) (v w i : Nat) :
    homeOf (rauw f v w) i = homeOf f i := rfl

theorem mem_moveAdjust_ne (b i j : Nat) (blk : Block) (hne : j ≠ i) :
    j ∈ (moveAdjust b i blk).insts ↔ j ∈ blk.insts := by
  rw [moveAdjust]
  by_cases hbb : blk.bid = b
  · simp only [hbb, beq_self_eq_true, if_true]
    rw [mem_insertBeforeLast]
    simp [List.mem_filter, hne]
  · have : (blk.bid == b) = false := by simpa using hbb
    simp only [this, Bool.false_eq_true, if_false]
    simp [List.mem_filter, hne]

theorem mem_moveAdjust_self (b i : Nat) (blk : Block) :
    i ∈ (moveAdjust b i blk).insts ↔ blk.bid = b := by
  rw [moveAdjust]
  by_cases hbb : blk.bid = b
  · simp only [hbb, beq_self_eq_true, if_true]
    rw [mem_insertBeforeLast]
    simp [hbb]
  · have : (blk.bid == b) = false := by simpa using hbb
    simp only [this, Bool.false_eq_true, if_false]
    simp [List.mem_filter, hbb]

theorem homeOf_moveToEnd_ne (f : Func) (b i j : Nat) (hne : j ≠ i) :
    homeOf (moveToEnd f b i) j = homeOf f j := by
  rw [moveToEnd_eq_map, homeOf, homeOf]
  simp only
  induction f.blocks with
  | nil => rfl
  | cons blk bs ih =>
      rw [List.map_cons]
      by_cases hc : j ∈ blk.insts
      · rw [List.find?_cons_of_pos _
          (by
            show decide (j ∈ (moveAdjust b i blk).insts) = true
            simp only [decide_eq_true_eq]
            exact (mem_moveAdjust_ne b i j blk hne).mpr hc),
          List.find?_cons_of_pos _ (by simpa using hc)]
        show some (moveAdjust b i blk).bid = some blk.bid
        rw [moveAdjust_bid]
      · rw [List.find?_cons_of_neg _
          (by
            show ¬decide (j ∈ (moveAdjust b i blk).insts) = true
            simp only [decide_eq_true_eq]
            exact fun h => hc ((mem_moveAdjust_ne b i j blk hne).mp h)),
          List.find?_cons_of_neg _ (by simpa using hc)]
        exact ih

theorem homeOf_moveToEnd_self_aux (b i : Nat) :
    ∀ (bl : List Block), (bl.find? (fun blk => blk.bid == b)).isSome →
      Option.map Block.bid ((bl.map (moveAdjust b i)).find?
        (fun blk => decide (i ∈ blk.insts))) = some b := by
  intro bl
  induction bl with
  | nil => intro h; exact absurd h (by simp)
  | cons blk bs ih =>
      intro h
      rw [List.map_cons]
      by_cases hbb : blk.bid = b
      · rw [List.find?_cons_of_pos _
          (by
            show decide (i ∈ (moveAdjust b i blk).insts) = true
            simp only [decide_eq_true_eq]
            exact (mem_moveAdjust_self b i blk).mpr hbb)]
        show some (moveAdjust b i blk).bid = some b
        rw [moveAdjust_bid, hbb]
      · rw [List.find?_cons_of_neg _
          (by
            show ¬decide (i ∈ (moveAdjust b i blk).insts) = true
            simp only [decide_eq_true_eq]
            exact fun h2 => hbb ((mem_moveAdjust_self b i blk).mp h2))]
        refine ih ?_
        rwa [List.find?_cons_of_neg _ (by simpa using hbb)] at h

theorem homeOf_moveToEnd_self (f : Func) (b i : Nat)
    (hb : ∃ blk, blockOf f b = some blk) :
    homeOf (moveToEnd f b i) i = some b := by
  rcases hb with ⟨blk0, hb⟩
  rw [moveToEnd_eq_map, homeOf]
  refine homeOf_moveToEnd_self_aux b i f.blocks ?_
  rw [blockOf] at hb
  rw [hb]
  rfl

theorem homeOf_eraseInst_ne (f : Func) (d j : Nat) (hne : j ≠ d) :
    homeOf (eraseInst f d) j = homeOf f j := by
  rw [eraseInst, homeOf, homeOf]
  simp only
  induction f.blocks with
  | nil => rfl
  | cons blk bs ih =>
      rw [List.map_cons]
      by_cases hc : j ∈ blk.insts
      · rw [List.find?_cons_of_pos _
          (by simp [List.mem_filter, hc, hne]),
          List.find?_cons_of_pos _ (by simpa using hc)]
        rfl
      · rw [List.find?_cons_of_neg _
          (by
            simp only [decide_eq_true_eq]
            intro h
            exact hc (List.mem_of_mem_filter h)),
          List.find?_cons_of_neg _ (by simpa using hc)]
        exact ih


theorem listSum_map_congr (l : List Nat) (g h : Nat → Nat)
    (hgh : ∀ x ∈ l, g x = h x) : (l.map g).sum = (l.map h).sum := by
  rw [List.map_congr_left hgh]

theorem listSum_map_lt (g h : Nat → Nat) :
    ∀ (l : List Nat), l.Nodup → ∀ x ∈ l, g x < h x →
      (∀ y ∈ l, y ≠ x → g y = h y) → (l.map g).sum < (l.map h).sum := by
  intro l
  induction l with
  | nil => intro _ x hx; exact absurd hx (by simp)
  | cons a rest ih =>
      intro hnd x hx hgx heq
      rw [List.map_cons, List.map_cons, List.sum_cons, List.sum_cons]
      rcases List.mem_cons.mp hx with rfl | hx
      · have hrest : (rest.map g).sum = (rest.map h).sum := by
          refine listSum_map_congr rest g h ?_
          intro y hy
          exact heq y (List.mem_cons_of_mem _ hy)
            (fun he => (List.nodup_cons.mp hnd).1 (he ▸ hy))
        omega
      · have ha : g a = h a := by
          refine heq a (List.mem_cons_self _ _) ?_
          intro he
          exact (List.nodup_cons.mp hnd).1 (he ▸ hx)
        have := ih (List.nodup_cons.mp hnd).2 x hx hgx
          (fun y hy hne => heq y (List.mem_cons_of_mem _ hy) hne)
        omega

theorem listSum_filter_le (g : Nat → Nat) (q : Nat → Bool) :
    ∀ (l : List Nat), ((l.filter q).map g).sum ≤ (l.map g).sum := by
  intro l
  induction l with
  | nil => exact Nat.le_refl 0
  | cons a rest ih =>
      rw [List.filter_cons]
      by_cases hq : q a
      · rw [if_pos hq]
        simp only [List.map_cons, List.sum_cons]
        omega
      · rw [if_neg hq]
        simp only [List.map_cons, List.sum_cons]
        omega

theorem ranksum_congr (L : List Nat) (g h : Func)
    (hk : keysOf g = keysOf h) (hb : g.blocks = h.blocks) :
    ranksum L g = ranksum L h := by
  rw [ranksum, ranksum, hk]
  refine listSum_map_congr _ _ _ ?_
  intro x _
  rw [rankTerm, rankTerm, idxHome, idxHome, homeOf_congr_blocks g h hb]

theorem ranksum_rauw (L : List Nat) (f : Func) (v w : Nat) :
    ranksum L (rauw f v w) = ranksum L f :=
  ranksum_congr L _ f (rauw_keys f v w) (rauw_blocks f v w)

theorem sweep_blocks_keys (inst : Nat) :
    ∀ (ids : List Nat) (st : Func × List Nat),
      (sweep inst ids st).1.blocks = st.1.blocks ∧
      keysOf (sweep inst ids st).1 = keysOf st.1 := by
  intro ids
  induction ids with
  | nil => intro st; exact ⟨rfl, rfl⟩
  | cons i rest ih =>
      intro st
      rw [sweep, List.foldl_cons]
      by_cases hc : (identicalTo st.1 i inst && !(i == inst)) = true
      · rw [if_pos hc]
        have := ih (rauw st.1 i inst, insertIfAbsent st.2 i)
        rw [sweep] at this
        refine ⟨this.1.trans (rauw_blocks st.1 i inst), ?_⟩
        exact this.2.trans (rauw_keys st.1 i inst)
      · rw [if_neg hc]
        have := ih st
        rw [sweep] at this
        exact this

theorem ranksum_sweep (L : List Nat) (inst : Nat) (ids : List Nat)
    (st : Func × List Nat) :
    ranksum L (sweep inst ids st).1 = ranksum L st.1 :=
  ranksum_congr L _ _ (sweep_blocks_keys inst ids st).2
    (sweep_blocks_keys inst ids st).1

theorem ranksum_moveToEnd_lt (L : List Nat) (f : Func) (b orig X : Nat)
    (hb : ∃ blk, blockOf f b = some blk)
    (hkeys : (keysOf f).Nodup) (horig : orig ∈ keysOf f)
    (hhome : homeOf f orig = some X)
    (hXb : L.indexOf X < L.indexOf b) (hbL : L.indexOf b < L.length) :
    ranksum L (moveToEnd f b orig) < ranksum L f := by
  rw [ranksum, ranksum, keysOf_moveToEnd]
  refine listSum_map_lt _ _ (keysOf f) hkeys orig horig ?_ ?_
  · rw [rankTerm, rankTerm, idxHome, idxHome,
      homeOf_moveToEnd_self f b orig hb, hhome]
    show L.length - L.indexOf b < L.length - L.indexOf X
    omega
  · intro y _ hne
    rw [rankTerm, rankTerm, idxHome, idxHome,
      homeOf_moveToEnd_ne f b orig y hne]

/-! ### Erase accounting -/

theorem keysOf_eraseInst (f : Func) (d : Nat) :
    keysOf (eraseInst f d) = (keysOf f).filter (fun j => j ≠ d) := by
  rw [keysOf, eraseInst_imap, keysOf]
  induction f.imap with
  | nil => rfl
  | cons p rest ih =>
      rw [List.map_cons, List.filter_cons, List.filter_cons]
      by_cases hp : p.1 = d
      · rw [if_neg (by simpa using hp), if_neg (by simpa using hp)]
        exact ih
      · rw [if_pos (by simpa using hp), if_pos (by simpa using hp),
          List.map_cons]
        rw [ih]

theorem ranksum_eraseInst_le (L : List Nat) (f : Func) (d : Nat) :
    ranksum L (eraseInst f d) ≤ ranksum L f := by
  rw [ranksum, ranksum, keysOf_eraseInst]
  have h1 : ∀ x ∈ (keysOf f).filter (fun j => j ≠ d),
      rankTerm L (eraseInst f d) x = rankTerm L f x := by
    intro x hx
    have hxd : x ≠ d := by simpa using (List.mem_filter.mp hx).2
    rw [rankTerm, rankTerm, idxHome, idxHome, homeOf_eraseInst_ne f d x hxd]
  rw [listSum_map_congr _ _ _ h1]
  exact listSum_filter_le (rankTerm L f) _ (keysOf f)

theorem filter_key_eq_self (d : Nat) :
    ∀ (l : List (Nat × Instr)), d ∉ l.map Prod.fst →
      l.filter (fun p => p.1 ≠ d) = l := by
  intro l
  induction l with
  | nil => intro _; rfl
  | cons p rest ih =>
      intro h
      rw [List.map_cons] at h
      rw [List.filter_cons, if_pos (by
        simp only [ne_eq, decide_not, Bool.not_eq_true', decide_eq_false_iff_not]
        exact fun he => h (List.mem_cons.mpr (Or.inl he.symm)))]
      rw [ih (fun hm => h (List.mem_cons_of_mem _ hm))]

theorem length_filter_key (d : Nat) :
    ∀ (l : List (Nat × Instr)), (l.map Prod.fst).Nodup →
      d ∈ l.map Prod.fst →
      (l.filter (fun p => p.1 ≠ d)).length + 1 = l.length := by
  intro l
  induction l with
  | nil => intro _ hd; exact absurd hd (by simp)
  | cons p rest ih =>
      intro hk hd
      rw [List.map_cons] at hd hk
      rw [List.filter_cons]
      by_cases hp : p.1 = d
      · rw [if_neg (by simpa using hp)]
        rw [filter_key_eq_self d rest (by
          rw [hp] at hk
          exact (List.nodup_cons.mp hk).1)]
        rfl
      · rw [if_pos (by simpa using hp)]
        have hd' : d ∈ rest.map Prod.fst := by
          rcases List.mem_cons.mp hd with he | hd'
          · exact absurd he.symm hp
          · exact hd'
        have := ih (List.nodup_cons.mp hk).2 hd'
        simp only [List.length_cons]
        omega

theorem eraseInst_length (f : Func) (d : Nat) (hk : WFkeys f)
    (hd : d ∈ keysOf f) :
    (eraseInst f d).imap.length + 1 = f.imap.length := by
  rw [eraseInst_imap]
  exact length_filter_key d f.imap hk hd

theorem WFkeys_eraseInst (f : Func) (d : Nat) (hk : WFkeys f) :
    WFkeys (eraseInst f d) := by
  rw [WFkeys, keysOf_eraseInst]
  exact List.Nodup.filter _ hk

theorem erase_fold_length (dl : List Nat) :
    ∀ (g : Func), dl.Nodup → WFkeys g → (∀ d ∈ dl, d ∈ keysOf g) →
      (dl.foldl eraseInst g).imap.length + dl.length = g.imap.length := by
  induction dl with
  | nil => intro g _ _ _; rfl
  | cons d rest ih =>
      intro g hnd hk hsub
      rw [List.foldl_cons]
      have h1 := eraseInst_length g d hk (hsub d (List.mem_cons_self _ _))
      have h2 := ih (eraseInst g d) (List.nodup_cons.mp hnd).2
        (WFkeys_eraseInst g d hk)
        (fun d' hd' => keysOf_eraseInst_mem g d d'
          (hsub d' (List.mem_cons_of_mem _ hd'))
          (fun he => (List.nodup_cons.mp hnd).1 (he ▸ hd')))
      simp only [List.length_cons]
      omega

theorem erase_fold_length_le (dl : List Nat) :
    ∀ (g : Func), (dl.foldl eraseInst g).imap.length ≤ g.imap.length := by
  induction dl with
  | nil => intro g; exact Nat.le_refl _
  | cons d rest ih =>
      intro g
      rw [List.foldl_cons]
      refine (ih (eraseInst g d)).trans ?_
      rw [eraseInst_imap]
      exact List.length_filter_le _ _

theorem erase_fold_ranksum_le (L : List Nat) (dl : List Nat) :
    ∀ (g : Func), ranksum L (dl.foldl eraseInst g) ≤ ranksum L g := by
  induction dl with
  | nil => intro g; exact Nat.le_refl _
  | cons d rest ih =>
      intro g
      rw [List.foldl_cons]
      exact (ih (eraseInst g d)).trans (ranksum_eraseInst_le L g d)

/-! ### Block-layout well-formedness -/

/-- Two blocks share no instruction (directional form; both directions are
recovered by case analysis on list positions). -/
@[reducible] def disjInsts (A B : Block) : Prop := ∀ i ∈ A.insts, i ∉ B.insts

/-- Well-formed block layout: blocks are pairwise instruction-disjoint, have
pairwise distinct ids and duplicate-free instruction lists, and every listed
instruction is stored. -/
@[reducible] def WFb (f : Func) : Prop :=
  f.blocks.Pairwise disjInsts ∧
  f.blocks.Pairwise (fun A B => A.bid ≠ B.bid) ∧
  (∀ blk ∈ f.blocks, blk.insts.Nodup) ∧
  (∀ blk ∈ f.blocks, ∀ i ∈ blk.insts, i ∈ keysOf f)

theorem same_block_of_shared :
    ∀ (l : List Block), l.Pairwise disjInsts →
      ∀ A ∈ l, ∀ B ∈ l, ∀ i, i ∈ A.insts → i ∈ B.insts → A = B := by
  intro l
  induction l with
  | nil => intro _ A hA; exact absurd hA (by simp)
  | cons h t ih =>
      intro hp A hA B hB i hiA hiB
      rw [List.pairwise_cons] at hp
      rcases List.mem_cons.mp hA with heA | hA
      · rcases List.mem_cons.mp hB with heB | hB
        · rw [heA, heB]
        · exact absurd hiB (hp.1 B hB i (heA ▸ hiA))
      · rcases List.mem_cons.mp hB with heB | hB
        · exact absurd hiA (hp.1 A hA i (heB ▸ hiB))
        · exact ih hp.2 A hA B hB i hiA hiB

theorem same_block_of_bid :
    ∀ (l : List Block), l.Pairwise (fun A B => A.bid ≠ B.bid) →
      ∀ A ∈ l, ∀ B ∈ l, A.bid = B.bid → A = B := by
  intro l
  induction l with
  | nil => intro _ A hA; exact absurd hA (by simp)
  | cons h t ih =>
      intro hp A hA B hB he
      rw [List.pairwise_cons] at hp
      rcases List.mem_cons.mp hA with heA | hA
      · rcases List.mem_cons.mp hB with heB | hB
        · rw [heA, heB]
        · exact absurd (heA ▸ he) (hp.1 B hB)
      · rcases List.mem_cons.mp hB with heB | hB
        · exact absurd (heB ▸ he).symm (hp.1 A hA)
        · exact ih hp.2 A hA B hB he

theorem blockOf_mem (f : Func) (b : Nat) (blk : Block)
    (h : blockOf f b = some blk) : blk ∈ f.blocks ∧ blk.bid = b := by
  rw [blockOf] at h
  refine ⟨List.mem_of_find?_eq_some h, ?_⟩
  have := List.find?_some h
  simpa using this

theorem homeOf_of_mem (f : Func) (X i : Nat) (blkX : Block)
    (hwb : WFb f) (hX : blockOf f X = some blkX) (hi : i ∈ blkX.insts) :
    homeOf f i = some X := by
  rcases blockOf_mem f X blkX hX with ⟨hmem, hbid⟩
  rw [homeOf]
  cases hfind : f.blocks.find? (fun blk => decide (i ∈ blk.insts)) with
  | none =>
      have := List.find?_eq_none.mp hfind blkX hmem
      simp only [decide_eq_true_eq] at this
      exact absurd hi this
  | some blk0 =>
      have h0mem := List.mem_of_find?_eq_some hfind
      have h0i : i ∈ blk0.insts := by
        have := List.find?_some hfind
        simpa using this
      have : blk0 = blkX :=
        same_block_of_shared f.blocks hwb.1 blk0 h0mem blkX hmem i h0i hi
      show some blk0.bid = some X
      rw [this, hbid]

/-- An instruction of a block with a known id is stored and is at home
there. -/
theorem homeOf_resides (f : Func) (i X : Nat) (hwb : WFb f)
    (hres : resides f i X) : homeOf f i = some X ∧ i ∈ keysOf f := by
  rcases hres with ⟨blkX, hX, hi⟩
  refine ⟨homeOf_of_mem f X i blkX hwb hX hi, ?_⟩
  exact hwb.2.2.2 blkX (blockOf_mem f X blkX hX).1 i hi

theorem nodup_insertBeforeLast (x : Nat) :
    ∀ (l : List Nat), x ∉ l → l.Nodup → (insertBeforeLast x l).Nodup := by
  intro l
  induction l with
  | nil => intro _ _; simp [insertBeforeLast]
  | cons a rest ih =>
      intro hx hnd
      cases rest with
      | nil =>
          rw [insertBeforeLast]
          refine List.nodup_cons.mpr ⟨?_, by simp⟩
          intro h
          rcases List.mem_singleton.mp h with he
          exact hx (he ▸ List.mem_singleton_self a)
      | cons c rest2 =>
          rw [insertBeforeLast]
          refine List.nodup_cons.mpr ⟨?_, ?_⟩
          · intro h
            rcases (mem_insertBeforeLast x a (c :: rest2)).mp h with h | h
            · exact (List.nodup_cons.mp hnd).1 h
            · exact hx (h ▸ List.mem_cons_self _ _)
          · exact ih (fun h => hx (List.mem_cons_of_mem _ h))
              (List.nodup_cons.mp hnd).2

theorem WFb_moveToEnd (f : Func) (b i : Nat) (hwb : WFb f)
    (hi : i ∈ keysOf f) : WFb (moveToEnd f b i) := by
  obtain ⟨hdj, hbid, hnd, hsub⟩ := hwb
  rw [moveToEnd_eq_map]
  refine ⟨?_, ?_, ?_, ?_⟩
  · rw [List.pairwise_map]
    refine List.Pairwise.imp ?_ ((List.Pairwise.and hdj) hbid)
    intro A B hAB j hjA hjB
    by_cases hji : j = i
    · rw [hji] at hjA hjB
      have hA := (mem_moveAdjust_self b i A).mp hjA
      have hB := (mem_moveAdjust_self b i B).mp hjB
      exact hAB.2 (hA.trans hB.symm)
    · exact hAB.1 j ((mem_moveAdjust_ne b i j A hji).mp hjA)
        ((mem_moveAdjust_ne b i j B hji).mp hjB)
  · rw [List.pairwise_map]
    refine List.Pairwise.imp ?_ hbid
    intro A B hAB
    rw [moveAdjust_bid, moveAdjust_bid]
    exact hAB
  · intro blk' hblk'
    rcases List.mem_map.mp hblk' with ⟨blk, hblk, he⟩
    rw [← he, moveAdjust]
    by_cases hbb : blk.bid = b
    · simp only [hbb, beq_self_eq_true, if_true]
      refine nodup_insertBeforeLast i _ ?_ (List.Nodup.filter _ (hnd blk hblk))
      intro hmem
      have := List.of_mem_filter hmem
      simp at this
    · have : (blk.bid == b) = false := by simpa using hbb
      simp only [this, Bool.false_eq_true, if_false]
      exact List.Nodup.filter _ (hnd blk hblk)
  · intro blk' hblk' j hj
    rcases List.mem_map.mp hblk' with ⟨blk, hblk, he⟩
    show j ∈ keysOf f
    by_cases hji : j = i
    · exact hji ▸ hi
    · rw [← he] at hj
      exact hsub blk hblk j ((mem_moveAdjust_ne b i j blk hji).mp hj)

theorem WFb_eraseInst (f : Func) (d : Nat) (hwb : WFb f) :
    WFb (eraseInst f d) := by
  obtain ⟨hdj, hbid, hnd, hsub⟩ := hwb
  rw [eraseInst]
  refine ⟨?_, ?_, ?_, ?_⟩
  · rw [List.pairwise_map]
    refine List.Pairwise.imp ?_ hdj
    intro A B hAB j hjA hjB
    exact hAB j (List.mem_of_mem_filter hjA) (List.mem_of_mem_filter hjB)
  · rw [List.pairwise_map]
    refine List.Pairwise.imp ?_ hbid
    intro A B hAB
    exact hAB
  · intro blk' hblk'
    rcases List.mem_map.mp hblk' with ⟨blk, hblk, he⟩
    rw [← he]
    exact List.Nodup.filter _ (hnd blk hblk)
  · intro blk' hblk' j hj
    rcases List.mem_map.mp hblk' with ⟨blk, hblk, he⟩
    rw [← he] at hj
    have hjd : j ≠ d := by
      have := List.of_mem_filter hj
      simpa using this
    show j ∈ keysOf (eraseInst f d)
    exact keysOf_eraseInst_mem f d j
      (hsub blk hblk j (List.mem_of_mem_filter hj)) hjd

theorem WFb_congr (g h : Func) (hb : g.blocks = h.blocks)
    (hk : keysOf g = keysOf h) (hwb : WFb h) : WFb g := by
  rw [WFb, hb, hk]
  exact hwb

theorem WFb_rauw (f : Func) (v w : Nat) (hwb : WFb f) :
    WFb (rauw f v w) :=
  WFb_congr _ f (rauw_blocks f v w) (rauw_keys f v w) hwb

theorem WFb_sweep (inst : Nat) (ids : List Nat) (st : Func × List Nat)
    (hwb : WFb st.1) : WFb (sweep inst ids st).1 :=
  WFb_congr _ st.1 (sweep_blocks_keys inst ids st).1
    (sweep_blocks_keys inst ids st).2 hwb

theorem WFb_processCandidate
    (bfs : List (Nat × List Nat) × Nat → Nat → List Nat)
    (b : Nat) (st : Func × List Nat) (orig : Nat)
    (hwb : WFb st.1) (horig : orig ∈ keysOf st.1) :
    WFb (processCandidate bfs b st orig).1 := by
  rw [processCandidate]
  cases hcbm : checkBeforeMove st.1 b orig with
  | some c => exact WFb_sweep c _ st hwb
  | none =>
      simp only
      exact WFb_sweep orig _ (moveToEnd st.1 b orig, st.2)
        (WFb_moveToEnd st.1 b orig hwb horig)

theorem WFselfFree_eraseInst (f : Func) (d : Nat) (h : WFselfFree f) :
    WFselfFree (eraseInst f d) := by
  intro p hp
  rw [eraseInst_imap] at hp
  exact h p (List.mem_of_mem_filter hp)

/-! ### Region membership and the marking guarantee -/

theorem insertIfAbsent_ne_nil (l : List Nat) (x : Nat) :
    insertIfAbsent l x ≠ [] := by
  rw [insertIfAbsent]
  by_cases h : x ∈ l
  · rw [if_pos h]
    intro he
    rw [he] at h
    exact absurd h (by simp)
  · rw [if_neg h]
    simp

theorem insertIfAbsent_nodup (l : List Nat) (x : Nat) (h : l.Nodup) :
    (insertIfAbsent l x).Nodup := by
  rw [insertIfAbsent]
  by_cases hm : x ∈ l
  · rw [if_pos hm]
    exact h
  · rw [if_neg hm]
    rw [List.nodup_append]
    refine ⟨h, by simp, ?_⟩
    intro a ha hax
    rw [List.mem_singleton] at hax
    exact hm (hax ▸ ha)

theorem sweep_toDel_ne_nil (inst : Nat) :
    ∀ (ids : List Nat) (st : Func × List Nat), st.2 ≠ [] →
      (sweep inst ids st).2 ≠ [] := by
  intro ids
  induction ids with
  | nil => intro st h; exact h
  | cons i rest ih =>
      intro st h
      rw [sweep, List.foldl_cons]
      by_cases hc : (identicalTo st.1 i inst && !(i == inst)) = true
      · rw [if_pos hc]
        have := ih (rauw st.1 i inst, insertIfAbsent st.2 i)
          (insertIfAbsent_ne_nil st.2 i)
        rw [sweep] at this
        exact this
      · rw [if_neg hc]
        have := ih st h
        rw [sweep] at this
        exact this

theorem sweep_toDel_nodup (inst : Nat) :
    ∀ (ids : List Nat) (st : Func × List Nat), st.2.Nodup →
      (sweep inst ids st).2.Nodup := by
  intro ids
  induction ids with
  | nil => intro st h; exact h
  | cons i rest ih =>
      intro st h
      rw [sweep, List.foldl_cons]
      by_cases hc : (identicalTo st.1 i inst && !(i == inst)) = true
      · rw [if_pos hc]
        have := ih (rauw st.1 i inst, insertIfAbsent st.2 i)
          (insertIfAbsent_nodup st.2 i h)
        rw [sweep] at this
        exact this
      · rw [if_neg hc]
        have := ih st h
        rw [sweep] at this
        exact this

theorem processCandidate_toDel
    (bfs : List (Nat × List Nat) × Nat → Nat → List Nat)
    (b : Nat) (st : Func × List Nat) (orig : Nat) :
    (st.2.Nodup → (processCandidate bfs b st orig).2.Nodup) ∧
    (st.2 ≠ [] → (processCandidate bfs b st orig).2 ≠ []) := by
  rw [processCandidate]
  cases hcbm : checkBeforeMove st.1 b orig with
  | some c =>
      exact ⟨fun h => sweep_toDel_nodup c _ st h,
        fun h => sweep_toDel_ne_nil c _ st h⟩
  | none =>
      simp only
      exact ⟨fun h => sweep_toDel_nodup orig _ (moveToEnd st.1 b orig, st.2) h,
        fun h => sweep_toDel_ne_nil orig _ (moveToEnd st.1 b orig, st.2) h⟩

theorem sweep_marks (inst : Nat) :
    ∀ (ids : List Nat) (st : Func × List Nat) (orig : Nat),
      orig ∈ ids → identicalTo st.1 orig inst = true → orig ≠ inst →
      (sweep inst ids st).2 ≠ [] := by
  intro ids
  induction ids with
  | nil => intro st orig hmem; exact absurd hmem (by simp)
  | cons i rest ih =>
      intro st orig hmem hid hne
      rw [sweep, List.foldl_cons]
      by_cases hc : (identicalTo st.1 i inst && !(i == inst)) = true
      · rw [if_pos hc]
        have := sweep_toDel_ne_nil inst rest
          (rauw st.1 i inst, insertIfAbsent st.2 i)
          (insertIfAbsent_ne_nil st.2 i)
        rw [sweep] at this
        exact this
      · rw [if_neg hc]
        rcases List.mem_cons.mp hmem with he | hmem'
        · exfalso
          apply hc
          rw [Bool.and_eq_true]
          refine ⟨he ▸ hid, ?_⟩
          have : i ≠ inst := he ▸ hne
          simpa using this
        · have := ih st orig hmem' hid hne
          rw [sweep] at this
          exact this

theorem regionInsts_cons (f : Func) (b : Nat) (rest : List Nat) :
    regionInsts f (b :: rest) =
      (match blockOf f b with
        | some blk => blk.insts ++ regionInsts f rest
        | none => regionInsts f rest) := rfl

theorem mem_regionInsts (f : Func) (X orig : Nat) (blkX : Block)
    (hbX : blockOf f X = some blkX) (horig : orig ∈ blkX.insts) :
    ∀ (bl : List Nat), X ∈ bl → orig ∈ regionInsts f bl := by
  intro bl
  induction bl with
  | nil => intro hmem; exact absurd hmem (by simp)
  | cons b rest ih =>
      intro hmem
      rw [regionInsts_cons]
      rcases List.mem_cons.mp hmem with he | hmem'
      · rw [← he, hbX]
        exact List.mem_append.mpr (Or.inl horig)
      · cases hb : blockOf f b with
        | none => exact ih hmem'
        | some blk => exact List.mem_append.mpr (Or.inr (ih hmem'))

theorem reach_mem_closure (f : Func) (ids : List Nat) (b X : Nat)
    (hb : b ∈ ids)
    (hcl : ∀ x ∈ ids, ∀ s ∈ succsOf f x, s ∈ ids)
    (hre : Reach f b X) : X ∈ ids := by
  induction hre with
  | refl => exact hb
  | tail h e ih => exact hcl _ ih _ e

/-! ### The tally keys are duplicate-free, so `Out` sets are too -/

theorem storeKey_fst_nodup (y : Nat) :
    ∀ (count : List (Nat × Nat)), (count.map Prod.fst).Nodup →
      ((storeKey count y).map Prod.fst).Nodup := by
  intro count
  induction count with
  | nil => intro _; simp [storeKey]
  | cons kv rest ih =>
      intro h
      rw [storeKey]
      by_cases he : kv.1 = y
      · simp only [he, beq_self_eq_true, if_true, List.map_cons]
        rw [List.map_cons] at h
        rw [← he]
        exact h
      · have hb : (kv.1 == y) = false := by simpa using he
        simp only [hb, Bool.false_eq_true, if_false, List.map_cons]
        rw [List.map_cons] at h
        refine List.nodup_cons.mpr ⟨?_, ih (List.nodup_cons.mp h).2⟩
        intro hmem
        rcases storeKey_fst_sub rest y kv.1 hmem with hm | hm
        · exact (List.nodup_cons.mp h).1 hm
        · exact he hm

theorem procElem_fst_nodup (f : Func) (st : List (Nat × Nat) × List Nat)
    (y : Nat) (h : (st.1.map Prod.fst).Nodup) :
    ((procElem f st y).1.map Prod.fst).Nodup := by
  rw [procElem]
  by_cases hm : (procKeys f y st.1 st.2).2.2
  · simp only [hm, if_true]
    rw [procKeys_fst]
    exact h
  · simp only [hm, Bool.false_eq_true, if_false]
    refine storeKey_fst_nodup y _ ?_
    rw [procKeys_fst]
    exact h

theorem procSucc_fst_nodup (f : Func) (inM : List (Nat × List Nat))
    (count : List (Nat × Nat)) (s : Nat)
    (h : (count.map Prod.fst).Nodup) :
    ((procSucc f inM count s).map Prod.fst).Nodup := by
  rw [procSucc]
  have main : ∀ (l : List Nat) (st : List (Nat × Nat) × List Nat),
      (st.1.map Prod.fst).Nodup →
      ((l.foldl (procElem f) st).1.map Prod.fst).Nodup := by
    intro l
    induction l with
    | nil => intro st h; exact h
    | cons y rest ih =>
        intro st h
        rw [List.foldl_cons]
        exact ih _ (procElem_fst_nodup f st y h)
  exact main _ _ h

theorem findOutSet_nodup (f : Func) (blk : Block)
    (inM : List (Nat × List Nat)) : (findOutSet f blk inM).Nodup := by
  rw [findOutSet]
  have hcount : ∀ (l : List Nat) (count : List (Nat × Nat)),
      (count.map Prod.fst).Nodup →
      ((l.foldl (procSucc f inM) count).map Prod.fst).Nodup := by
    intro l
    induction l with
    | nil => intro count h; exact h
    | cons s rest ih =>
        intro count h
        rw [List.foldl_cons]
        exact ih _ (procSucc_fst_nodup f inM count s h)
  have h0 := hcount blk.succs [] (by simp)
  have hsub : List.Sublist
      (((blk.succs.foldl (procSucc f inM) []).filter
        (fun kv => kv.2 == blk.succs.length)).map (fun kv => kv.1))
      ((blk.succs.foldl (procSucc f inM) []).map (fun kv => kv.1)) :=
    List.Sublist.map _ (List.filter_sublist _)
  exact List.Nodup.sublist hsub h0

theorem analyzeF_outM_facts (tli : TLI) (f : Func) (L : List Nat) :
    ∀ b, (lookupSets (analyzeF tli f L).outM b ≠ [] →
        ∃ blk, blockOf f b = some blk) ∧
      (lookupSets (analyzeF tli f L).outM b).Nodup := by
  rw [analyzeF]
  suffices h : ∀ (l : List Nat) (M : AMaps),
      (∀ b, (lookupSets M.outM b ≠ [] → ∃ blk, blockOf f b = some blk) ∧
        (lookupSets M.outM b).Nodup) →
      (∀ b, (lookupSets (l.foldl (analyzeStep tli f) M).outM b ≠ [] →
          ∃ blk, blockOf f b = some blk) ∧
        (lookupSets (l.foldl (analyzeStep tli f) M).outM b).Nodup) by
    refine h L emptyAMaps ?_
    intro b
    exact ⟨fun hne => absurd rfl hne, by simp [emptyAMaps, lookupSets]⟩
  intro l
  induction l with
  | nil => intro M h; exact h
  | cons b' rest ih =>
      intro M h
      rw [List.foldl_cons]
      refine ih _ ?_
      intro b
      rw [analyzeStep]
      cases hblk : blockOf f b' with
      | none => exact h b
      | some blk =>
          simp only
          by_cases hbb : b = b'
          · constructor
            · intro _
              exact ⟨blk, hbb ▸ hblk⟩
            · rw [hbb, lookupSets_storeSets_self]
              exact findOutSet_nodup f blk M.inM
          · rw [lookupSets_storeSets_ne _ _ _ _ hbb]
            exact h b

/-! ### Analysis-order positions and candidate facts -/

theorem indexOf_of_get? :
    ∀ (L : List Nat), L.Nodup → ∀ (j x : Nat), L.get? j = some x →
      L.indexOf x = j := by
  intro L
  induction L with
  | nil => intro _ j x h; cases j <;> exact absurd h (by simp)
  | cons a rest ih =>
      intro hnd j x h
      cases j with
      | zero =>
          simp only [List.get?] at h
          have : x = a := by simpa using h.symm
          rw [this]
          exact List.indexOf_cons_self a rest
      | succ j' =>
          simp only [List.get?] at h
          have hx : x ∈ rest := List.get?_mem h
          have hax : a ≠ x := by
            intro he
            exact (List.nodup_cons.mp hnd).1 (he ▸ hx)
          rw [List.indexOf_cons_ne rest (by simpa using hax)]
          rw [ih (List.nodup_cons.mp hnd).2 j' x h]

theorem blockOf_of_mem (f : Func) (X : Nat) (blk : Block)
    (hmem : blk ∈ f.blocks) (hbid : blk.bid = X) :
    ∃ blk', blockOf f X = some blk' ∧ blk' ∈ f.blocks ∧ blk'.bid = X := by
  rw [blockOf]
  cases hfind : f.blocks.find? (fun b' => b'.bid == X) with
  | none =>
      have := List.find?_eq_none.mp hfind blk hmem
      rw [hbid] at this
      exact absurd (by simp) this
  | some blk' =>
      refine ⟨blk', rfl, List.mem_of_find?_eq_some hfind, ?_⟩
      have := List.find?_some hfind
      simpa using this

theorem resides_of_homeOf (f : Func) (hwb : WFb f) (i X : Nat)
    (h : homeOf f i = some X) :
    ∃ blkX, blockOf f X = some blkX ∧ i ∈ blkX.insts := by
  rw [homeOf] at h
  cases hfind : f.blocks.find? (fun blk => decide (i ∈ blk.insts)) with
  | none => rw [hfind] at h; exact absurd h (by simp)
  | some blk0 =>
      rw [hfind] at h
      have hbid : blk0.bid = X := by simpa using h
      have h0mem := List.mem_of_find?_eq_some hfind
      have h0i : i ∈ blk0.insts := by
        have := List.find?_some hfind
        simpa using this
      rcases blockOf_of_mem f X blk0 h0mem hbid with ⟨blk', hb', hmem', hbid'⟩
      refine ⟨blk', hb', ?_⟩
      have : blk' = blk0 :=
        same_block_of_bid f.blocks hwb.2.1 blk' hmem' blk0 h0mem
          (hbid'.trans hbid.symm)
      rw [this]
      exact h0i

/-- What the analysis guarantees about an `Out(b)` candidate, stated against
the pre-round function `f`: it is stored, and its home block sits strictly
earlier in the analysis order than `b` and inside the sweep region of `b`. -/
def CandFact (L : List Nat) (bfsIds : List Nat) (f : Func) (b x : Nat) :
    Prop :=
  x ∈ keysOf f ∧
  ∃ X, homeOf f x = some X ∧ L.indexOf X < L.indexOf b ∧ X ∈ bfsIds

theorem pc_homes (bfs : List (Nat × List Nat) × Nat → Nat → List Nat)
    (b : Nat) (st : Func × List Nat) (orig x : Nat) (hne : x ≠ orig) :
    homeOf (processCandidate bfs b st orig).1 x = homeOf st.1 x := by
  rw [processCandidate]
  cases hcbm : checkBeforeMove st.1 b orig with
  | some c =>
      exact homeOf_congr_blocks _ st.1 (sweep_blocks_keys c _ st).1 x
  | none =>
      simp only
      rw [homeOf_congr_blocks _ (moveToEnd st.1 b orig)
        (sweep_blocks_keys orig _ (moveToEnd st.1 b orig, st.2)).1 x]
      exact homeOf_moveToEnd_ne st.1 b orig x hne

theorem pc_measure (bfs : List (Nat × List Nat) × Nat → Nat → List Nat)
    (L : List Nat) (b : Nat) (f : Func) (st : Func × List Nat) (orig : Nat)
    (hwk : WFkeys st.1)
    (hkeys : keysOf st.1 = keysOf f)
    (hb : ∃ blk, blockOf st.1 b = some blk)
    (hhome : homeOf st.1 orig = homeOf f orig)
    (hcf : CandFact L (bfs (skel f) b) f b orig)
    (hbL : L.indexOf b < L.length) :
    ranksum L (processCandidate bfs b st orig).1 ≤ ranksum L st.1 ∧
    (checkBeforeMove st.1 b orig = none →
      ranksum L (processCandidate bfs b st orig).1 < ranksum L st.1) := by
  rw [processCandidate]
  cases hcbm : checkBeforeMove st.1 b orig with
  | some c =>
      refine ⟨le_of_eq (ranksum_sweep L c _ st), ?_⟩
      intro hnone
      exact absurd hnone (by simp)
  | none =>
      simp only
      rcases hcf with ⟨hkey, X, hX, hXb, _⟩
      have hlt : ranksum L (moveToEnd st.1 b orig) < ranksum L st.1 := by
        refine ranksum_moveToEnd_lt L st.1 b orig X hb hwk ?_ ?_ hXb hbL
        · rw [hkeys]
          exact hkey
        · rw [hhome]
          exact hX
      have heq := ranksum_sweep L orig
        (regionInsts (moveToEnd st.1 b orig)
          (bfs (skel (moveToEnd st.1 b orig)) b))
        (moveToEnd st.1 b orig, st.2)
      exact ⟨le_of_lt (heq ▸ hlt), fun _ => heq ▸ hlt⟩

theorem pc_first (bfs : List (Nat × List Nat) × Nat → Nat → List Nat)
    (L : List Nat) (b : Nat) (f : Func) (st : Func × List Nat) (orig : Nat)
    (hwb : WFb st.1)
    (hwk : WFkeys st.1)
    (hkeys : keysOf st.1 = keysOf f)
    (hskel : skel st.1 = skel f)
    (hb : ∃ blk, blockOf st.1 b = some blk)
    (hhome : homeOf st.1 orig = homeOf f orig)
    (hcf : CandFact L (bfs (skel f) b) f b orig)
    (hbL : L.indexOf b < L.length) :
    (processCandidate bfs b st orig).2 ≠ [] ∨
    ranksum L (processCandidate bfs b st orig).1 < ranksum L st.1 := by
  cases hcbm : checkBeforeMove st.1 b orig with
  | none =>
      exact Or.inr ((pc_measure bfs L b f st orig hwk hkeys hb hhome hcf
        hbL).2 hcbm)
  | some c =>
      refine Or.inl ?_
      rw [processCandidate, hcbm]
      rcases hcf with ⟨hkey, X, hX, hXb, hXr⟩
      have hXst : homeOf st.1 orig = some X := hhome.trans hX
      rcases resides_of_homeOf st.1 hwb orig X hXst with ⟨blkX, hbX, horigX⟩
      rcases hb with ⟨blkF, hbF⟩
      rw [checkBeforeMove_some_blk st.1 b orig blkF hbF] at hcbm
      have hcmem := find?_mem_and_true hcbm
      have hcor : identicalTo st.1 c orig = true := hcmem.2
      have hoc : identicalTo st.1 orig c = true := identicalTo_symm st.1 c orig hcor
      have hXneb : X ≠ b := by
        intro he
        rw [he] at hXb
        exact absurd hXb (lt_irrefl _)
      have hne : orig ≠ c := by
        intro he
        have hcX : c ∈ blkX.insts := he ▸ horigX
        have heq : blkF = blkX :=
          same_block_of_shared st.1.blocks hwb.1 blkF
            (blockOf_mem st.1 b blkF hbF).1 blkX
            (blockOf_mem st.1 X blkX hbX).1 c hcmem.1 hcX
        apply hXneb
        rw [← (blockOf_mem st.1 X blkX hbX).2, ← heq,
          (blockOf_mem st.1 b blkF hbF).2]
      have hreg : orig ∈ regionInsts st.1 (bfs (skel st.1) b) := by
        rw [hskel]
        exact mem_regionInsts st.1 X orig blkX hbX horigX (bfs (skel f) b) hXr
      exact sweep_marks c (regionInsts st.1 (bfs (skel st.1) b)) st orig
        hreg hoc hne

theorem phase1_measure (bfs : List (Nat × List Nat) × Nat → Nat → List Nat)
    (L : List Nat) (b : Nat) (f : Func) :
    ∀ (cands : List Nat) (st : Func × List Nat),
      HInv st.1 b st.2 → WFb st.1 →
      keysOf st.1 = keysOf f → skel st.1 = skel f →
      (∃ blk, blockOf st.1 b = some blk) →
      (∀ x ∈ cands, homeOf st.1 x = homeOf f x) →
      cands.Nodup →
      (∀ x ∈ cands, CandFact L (bfs (skel f) b) f b x) →
      L.indexOf b < L.length →
      st.2.Nodup →
      HInv (cands.foldl (processCandidate bfs b) st).1 b
        (cands.foldl (processCandidate bfs b) st).2 ∧
      WFb (cands.foldl (processCandidate bfs b) st).1 ∧
      keysOf (cands.foldl (processCandidate bfs b) st).1 = keysOf f ∧
      skel (cands.foldl (processCandidate bfs b) st).1 = skel f ∧
      (cands.foldl (processCandidate bfs b) st).2.Nodup ∧
      ranksum L (cands.foldl (processCandidate bfs b) st).1 ≤
        ranksum L st.1 ∧
      (st.2 ≠ [] → (cands.foldl (processCandidate bfs b) st).2 ≠ []) ∧
      (cands ≠ [] →
        (cands.foldl (processCandidate bfs b) st).2 ≠ [] ∨
        ranksum L (cands.foldl (processCandidate bfs b) st).1 <
          ranksum L st.1) := by
  intro cands
  induction cands with
  | nil =>
      intro st hinv hwb hkeys hskel hb _ _ _ _ htd
      exact ⟨hinv, hwb, hkeys, hskel, htd, Nat.le_refl _, fun h => h,
        fun h => absurd rfl h⟩
  | cons orig rest ih =>
      intro st hinv hwb hkeys hskel hb hhome hnd hcf hbL htdnd
      rw [List.foldl_cons]
      have horigkey : orig ∈ keysOf st.1 := by
        rw [hkeys]
        exact (hcf orig (List.mem_cons_self _ _)).1
      have hstep := processCandidate_inv bfs b st orig hinv horigkey hb
      have hwb' := WFb_processCandidate bfs b st orig hwb horigkey
      have hskel' : skel (processCandidate bfs b st orig).1 = skel f :=
        (skel_processCandidate bfs b st orig).trans hskel
      have hkeys' : keysOf (processCandidate bfs b st orig).1 = keysOf f :=
        hstep.2.1.trans hkeys
      have hhomes' : ∀ x ∈ rest,
          homeOf (processCandidate bfs b st orig).1 x = homeOf f x := by
        intro x hx
        have hxo : x ≠ orig := by
          intro he
          exact (List.nodup_cons.mp hnd).1 (he ▸ hx)
        exact (pc_homes bfs b st orig x hxo).trans
          (hhome x (List.mem_cons_of_mem _ hx))
      have htd := processCandidate_toDel bfs b st orig
      have hmeas := pc_measure bfs L b f st orig hinv.1.1 hkeys hb
        (hhome orig (List.mem_cons_self _ _))
        (hcf orig (List.mem_cons_self _ _)) hbL
      have hfirst := pc_first bfs L b f st orig hwb hinv.1.1 hkeys hskel hb
        (hhome orig (List.mem_cons_self _ _))
        (hcf orig (List.mem_cons_self _ _)) hbL
      have hrec := ih (processCandidate bfs b st orig) hstep.1 hwb' hkeys'
        hskel' hstep.2.2 hhomes' (List.nodup_cons.mp hnd).2
        (fun x hx => hcf x (List.mem_cons_of_mem _ hx)) hbL
        (htd.1 htdnd)
      refine ⟨hrec.1, hrec.2.1, hrec.2.2.1, hrec.2.2.2.1, hrec.2.2.2.2.1,
        hrec.2.2.2.2.2.1.trans hmeas.1, ?_, ?_⟩
      · intro hne
        exact hrec.2.2.2.2.2.2.1 (htd.2 hne)
      · intro _
        rcases hfirst with hmark | hlt
        · exact Or.inl (hrec.2.2.2.2.2.2.1 hmark)
        · exact Or.inr (lt_of_le_of_lt hrec.2.2.2.2.2.1 hlt)

theorem erase_fold_WFkeys (dl : List Nat) :
    ∀ (g : Func), WFkeys g → WFkeys (dl.foldl eraseInst g) := by
  induction dl with
  | nil => intro g h; exact h
  | cons d rest ih =>
      intro g h
      rw [List.foldl_cons]
      exact ih _ (WFkeys_eraseInst g d h)

theorem erase_fold_WFb (dl : List Nat) :
    ∀ (g : Func), WFb g → WFb (dl.foldl eraseInst g) := by
  induction dl with
  | nil => intro g h; exact h
  | cons d rest ih =>
      intro g h
      rw [List.foldl_cons]
      exact ih _ (WFb_eraseInst g d h)

theorem erase_fold_WFselfFree (dl : List Nat) :
    ∀ (g : Func), WFselfFree g → WFselfFree (dl.foldl eraseInst g) := by
  induction dl with
  | nil => intro g h; exact h
  | cons d rest ih =>
      intro g h
      rw [List.foldl_cons]
      exact ih _ (WFselfFree_eraseInst g d h)

theorem hoist_decreases (bfs : List (Nat × List Nat) × Nat → Nat → List Nat)
    (L : List Nat) (f : Func) (b : Nat) (outM : List (Nat × List Nat))
    (hwu : WFuse f) (hwb : WFb f)
    (hout_ne : lookupSets outM b ≠ [])
    (hout_nd : (lookupSets outM b).Nodup)
    (hcf : ∀ x ∈ lookupSets outM b, CandFact L (bfs (skel f) b) f b x)
    (hbL : L.indexOf b < L.length)
    (hb : ∃ blk, blockOf f b = some blk) :
    measureF L (hoistInstructions bfs f b outM).1 < measureF L f ∧
    WFuse (hoistInstructions bfs f b outM).1 ∧
    WFb (hoistInstructions bfs f b outM).1 := by
  have hstart : HInv f b [] := by
    refine ⟨hwu, ?_, ?_, ?_⟩ <;> intro m hm <;> exact absurd hm (by simp)
  have hmain := phase1_measure bfs L b f (lookupSets outM b) (f, []) hstart
    hwb rfl rfl hb (fun x _ => rfl) hout_nd hcf hbL (by simp)
  obtain ⟨hinv, hwbr, hkeysr, _, htdnd, hrle, _, hdich⟩ := hmain
  have hdich2 := hdich hout_ne
  have hfinal : (hoistInstructions bfs f b outM).1 =
      (((lookupSets outM b).foldl (processCandidate bfs b) (f, [])).2).foldl
        eraseInst
        (((lookupSets outM b).foldl (processCandidate bfs b) (f, [])).1) :=
    rfl
  have hwfu_r := hinv.1
  have hnou := hinv.2.1
  have htdk := hinv.2.2.1
  have hlenr : (((lookupSets outM b).foldl (processCandidate bfs b)
      (f, [])).1).imap.length = f.imap.length := by
    have := congrArg List.length hkeysr
    simpa [keysOf] using this
  have hrle2 : ranksum L (((lookupSets outM b).foldl
      (processCandidate bfs b) (f, [])).1) ≤ ranksum L f := hrle
  refine ⟨?_, ?_, ?_⟩
  · rw [hfinal, measureF, measureF]
    rcases hdich2 with hmark | hlt
    · have hlen := erase_fold_length _ _ htdnd hwfu_r.1 htdk
      have hpos : 0 < (((lookupSets outM b).foldl (processCandidate bfs b)
          (f, [])).2).length := List.length_pos.mpr hmark
      have hr1 := erase_fold_ranksum_le L
        (((lookupSets outM b).foldl (processCandidate bfs b) (f, [])).2)
        (((lookupSets outM b).foldl (processCandidate bfs b) (f, [])).1)
      omega
    · have hlt2 : ranksum L (((lookupSets outM b).foldl
          (processCandidate bfs b) (f, [])).1) < ranksum L f := hlt
      have hlen := erase_fold_length_le
        (((lookupSets outM b).foldl (processCandidate bfs b) (f, [])).2)
        (((lookupSets outM b).foldl (processCandidate bfs b) (f, [])).1)
      have hr1 := erase_fold_ranksum_le L
        (((lookupSets outM b).foldl (processCandidate bfs b) (f, [])).2)
        (((lookupSets outM b).foldl (processCandidate bfs b) (f, [])).1)
      omega
  · rw [hfinal]
    exact ⟨erase_fold_WFkeys _ _ hwfu_r.1,
      erase_fold_preserves _ _ hwfu_r.2.1 hnou,
      erase_fold_WFselfFree _ _ hwfu_r.2.2⟩
  · rw [hfinal]
    exact erase_fold_WFb _ _ hwbr

/-! ### The scan and one full driver round -/

theorem hoist_eq (bfs : List (Nat × List Nat) × Nat → Nat → List Nat)
    (f : Func) (b : Nat) (outM : List (Nat × List Nat)) :
    hoistInstructions bfs f b outM =
      ((((lookupSets outM b).foldl (processCandidate bfs b) (f, [])).2).foldl
        eraseInst
        (((lookupSets outM b).foldl (processCandidate bfs b) (f, [])).1),
       !(lookupSets outM b).isEmpty) := rfl

theorem hoist_id_of_empty
    (bfs : List (Nat × List Nat) × Nat → Nat → List Nat)
    (f : Func) (b : Nat) (outM : List (Nat × List Nat))
    (h : lookupSets outM b = []) :
    hoistInstructions bfs f b outM = (f, false) := by
  rw [hoist_eq, h]
  rfl

theorem scanGo_fire (bfs : List (Nat × List Nat) × Nat → Nat → List Nat)
    (outM : List (Nat × List Nat)) :
    ∀ (l : List Nat) (f : Func), (scanGo bfs outM f l).2 = true →
      ∃ F ∈ l, lookupSets outM F ≠ [] ∧
        (scanGo bfs outM f l).1 = (hoistInstructions bfs f F outM).1 := by
  intro l
  induction l with
  | nil => intro f h; exact absurd h (by simp [scanGo])
  | cons b rest ih =>
      intro f hfire
      rw [scanGo] at hfire ⊢
      by_cases hc : (hoistInstructions bfs f b outM).2 = true
      · rw [if_pos hc]
        refine ⟨b, List.mem_cons_self _ _, ?_, rfl⟩
        intro hemp
        rw [hoist_id_of_empty bfs f b outM hemp] at hc
        exact absurd hc (by simp)
      · rw [if_neg hc] at hfire ⊢
        have hemp : lookupSets outM b = [] := by
          by_contra hne
          apply hc
          rw [hoist_eq]
          simpa using hne
        rw [hoist_id_of_empty bfs f b outM hemp] at hfire ⊢
        rcases ih f hfire with ⟨F, hF, hFne, heq⟩
        exact ⟨F, List.mem_cons_of_mem _ hF, hFne, heq⟩

theorem scanGo_no_fire (bfs : List (Nat × List Nat) × Nat → Nat → List Nat)
    (outM : List (Nat × List Nat)) :
    ∀ (l : List Nat) (f : Func), (scanGo bfs outM f l).2 = false →
      (scanGo bfs outM f l).1 = f := by
  intro l
  induction l with
  | nil => intro f _; rfl
  | cons b rest ih =>
      intro f hno
      rw [scanGo] at hno ⊢
      by_cases hc : (hoistInstructions bfs f b outM).2 = true
      · rw [if_pos hc] at hno
        exact absurd hno (by simp)
      · rw [if_neg hc] at hno ⊢
        have hemp : lookupSets outM b = [] := by
          by_contra hne
          apply hc
          rw [hoist_eq]
          simpa using hne
        rw [hoist_id_of_empty bfs f b outM hemp] at hno ⊢
        exact ih f hno

theorem roundStep_decreases (ord scan : List (Nat × List Nat) × Nat → List Nat)
    (bfs : List (Nat × List Nat) × Nat → Nat → List Nat) (tli : TLI)
    (f : Func)
    (hwu : WFuse f) (hwb : WFb f)
    (hord : (ord (skel f)).Nodup)
    (hcl : ∀ b ∈ scan (skel f), b ∈ bfs (skel f) b ∧
      ∀ x ∈ bfs (skel f) b, ∀ s ∈ succsOfS (skel f) x, s ∈ bfs (skel f) b)
    (hfire : (roundStep ord scan bfs tli f).2 = true) :
    measureF (ord (skel f)) (roundStep ord scan bfs tli f).1 <
      measureF (ord (skel f)) f ∧
    WFuse (roundStep ord scan bfs tli f).1 ∧
    WFb (roundStep ord scan bfs tli f).1 := by
  rw [roundStep] at hfire
  rcases scanGo_fire bfs (analyzeF tli f (ord (skel f))).outM (scan (skel f))
    f hfire with ⟨F, hFmem, hFne, heq⟩
  have hrw : (roundStep ord scan bfs tli f).1 =
      (hoistInstructions bfs f F (analyzeF tli f (ord (skel f))).outM).1 :=
    heq
  have hfacts := analyzeF_outM_facts tli f (ord (skel f)) F
  have hb : ∃ blk, blockOf f F = some blk := hfacts.1 hFne
  have hout := (analyzeF_inv tli f (ord (skel f))).2.2 F
  have hcand : ∀ x ∈ lookupSets (analyzeF tli f (ord (skel f))).outM F,
      CandFact (ord (skel f)) (bfs (skel f) F) f F x := by
    intro x hx
    rcases hout x hx with ⟨jb, _, hgF, X, jx, hjx, hgX, hre, hres, _⟩
    have hidF : (ord (skel f)).indexOf F = jb :=
      indexOf_of_get? (ord (skel f)) hord jb F hgF
    have hidX : (ord (skel f)).indexOf X = jx :=
      indexOf_of_get? (ord (skel f)) hord jx X hgX
    have hhr := homeOf_resides f x X hwb hres
    refine ⟨hhr.2, X, hhr.1, by omega, ?_⟩
    refine reach_mem_closure f (bfs (skel f) F) F X (hcl F hFmem).1 ?_ hre
    intro y hy s hs
    refine (hcl F hFmem).2 y hy s ?_
    rw [succsOfS_skel]
    exact hs
  have hbL : (ord (skel f)).indexOf F < (ord (skel f)).length := by
    rcases List.exists_mem_of_ne_nil _ hFne with ⟨x, hx⟩
    rcases hout x hx with ⟨jb, hjb, hgF, _⟩
    have hidF : (ord (skel f)).indexOf F = jb :=
      indexOf_of_get? (ord (skel f)) hord jb F hgF
    omega
  have hmain := hoist_decreases bfs (ord (skel f)) f F
    (analyzeF tli f (ord (skel f))).outM hwu hwb hFne hfacts.2 hcand hbL hb
  rw [hrw]
  exact hmain

theorem drive_measure (ord scan : List (Nat × List Nat) × Nat → List Nat)
    (bfs : List (Nat × List Nat) × Nat → Nat → List Nat) (tli : TLI) :
    ∀ (k : Nat) (f : Func), WFuse f → WFb f → (ord (skel f)).Nodup →
      (∀ b ∈ scan (skel f), b ∈ bfs (skel f) b ∧
        ∀ x ∈ bfs (skel f) b, ∀ s ∈ succsOfS (skel f) x, s ∈ bfs (skel f) b) →
      measureF (ord (skel f)) f ≤ k →
      ∃ n, convergedF ord scan bfs tli (driveN ord scan bfs tli n f) := by
  intro k
  induction k with
  | zero =>
      intro f hwu hwb hord hcl hm
      by_cases hf : (roundStep ord scan bfs tli f).2 = true
      · have := (roundStep_decreases ord scan bfs tli f hwu hwb hord hcl hf).1
        omega
      · refine ⟨0, ?_⟩
        show (roundStep ord scan bfs tli f).2 = false
        cases hsnd : (roundStep ord scan bfs tli f).2 with
        | false => rfl
        | true => exact absurd hsnd hf
  | succ k ih =>
      intro f hwu hwb hord hcl hm
      by_cases hf : (roundStep ord scan bfs tli f).2 = true
      · obtain ⟨hlt, hwu', hwb'⟩ :=
          roundStep_decreases ord scan bfs tli f hwu hwb hord hcl hf
        have hskel := skel_roundStep ord scan bfs tli f
        have hord' : (ord (skel (roundStep ord scan bfs tli f).1)).Nodup := by
          rw [hskel]
          exact hord
        have hcl' : ∀ b ∈ scan (skel (roundStep ord scan bfs tli f).1),
            b ∈ bfs (skel (roundStep ord scan bfs tli f).1) b ∧
            ∀ x ∈ bfs (skel (roundStep ord scan bfs tli f).1) b,
              ∀ s ∈ succsOfS (skel (roundStep ord scan bfs tli f).1) x,
                s ∈ bfs (skel (roundStep ord scan bfs tli f).1) b := by
          rw [hskel]
          exact hcl
        have hm' : measureF (ord (skel (roundStep ord scan bfs tli f).1))
            (roundStep ord scan bfs tli f).1 ≤ k := by
          rw [hskel]
          omega
        rcases ih (roundStep ord scan bfs tli f).1 hwu' hwb' hord' hcl' hm'
          with ⟨n, hn⟩
        refine ⟨n + 1, ?_⟩
        rw [driveN]
        rw [if_pos hf]
        exact hn
      · refine ⟨0, ?_⟩
        show (roundStep ord scan bfs tli f).2 = false
        cases hsnd : (roundStep ord scan bfs tli f).2 with
        | false => rfl
        | true => exact absurd hsnd hf

/-- Claim C7: on a well-formed function model (duplicate-free stored ids,
closed operand references, no self-references, well-formed block layout),
with a duplicate-free analysis walk and breadth-first block orders that
contain their start block and are closed under CFG successors, the driver's
outer loop — rebuild all sets, rescan, restart after the first block whose
Hoister reports a change — reaches its Converged state after finitely many
rounds: each firing round either deletes a stored instruction or relocates
instructions into strictly later analysis positions, so the measure
`measureF` strictly decreases. -/
theorem driverTerminates (ord scan : List (Nat × List Nat) × Nat → List Nat)
    (bfs : List (Nat × List Nat) × Nat → Nat → List Nat) (tli : TLI)
    (f : Func)
    (hwu : WFuse f) (hwb : WFb f)
    (hord : (ord (skel f)).Nodup)
    (hcl : ∀ b ∈ scan (skel f), b ∈ bfs (skel f) b ∧
      ∀ x ∈ bfs (skel f) b, ∀ s ∈ succsOfS (skel f) x, s ∈ bfs (skel f) b) :
    ∃ n, convergedF ord scan bfs tli (driveN ord scan bfs tli n f) :=
  drive_measure ord scan bfs tli (measureF (ord (skel f)) f) f hwu hwb hord
    hcl (Nat.le_refl _)

/-- The analysis (post-order) walk of `wFun` used by the driver witness. -/
def wOrd : List (Nat × List Nat) × Nat → List Nat := fun _ => [3, 1, 2, 0]

/-- The driver's breadth-first scan order of `wFun`. -/
def wScan : List (Nat × List Nat) × Nat → List Nat := fun _ => [0, 1, 2, 3]

/-- Witness for the C7 theorem: the driver terminates on the diamond
`wFun`. -/
theorem driverTerminates_witness :
    ∃ n, convergedF wOrd wScan wBfs cexTLI
      (driveN wOrd wScan wBfs cexTLI n wFun) :=
  driverTerminates wOrd wScan wBfs cexTLI wFun
    ⟨by decide, WFr_of_check wFun (by decide), by decide⟩
    (by decide) (by decide) (by decide)

/-! ### Idempotence of the converged state (C8) -/

theorem roundStep_of_converged
    (ord scan : List (Nat × List Nat) × Nat → List Nat)
    (bfs : List (Nat × List Nat) × Nat → Nat → List Nat) (tli : TLI)
    (g : Func) (h : convergedF ord scan bfs tli g) :
    roundStep ord scan bfs tli g = (g, false) := by
  have h2 : (roundStep ord scan bfs tli g).2 = false := h
  have h1 : (roundStep ord scan bfs tli g).1 = g := by
    rw [roundStep]
    exact scanGo_no_fire bfs _ _ g h2
  have heta : roundStep ord scan bfs tli g =
      ((roundStep ord scan bfs tli g).1,
       (roundStep ord scan bfs tli g).2) := rfl
  rw [heta, h1, h2]

/-- Claim C8: once the driver has reached its Converged state (a full scan
reports no change), running the core again is a no-op: the next round
returns the function unchanged with no change reported, and any number of
further driver rounds leaves the function unchanged — no relocation, no use
redirection, no deletion is performed. -/
theorem coreIdempotent (ord scan : List (Nat × List Nat) × Nat → List Nat)
    (bfs : List (Nat × List Nat) × Nat → Nat → List Nat) (tli : TLI)
    (g : Func) (hconv : convergedF ord scan bfs tli g) :
    roundStep ord scan bfs tli g = (g, false) ∧
    ∀ m, driveN ord scan bfs tli m g = g := by
  have h2 : (roundStep ord scan bfs tli g).2 = false := hconv
  refine ⟨roundStep_of_converged ord scan bfs tli g hconv, ?_⟩
  intro m
  cases m with
  | zero => rfl
  | succ m' =>
      rw [driveN]
      rw [if_neg (by rw [h2]; exact Bool.false_ne_true)]

/-- A one-block function on which the driver is already converged. -/
def wConv : Func := ⟨0, [⟨0, [1], []⟩], [(1, ⟨Op.term 0, []⟩)]⟩

/-- Witness for the C8 theorem on the converged `wConv`. -/
theorem coreIdempotent_witness :
    roundStep wOrd wScan wBfs cexTLI wConv = (wConv, false) ∧
    driveN wOrd wScan wBfs cexTLI 5 wConv = wConv :=
  ⟨(coreIdempotent wOrd wScan wBfs cexTLI wConv
      (by decide : (roundStep wOrd wScan wBfs cexTLI wConv).2 = false)).1,
   (coreIdempotent wOrd wScan wBfs cexTLI wConv
      (by decide : (roundStep wOrd wScan wBfs cexTLI wConv).2 = false)).2 5⟩
